import Mathlib

set_option maxRecDepth 100000

/-!
Verification of the GyroMaze procedural maze-generation engine
(`maze_generator.py`, with the level catalog of `levels.py` and the tile
constants of `config.py`).

The Python source is shallowly embedded:
  * tile constants become the inductive type `Tile`;
  * tile coordinates `(x, y)` are pairs of integers (`Pos`), lattice cells
    `(row, col)` are pairs of naturals (`Cell`);
  * the tile grid (a Python list of lists) is a `List (List Tile)`;
  * Python dictionaries `self.parent` / `self.rank` become total functions
    over cells (every access in the source happens after `_initialize_dsu`
    registered the cell, so totalizing the maps does not change behaviour);
  * `random.shuffle` and `random.randrange` are modelled by an explicit
    record of choice functions (`Rnd`); theorems quantify over all records
    whose shuffles are permutations, which covers every run of the source;
  * Python `None` results and unreachable exception paths are distinguished
    by the `GenResult` type.
-/

namespace GyroMaze

/-- The tile alphabet of `config.py`
(`TILE_WALL`, `TILE_PATH`, `TILE_PLAYER_START`, `TILE_EXIT`,
`TILE_OBSTACLE`, `TILE_COLLECTIBLE`). -/
inductive Tile where
  | wall
  | path
  | player_start
  | exit_mark
  | obstacle
  | collectible
deriving DecidableEq, Repr

/-- A tile coordinate `(x, y)`, as used by `_find_reachable_nodes` and the
placement code. Integers, because the BFS forms `x + dx` with `dx = -1`. -/
abbrev Pos : Type := Int × Int

/-- A lattice cell `(row, col)` of the maze generator. -/
abbrev Cell : Type := Nat × Nat

/-- An unordered lattice adjacency, stored as an ordered pair exactly as the
source stores it in the `walls` list. -/
abbrev Edge : Type := Cell × Cell

/-- The tile grid. -/
abbrev Layout : Type := List (List Tile)

/-- `len(layout)`. -/
def layoutHeight (l : Layout) : Nat := l.length

/-- `len(layout[0])` (0 for an empty grid; the source only evaluates this on
nonempty grids). -/
def layoutWidth (l : Layout) : Nat := (l.headD []).length

/-- `layout[y][x]`. Out-of-range coordinates (never dereferenced by the
source, whose accesses are all bounds-guarded) read as `Tile.wall`. -/
def tileAt (l : Layout) (p : Pos) : Tile :=
  if 0 ≤ p.1 ∧ 0 ≤ p.2 then (l.getD p.2.toNat []).getD p.1.toNat Tile.wall
  else Tile.wall

/-- `layout[y][x] = t` (in-place row update in the source). -/
def setTile (l : Layout) (x y : Nat) (t : Tile) : Layout :=
  l.set y ((l.getD y []).set x t)

/-- The bounds test `0 <= nx < width and 0 <= ny < height` of
`_find_reachable_nodes`. -/
def inB (l : Layout) (p : Pos) : Bool :=
  0 ≤ p.1 && p.1 < (layoutWidth l : Int) && 0 ≤ p.2 && p.2 < (layoutHeight l : Int)

/-- The four neighbour offsets `[(0, 1), (0, -1), (1, 0), (-1, 0)]` applied
to a position. -/
def nbrs (p : Pos) : List Pos :=
  [(p.1, p.2 + 1), (p.1, p.2 - 1), (p.1 + 1, p.2), (p.1 - 1, p.2)]

/-- The neighbour admission test of the BFS inner loop: in bounds, not yet
visited, not a wall, not an obstacle.  (The source updates `visited` inside
the loop over the four offsets; since the four neighbours of a tile are
pairwise distinct positions, filtering them against the `visited` set from
the start of the iteration is equivalent.) -/
def bfs_candidates (l : Layout) (obst : List Pos) (visited : List Pos) (p : Pos) :
    List Pos :=
  (nbrs p).filter (fun q =>
    inB l q && !(decide (q ∈ visited)) && !(decide (tileAt l q = Tile.wall))
      && !(decide (q ∈ obst)))

/-- The finite set of in-bounds positions (used only as a termination
measure for the BFS). -/
def inBFinset (l : Layout) : Finset Pos :=
  Finset.Icc 0 ((layoutWidth l : Int) - 1) ×ˢ Finset.Icc 0 ((layoutHeight l : Int) - 1)

theorem inB_iff_mem_inBFinset (l : Layout) (p : Pos) :
    inB l p = true ↔ p ∈ inBFinset l := by
  cases p with
  | mk x y =>
    simp only [inB, inBFinset, Finset.mem_product, Finset.mem_Icc,
      Bool.and_eq_true, decide_eq_true_eq]
    omega

/-- Number of in-bounds positions not yet visited (termination measure). -/
def unvisitedCount (l : Layout) (visited : List Pos) : Nat :=
  ((inBFinset l).filter (fun p => p ∉ visited)).card

theorem unvisitedCount_append_lt (l : Layout) (visited ns : List Pos)
    (q : Pos) (hq : q ∈ ns) (hqb : inB l q = true) (hqv : q ∉ visited) :
    unvisitedCount l (visited ++ ns) < unvisitedCount l visited := by
  apply Finset.card_lt_card
  constructor
  · intro p hp
    simp only [Finset.mem_filter, List.mem_append] at hp ⊢
    exact ⟨hp.1, fun h => hp.2 (Or.inl h)⟩
  · intro hsub
    have hqmem : q ∈ (inBFinset l).filter (fun p => p ∉ visited) := by
      simp only [Finset.mem_filter]
      exact ⟨(inB_iff_mem_inBFinset l q).mp hqb, hqv⟩
    have := hsub hqmem
    simp only [Finset.mem_filter, List.mem_append] at this
    exact this.2 (Or.inr hq)

/-- The BFS main loop of `_find_reachable_nodes`: pop the queue head, admit
its fresh neighbours to the visited set and the queue tail, repeat until the
queue is empty. -/
def bfs_loop (l : Layout) (obst : List Pos) : List Pos → List Pos → List Pos
  | [], visited => visited
  | p :: rest, visited =>
    bfs_loop l obst (rest ++ bfs_candidates l obst visited p)
      (visited ++ bfs_candidates l obst visited p)
termination_by queue visited => (unvisitedCount l visited, queue.length)
decreasing_by
  rcases hns : bfs_candidates l obst visited p with _ | ⟨q, ns'⟩
  · simp only [List.append_nil]
    exact Prod.Lex.right _ (Nat.lt_succ_self _)
  · apply Prod.Lex.left
    have hq : q ∈ bfs_candidates l obst visited p := by
      rw [hns]; exact List.mem_cons_self _ _
    have hprops := List.of_mem_filter hq
    simp only [Bool.and_eq_true, Bool.not_eq_true', decide_eq_false_iff_not] at hprops
    exact unvisitedCount_append_lt l visited _ q
      (List.mem_cons_self _ _) hprops.1.1.1 hprops.1.1.2

/-- `_find_reachable_nodes(layout, start_pos, obstacles)`: breadth-first
flood fill seeded with `start_pos`; returns the visited set (as the list of
positions in insertion order — the source returns a Python set whose
mathematical content is exactly this list's membership). -/
def find_reachable_nodes (layout : Layout) (start_pos : Pos)
    (obstacles : List Pos := []) : List Pos :=
  bfs_loop layout obstacles [start_pos] [start_pos]

/-! ### Specification of the Reachability Analyzer -/

/-- One admissible BFS move: `b` is one of the four neighbours of `a`, lies
inside the grid, is not a wall and is not blocked.  (Out-of-bounds
neighbours admit no step, which is how the source treats them as
unreachable.) -/
def stepOK (l : Layout) (obst : List Pos) (a b : Pos) : Prop :=
  b ∈ nbrs a ∧ inB l b = true ∧ tileAt l b ≠ Tile.wall ∧ b ∉ obst

/-- `b` is reachable from `a` by a chain of admissible BFS moves. -/
def TileReach (l : Layout) (obst : List Pos) (a b : Pos) : Prop :=
  Relation.ReflTransGen (stepOK l obst) a b

/-- A rectangular grid: every row has the width of the first row. -/
def Rectangular (l : Layout) : Prop :=
  ∀ row ∈ l, row.length = layoutWidth l

instance (l : Layout) : Decidable (Rectangular l) := by
  unfold Rectangular; infer_instance

theorem mem_bfs_candidates {l : Layout} {obst visited : List Pos} {p q : Pos} :
    q ∈ bfs_candidates l obst visited p ↔
      q ∈ nbrs p ∧ ((inB l q = true ∧ q ∉ visited) ∧ tileAt l q ≠ Tile.wall)
        ∧ q ∉ obst := by
  simp only [bfs_candidates, List.mem_filter, Bool.and_eq_true,
    Bool.not_eq_true', decide_eq_false_iff_not, ne_eq]

theorem stepOK_of_mem_candidates {l : Layout} {obst visited : List Pos}
    {p q : Pos} (h : q ∈ bfs_candidates l obst visited p) : stepOK l obst p q := by
  rcases mem_bfs_candidates.mp h with ⟨h1, ⟨⟨h2, _⟩, h3⟩, h4⟩
  exact ⟨h1, h2, h3, h4⟩

theorem bfs_loop_superset (l : Layout) (obst : List Pos)
    (queue visited : List Pos) : visited ⊆ bfs_loop l obst queue visited := by
  induction queue, visited using bfs_loop.induct l obst with
  | case1 visited => simp [bfs_loop]
  | case2 p rest visited ih =>
    rw [bfs_loop]
    exact fun x hx => ih (List.mem_append.mpr (Or.inl hx))

theorem bfs_loop_sound (l : Layout) (obst : List Pos) (s : Pos)
    (queue visited : List Pos) :
    queue ⊆ visited → (∀ x ∈ visited, TileReach l obst s x) →
    ∀ x ∈ bfs_loop l obst queue visited, TileReach l obst s x := by
  induction queue, visited using bfs_loop.induct l obst with
  | case1 visited =>
    intro _ hv
    simpa [bfs_loop] using hv
  | case2 p rest visited ih =>
    intro hq hv
    rw [bfs_loop]
    apply ih
    · intro x hx
      rcases List.mem_append.mp hx with h | h
      · exact List.mem_append.mpr (Or.inl (hq (List.mem_cons_of_mem _ h)))
      · exact List.mem_append.mpr (Or.inr h)
    · intro x hx
      rcases List.mem_append.mp hx with h | h
      · exact hv x h
      · exact Relation.ReflTransGen.tail (hv p (hq (List.mem_cons_self _ _)))
          (stepOK_of_mem_candidates h)

theorem bfs_loop_closed (l : Layout) (obst : List Pos)
    (queue visited : List Pos) :
    queue ⊆ visited →
    (∀ a ∈ visited, ∀ b, stepOK l obst a b → b ∈ visited ∨ a ∈ queue) →
    ∀ a ∈ bfs_loop l obst queue visited, ∀ b, stepOK l obst a b →
      b ∈ bfs_loop l obst queue visited := by
  induction queue, visited using bfs_loop.induct l obst with
  | case1 visited =>
    intro _ hinv a ha b hb
    simp only [bfs_loop] at ha ⊢
    rcases hinv a ha b hb with h | h
    · exact h
    · exact absurd h (List.not_mem_nil a)
  | case2 p rest visited ih =>
    intro hq hinv
    rw [bfs_loop]
    apply ih
    · intro x hx
      rcases List.mem_append.mp hx with h | h
      · exact List.mem_append.mpr (Or.inl (hq (List.mem_cons_of_mem _ h)))
      · exact List.mem_append.mpr (Or.inr h)
    · intro a ha b hb
      rcases List.mem_append.mp ha with hav | han
      · rcases hinv a hav b hb with h | h
        · exact Or.inl (List.mem_append.mpr (Or.inl h))
        · rcases List.mem_cons.mp h with rfl | hrest
          · by_cases hbv : b ∈ visited
            · exact Or.inl (List.mem_append.mpr (Or.inl hbv))
            · refine Or.inl (List.mem_append.mpr (Or.inr ?_))
              exact mem_bfs_candidates.mpr ⟨hb.1, ⟨⟨hb.2.1, hbv⟩, hb.2.2.1⟩, hb.2.2.2⟩
          · exact Or.inr (List.mem_append.mpr (Or.inl hrest))
      · exact Or.inr (List.mem_append.mpr (Or.inr han))

theorem mem_find_reachable_nodes_self (l : Layout) (s : Pos) (obst : List Pos) :
    s ∈ find_reachable_nodes l s obst :=
  bfs_loop_superset l obst [s] [s] (List.mem_cons_self _ _)

theorem mem_find_reachable_nodes_iff {l : Layout} {obst : List Pos} {s p : Pos} :
    p ∈ find_reachable_nodes l s obst ↔ TileReach l obst s p := by
  constructor
  · intro hp
    refine bfs_loop_sound l obst s [s] [s] (fun x hx => hx) ?_ p hp
    intro x hx
    rcases List.mem_cons.mp hx with rfl | hx
    · exact Relation.ReflTransGen.refl
    · exact absurd hx (List.not_mem_nil x)
  · intro hreach
    induction hreach with
    | refl => exact mem_find_reachable_nodes_self l s obst
    | tail _ hstep ih =>
      refine bfs_loop_closed l obst [s] [s] (fun x hx => hx) ?_ _ ih _ hstep
      intro a ha b _
      rcases List.mem_cons.mp ha with rfl | hx
      · exact Or.inr (List.mem_cons_self _ _)
      · exact absurd hx (List.not_mem_nil a)

theorem find_reachable_nodes_nodup (l : Layout) (s : Pos) (obst : List Pos) :
    (find_reachable_nodes l s obst).Nodup := by
  have key : ∀ queue visited, visited.Nodup →
      (bfs_loop l obst queue visited).Nodup := by
    intro queue visited
    induction queue, visited using bfs_loop.induct l obst with
    | case1 visited => intro h; simpa [bfs_loop] using h
    | case2 p rest visited ih =>
      intro h
      rw [bfs_loop]
      apply ih
      apply List.Nodup.append h
      · have hnbrs : (nbrs p).Nodup := by
          rcases p with ⟨x, y⟩
          simp only [nbrs, List.nodup_cons, List.mem_cons, List.mem_singleton,
            List.not_mem_nil, Prod.mk.injEq, not_or, List.nodup_nil, and_true,
            or_false]
          repeat' apply And.intro
          all_goals first | omega | trivial
        exact hnbrs.filter _
      · intro a ha hav
        exact (mem_bfs_candidates.mp hav).2.1.1.2 ha
  exact key [s] [s] (List.nodup_singleton s)

/-! ### The disjoint-set union of `MazeGenerator`

`self.parent` / `self.rank` are Python dictionaries; every key accessed by
the source is registered by `_initialize_dsu` beforehand, so they are
modelled as total functions that are the identity (resp. zero) outside the
registered domain.  The recursive `_find_set` needs a termination argument
in Lean; `fuel` bounds the recursion depth, and `find_set_spec` below shows
that with `fuel` at least the chain length the fuel never runs out, so the
fuel-free Python recursion is captured exactly. -/

/-- `r` is the representative of `c`'s class: the parent chain from `c`
reaches `r`, and `r` is its own parent. -/
def IsRootOf (parent : Cell → Cell) (c r : Cell) : Prop :=
  (∃ n, parent^[n] c = r) ∧ parent r = r

/-- `_find_set(cell)`: returns the class representative and the parent map
with every link on the traversed chain compressed to point at the root. -/
def find_set (fuel : Nat) (parent : Cell → Cell) (cell : Cell) :
    Cell × (Cell → Cell) :=
  match fuel with
  | 0 => (cell, parent)
  | fuel + 1 =>
    if parent cell = cell then (cell, parent)
    else
      let r := find_set fuel parent (parent cell)
      (r.1, Function.update r.2 cell r.1)

/-- The `parent`/`rank` state of the generator's DSU. -/
structure DSU where
  parent : Cell → Cell
  rank : Cell → Nat

/-- `_unite_sets(cell1, cell2)`: union by rank; returns whether a merge
happened together with the updated state. -/
def unite_sets (fuel : Nat) (s : DSU) (cell1 cell2 : Cell) : Bool × DSU :=
  let f1 := find_set fuel s.parent cell1
  let f2 := find_set fuel f1.2 cell2
  if f1.1 ≠ f2.1 then
    let roots := if s.rank f1.1 < s.rank f2.1 then (f2.1, f1.1) else (f1.1, f2.1)
    (true,
      { parent := Function.update f2.2 roots.2 roots.1,
        rank :=
          if s.rank roots.1 = s.rank roots.2 then
            Function.update s.rank roots.1 (s.rank roots.1 + 1)
          else s.rank })
  else (false, { parent := f2.2, rank := s.rank })

/-- Well-formedness of the parent map over the registered domain: the
domain is closed under `parent`, cells outside the domain are their own
parents (they were never registered nor touched), and every chain reaches a
root. -/
def DSUWF (parent : Cell → Cell) (dom : Finset Cell) : Prop :=
  (∀ c ∈ dom, parent c ∈ dom) ∧ (∀ c, c ∉ dom → parent c = c) ∧
    (∀ c ∈ dom, ∃ r, IsRootOf parent c r)

theorem isRootOf_fixed {parent : Cell → Cell} {r : Cell} (h : parent r = r) :
    IsRootOf parent r r :=
  ⟨⟨0, rfl⟩, h⟩

theorem IsRootOf.unique {parent : Cell → Cell} {c r1 r2 : Cell}
    (h1 : IsRootOf parent c r1) (h2 : IsRootOf parent c r2) : r1 = r2 := by
  obtain ⟨⟨n, hn⟩, hfix1⟩ := h1
  obtain ⟨⟨m, hm⟩, hfix2⟩ := h2
  rcases Nat.le_total n m with h | h
  · obtain ⟨k, rfl⟩ := Nat.exists_eq_add_of_le h
    rw [Nat.add_comm, Function.iterate_add_apply, hn, Function.iterate_fixed hfix1] at hm
    exact hm
  · obtain ⟨k, rfl⟩ := Nat.exists_eq_add_of_le h
    rw [Nat.add_comm, Function.iterate_add_apply, hm, Function.iterate_fixed hfix2] at hn
    exact hn.symm

/-- Every global point has a root when the map is well-formed (outside the
domain every point is its own root). -/
theorem DSUWF.exists_root {parent : Cell → Cell} {dom : Finset Cell}
    (h : DSUWF parent dom) (c : Cell) : ∃ r, IsRootOf parent c r := by
  by_cases hc : c ∈ dom
  · exact h.2.2 c hc
  · exact ⟨c, isRootOf_fixed (h.2.1 c hc)⟩

/-- The chain of cells visited by `_find_set` before it reaches the root. -/
def chainList (parent : Cell → Cell) (c : Cell) (n : Nat) : List Cell :=
  (List.range n).map (fun i => parent^[i] c)

theorem chain_periodic {parent : Cell → Cell} {c : Cell} {i d : Nat}
    (hd : parent^[i + d] c = parent^[i] c) :
    ∀ k, parent^[i + k * d] c = parent^[i] c := by
  intro k
  induction k with
  | zero => simp
  | succ k ih =>
    have : i + (k + 1) * d = d + (i + k * d) := by ring
    rw [this, Function.iterate_add_apply, ih, ← Function.iterate_add_apply,
      Nat.add_comm d i, hd]

/-- On a minimal chain (no element before step `n` is a fixpoint, step `n`
is the root), the visited cells are pairwise distinct. -/
theorem chain_min_inj {parent : Cell → Cell} {c r : Cell} {n : Nat}
    (hroot : parent^[n] c = r) (hfix : parent r = r)
    (hmin : ∀ i < n, parent (parent^[i] c) ≠ parent^[i] c) :
    ∀ i j, i < j → j ≤ n → parent^[i] c ≠ parent^[j] c := by
  intro i j hij hjn heq
  have hd : parent^[i + (j - i)] c = parent^[i] c := by
    rw [Nat.add_sub_cancel' (Nat.le_of_lt hij)]; exact heq.symm
  have hper := chain_periodic hd n
  have hin : i < n := Nat.lt_of_lt_of_le hij hjn
  have hbig : n ≤ i + n * (j - i) := by
    have h1 : 1 ≤ j - i := by omega
    calc n ≤ n * (j - i) := Nat.le_mul_of_pos_right n (by omega)
    _ ≤ i + n * (j - i) := Nat.le_add_left _ _
  obtain ⟨k, hk⟩ := Nat.exists_eq_add_of_le hbig
  have : parent^[i + n * (j - i)] c = r := by
    rw [hk, Nat.add_comm, Function.iterate_add_apply, hroot,
      Function.iterate_fixed hfix]
  rw [hper] at this
  exact hmin i hin (by rw [this, hfix])

theorem chainList_nodup {parent : Cell → Cell} {c r : Cell} {n : Nat}
    (hroot : parent^[n] c = r) (hfix : parent r = r)
    (hmin : ∀ i < n, parent (parent^[i] c) ≠ parent^[i] c) :
    (chainList parent c n).Nodup := by
  apply List.Nodup.map_on _ (List.nodup_range n)
  intro i hi j hj heq
  simp only [List.mem_range] at hi hj
  by_contra hne
  rcases Nat.lt_or_ge i j with h | h
  · exact chain_min_inj hroot hfix hmin i j h (Nat.le_of_lt hj) heq
  · have : j < i := by omega
    exact chain_min_inj hroot hfix hmin j i this (Nat.le_of_lt hi) heq.symm

theorem root_not_mem_chainList {parent : Cell → Cell} {c r : Cell} {n : Nat}
    (hfix : parent r = r)
    (hmin : ∀ i < n, parent (parent^[i] c) ≠ parent^[i] c) :
    r ∉ chainList parent c n := by
  intro hmem
  simp only [chainList, List.mem_map, List.mem_range] at hmem
  obtain ⟨i, hi, heq⟩ := hmem
  exact hmin i hi (by rw [heq, hfix])

/-- The parent map produced by a `_find_set` call: exactly the cells on the
visited chain are repointed to the root. -/
def compress (parent : Cell → Cell) (c : Cell) (n : Nat) (r : Cell) :
    Cell → Cell :=
  fun x => if x ∈ chainList parent c n then r else parent x

theorem compress_apply (parent : Cell → Cell) (c : Cell) (n : Nat) (r x : Cell) :
    compress parent c n r x = if x ∈ chainList parent c n then r else parent x :=
  rfl

/-- Exact description of `_find_set`: with enough fuel it returns the root
and the parent map in which precisely the visited chain has been repointed
to the root. -/
theorem find_set_spec {parent : Cell → Cell} {c r : Cell} {n : Nat}
    (hroot : parent^[n] c = r) (hfix : parent r = r)
    (hmin : ∀ i < n, parent (parent^[i] c) ≠ parent^[i] c) :
    ∀ fuel, n + 1 ≤ fuel →
      find_set fuel parent c = (r, compress parent c n r) := by
  induction n generalizing c with
  | zero =>
    intro fuel hfuel
    obtain ⟨f, rfl⟩ := Nat.exists_eq_add_of_le hfuel
    simp only [Function.iterate_zero, id_eq] at hroot
    subst hroot
    rw [Nat.add_comm]
    simp only [find_set, hfix, if_pos rfl]
    refine Prod.ext rfl ?_
    funext x
    simp [compress, chainList]
  | succ m ih =>
    intro fuel hfuel
    obtain ⟨f, rfl⟩ := Nat.exists_eq_add_of_le hfuel
    have hne : parent c ≠ c := by
      have := hmin 0 (Nat.succ_pos m)
      simpa using this
    have hroot' : parent^[m] (parent c) = r := by
      rw [← Function.iterate_succ_apply]; exact hroot
    have hmin' : ∀ i < m, parent (parent^[i] (parent c)) ≠ parent^[i] (parent c) := by
      intro i hi
      have := hmin (i + 1) (by omega)
      rwa [Function.iterate_succ_apply] at this
    have hrec := ih hroot' hmin' (m + 1 + f) (by omega)
    have hstep : m + 1 + 1 + f = (m + 1 + f) + 1 := by omega
    rw [hstep]
    simp only [find_set, if_neg hne, hrec]
    refine Prod.ext rfl ?_
    funext x
    have hchain : chainList parent c (m + 1) =
        c :: chainList parent (parent c) m := by
      simp only [chainList, List.range_succ_eq_map, List.map_cons,
        Function.iterate_zero, id_eq, List.map_map, Function.comp_def,
        Function.iterate_succ_apply]
    simp only [compress_apply, hchain, List.mem_cons]
    by_cases hx : x = c
    · subst hx
      simp [Function.update_same]
    · simp only [Function.update_noteq hx, compress_apply]
      simp [hx]

/-- Any cell with a root has a minimal chain to it: the cells strictly
before the end of the chain are not fixpoints. -/
theorem exists_min_chain {parent : Cell → Cell} {c r : Cell}
    (h : IsRootOf parent c r) :
    ∃ n, parent^[n] c = r ∧
      ∀ i < n, parent (parent^[i] c) ≠ parent^[i] c := by
  obtain ⟨⟨n0, hn0⟩, hfix⟩ := h
  have hP : ∃ i, parent (parent^[i] c) = parent^[i] c := ⟨n0, by rw [hn0, hfix]⟩
  classical
  refine ⟨Nat.find hP, ?_, ?_⟩
  · have hfixn : parent (parent^[Nat.find hP] c) = parent^[Nat.find hP] c :=
      Nat.find_spec hP
    have h1 : IsRootOf parent c (parent^[Nat.find hP] c) := ⟨⟨_, rfl⟩, hfixn⟩
    exact h1.unique ⟨⟨n0, hn0⟩, hfix⟩
  · intro i hi
    exact Nat.find_min hP hi

theorem iterate_mem_dom {parent : Cell → Cell} {dom : Finset Cell}
    (hWF : DSUWF parent dom) {c : Cell} (hc : c ∈ dom) (k : Nat) :
    parent^[k] c ∈ dom := by
  induction k with
  | zero => simpa using hc
  | succ k ih => rw [Function.iterate_succ_apply']; exact hWF.1 _ ih

theorem chainList_subset_dom {parent : Cell → Cell} {dom : Finset Cell}
    (hWF : DSUWF parent dom) {c : Cell} (hc : c ∈ dom) (n : Nat) :
    ∀ x ∈ chainList parent c n, x ∈ dom := by
  intro x hx
  simp only [chainList, List.mem_map, List.mem_range] at hx
  obtain ⟨i, _, rfl⟩ := hx
  exact iterate_mem_dom hWF hc i

/-- The minimal chain (plus its root) consists of distinct cells of the
domain, so its length is less than the number of registered cells. -/
theorem min_chain_succ_le_card {parent : Cell → Cell} {dom : Finset Cell}
    {c r : Cell} {n : Nat} (hWF : DSUWF parent dom) (hc : c ∈ dom)
    (hroot : parent^[n] c = r) (hfix : parent r = r)
    (hmin : ∀ i < n, parent (parent^[i] c) ≠ parent^[i] c) :
    n + 1 ≤ dom.card := by
  classical
  have hnodup := chainList_nodup hroot hfix hmin
  have hrnot := root_not_mem_chainList hfix hmin (c := c)
  have hlen : (chainList parent c n).length = n := by simp [chainList]
  have hsub : insert r (chainList parent c n).toFinset ⊆ dom := by
    intro x hx
    rcases Finset.mem_insert.mp hx with rfl | hx
    · rw [← hroot]; exact iterate_mem_dom hWF hc n
    · exact chainList_subset_dom hWF hc n x (List.mem_toFinset.mp hx)
  calc n + 1 = (chainList parent c n).toFinset.card + 1 := by
        rw [List.toFinset_card_of_nodup hnodup, hlen]
    _ = (insert r (chainList parent c n).toFinset).card := by
        rw [Finset.card_insert_of_not_mem (by simpa using hrnot)]
    _ ≤ dom.card := Finset.card_le_card hsub

/-- The compressed map sends every cell to the same root as the original
map did. -/
theorem compressed_isRootOf {parent : Cell → Cell} {c r : Cell} {n : Nat}
    (hroot : parent^[n] c = r) (hfix : parent r = r)
    (hmin : ∀ i < n, parent (parent^[i] c) ≠ parent^[i] c) :
    ∀ m x s, parent^[m] x = s → parent s = s →
      IsRootOf (compress parent c n r) x s := by
  intro m
  induction m with
  | zero =>
    intro x s hs hsfix
    simp only [Function.iterate_zero, id_eq] at hs
    subst hs
    have hxchain : x ∉ chainList parent c n := by
      intro hxc
      simp only [chainList, List.mem_map, List.mem_range] at hxc
      obtain ⟨i, hi, heq⟩ := hxc
      exact hmin i hi (by rw [heq, hsfix])
    exact ⟨⟨0, rfl⟩, by simp [compress, hxchain, hsfix]⟩
  | succ m ih =>
    intro x s hs hsfix
    by_cases hxfix : parent x = x
    · have hx : x = s := by
        rw [Function.iterate_fixed hxfix] at hs; exact hs
      subst hx
      exact ih x x (Function.iterate_fixed hxfix m) hxfix
    · by_cases hxchain : x ∈ chainList parent c n
      · have hxr : IsRootOf parent x r := by
          simp only [chainList, List.mem_map, List.mem_range] at hxchain
          obtain ⟨i, hi, heq⟩ := hxchain
          refine ⟨⟨n - i, ?_⟩, hfix⟩
          rw [← heq, ← Function.iterate_add_apply, Nat.sub_add_cancel (Nat.le_of_lt hi)]
          exact hroot
        have hxs : IsRootOf parent x s := ⟨⟨m + 1, hs⟩, hsfix⟩
        have hsr : s = r := (hxs.unique hxr)
        have hrchain : r ∉ chainList parent c n :=
          root_not_mem_chainList hfix hmin
        refine ⟨⟨1, ?_⟩, ?_⟩
        · simp [compress, hxchain, hsr]
        · simp [compress, hrchain, hfix, hsr]
      · have hs' : parent^[m] (parent x) = s := by
          rw [← Function.iterate_succ_apply]; exact hs
        obtain ⟨⟨k, hk⟩, hkfix⟩ := ih (parent x) s hs' hsfix
        refine ⟨⟨k + 1, ?_⟩, hkfix⟩
        rw [Function.iterate_succ_apply]
        simpa [compress, hxchain] using hk

/-- Compression does not create or destroy fixpoints. -/
theorem compressed_fix_iff {parent : Cell → Cell} {c r : Cell} {n : Nat}
    (hfix : parent r = r)
    (hmin : ∀ i < n, parent (parent^[i] c) ≠ parent^[i] c) (x : Cell) :
    compress parent c n r x = x ↔ parent x = x := by
  by_cases hxchain : x ∈ chainList parent c n
  · simp only [compress_apply, hxchain, if_pos]
    constructor
    · intro hrx
      exfalso
      exact root_not_mem_chainList hfix hmin (hrx ▸ hxchain)
    · intro hxfix
      exfalso
      have hxc := hxchain
      simp only [chainList, List.mem_map, List.mem_range] at hxc
      obtain ⟨i, hi, heq⟩ := hxc
      exact hmin i hi (by rw [heq, hxfix])
  · simp [compress, hxchain]

/-- `a` and `b` lie in the same connectivity class of the parent map. -/
def sameClass (parent : Cell → Cell) (a b : Cell) : Prop :=
  ∃ r, IsRootOf parent a r ∧ IsRootOf parent b r

theorem sameClass_iff_root_eq {parent : Cell → Cell} {a b ra rb : Cell}
    (hra : IsRootOf parent a ra) (hrb : IsRootOf parent b rb) :
    sameClass parent a b ↔ ra = rb := by
  constructor
  · rintro ⟨t, h1, h2⟩
    exact (h1.unique hra).symm.trans (h2.unique hrb)
  · rintro rfl
    exact ⟨ra, hra, hrb⟩

theorem root_mem_dom {parent : Cell → Cell} {dom : Finset Cell} {c r : Cell}
    (hWF : DSUWF parent dom) (hc : c ∈ dom) (hr : IsRootOf parent c r) :
    r ∈ dom := by
  obtain ⟨⟨n, hn⟩, _⟩ := hr
  rw [← hn]
  exact iterate_mem_dom hWF hc n

/-- Packaged correctness of `_find_set` with any fuel at least the number
of registered cells: it returns the root and a parent map with the same
classes, the same fixpoints, and the same well-formedness. -/
theorem find_set_full {parent : Cell → Cell} {dom : Finset Cell} {c r : Cell}
    {fuel : Nat} (hWF : DSUWF parent dom) (hc : c ∈ dom)
    (hr : IsRootOf parent c r) (hfuel : dom.card ≤ fuel) :
    ∃ q, find_set fuel parent c = (r, q) ∧
      (∀ x s, IsRootOf q x s ↔ IsRootOf parent x s) ∧
      (∀ x, q x = x ↔ parent x = x) ∧ DSUWF q dom := by
  obtain ⟨n, hroot, hmin⟩ := exists_min_chain hr
  have hn1 := min_chain_succ_le_card hWF hc hroot hr.2 hmin
  have heq := find_set_spec hroot hr.2 hmin fuel (le_trans hn1 hfuel)
  refine ⟨compress parent c n r, heq, ?_, compressed_fix_iff hr.2 hmin, ?_, ?_, ?_⟩
  · intro x s
    constructor
    · intro hxs
      obtain ⟨t, ht⟩ := hWF.exists_root x
      obtain ⟨⟨m, hm⟩, htfix⟩ := ht
      have hq := compressed_isRootOf hroot hr.2 hmin m x t hm htfix
      have := hxs.unique hq
      subst this
      exact ⟨⟨m, hm⟩, htfix⟩
    · intro hxs
      obtain ⟨⟨m, hm⟩, hsfix⟩ := hxs
      exact compressed_isRootOf hroot hr.2 hmin m x s hm hsfix
  · intro y hy
    rw [compress_apply]
    by_cases hyc : y ∈ chainList parent c n
    · simp only [hyc, if_pos]
      exact hroot ▸ iterate_mem_dom hWF hc n
    · simp only [hyc, if_neg, ite_false]
      exact hWF.1 y hy
  · intro y hy
    have hyc : y ∉ chainList parent c n := fun h =>
      hy (chainList_subset_dom hWF hc n y h)
    rw [compress_apply, if_neg hyc]
    exact hWF.2.1 y hy
  · intro y hy
    obtain ⟨t, ht⟩ := hWF.2.2 y hy
    obtain ⟨⟨m, hm⟩, htfix⟩ := ht
    exact ⟨t, compressed_isRootOf hroot hr.2 hmin m y t hm htfix⟩

/-- Re-pointing a root `l` at another root `w` sends every class rooted at
`l` to `w`'s class and leaves every other class alone. -/
theorem update_isRootOf {p2 : Cell → Cell} {l w : Cell}
    (hl : p2 l = l) (hw : p2 w = w) (hlw : l ≠ w) :
    ∀ x t, IsRootOf p2 x t →
      IsRootOf (Function.update p2 l w) x (if t = l then w else t) := by
  intro x t ht
  obtain ⟨n, hroot, hmin⟩ := exists_min_chain ht
  have hagree : ∀ i, i ≤ n → (Function.update p2 l w)^[i] x = p2^[i] x := by
    intro i hi
    induction i with
    | zero => simp
    | succ i ih =>
      have hi' : i ≤ n := by omega
      have hlt : i < n := by omega
      have hne : p2^[i] x ≠ l := by
        intro heq
        exact hmin i hlt (by rw [heq, hl])
      rw [Function.iterate_succ_apply', ih hi', Function.update_noteq hne]
      exact (Function.iterate_succ_apply' p2 i x).symm
  have hwfix : Function.update p2 l w w = w := by
    rw [Function.update_noteq (Ne.symm hlw), hw]
  by_cases htl : t = l
  · subst htl
    rw [if_pos rfl]
    refine ⟨⟨n + 1, ?_⟩, hwfix⟩
    rw [Function.iterate_succ_apply', hagree n le_rfl, hroot, Function.update_same]
  · rw [if_neg htl]
    refine ⟨⟨n, by rw [hagree n le_rfl, hroot]⟩, ?_⟩
    rw [Function.update_noteq htl, ht.2]

theorem sameClass_congr {p q : Cell → Cell}
    (h : ∀ x s, IsRootOf q x s ↔ IsRootOf p x s) (x y : Cell) :
    sameClass q x y ↔ sameClass p x y := by
  unfold sameClass
  constructor
  · rintro ⟨r, h1, h2⟩
    exact ⟨r, (h x r).mp h1, (h y r).mp h2⟩
  · rintro ⟨r, h1, h2⟩
    exact ⟨r, (h x r).mpr h1, (h y r).mpr h2⟩

theorem ite_collapse_eq_iff {α : Type} [DecidableEq α] {l w rx ry : α}
    (hlw : l ≠ w) :
    ((if rx = l then w else rx) = (if ry = l then w else ry)) ↔
      (rx = ry ∨ (rx = l ∧ ry = w) ∨ (rx = w ∧ ry = l)) := by
  by_cases h1 : rx = l <;> by_cases h2 : ry = l <;>
    simp [h1, h2, hlw, eq_comm] <;> tauto

/-- `_unite_sets` when the two cells are already connected: returns `False`
and a state with unchanged rank map, unchanged classes and unchanged root
set (only intermediate parent links are compressed). -/
theorem unite_sets_same {s : DSU} {dom : Finset Cell} {a b ra : Cell}
    {fuel : Nat} (hWF : DSUWF s.parent dom) (ha : a ∈ dom) (hb : b ∈ dom)
    (hra : IsRootOf s.parent a ra) (hrb : IsRootOf s.parent b ra)
    (hfuel : dom.card ≤ fuel) :
    (unite_sets fuel s a b).1 = false ∧
    (unite_sets fuel s a b).2.rank = s.rank ∧
    (∀ x y, sameClass (unite_sets fuel s a b).2.parent x y ↔
      sameClass s.parent x y) ∧
    (∀ x, (unite_sets fuel s a b).2.parent x = x ↔ s.parent x = x) ∧
    DSUWF (unite_sets fuel s a b).2.parent dom := by
  obtain ⟨p1, he1, hiff1, hfx1, hWF1⟩ := find_set_full hWF ha hra hfuel
  have hrb1 : IsRootOf p1 b ra := (hiff1 b ra).mpr hrb
  obtain ⟨p2, he2, hiff2, hfx2, hWF2⟩ := find_set_full hWF1 hb hrb1 hfuel
  have hres : unite_sets fuel s a b = (false, ⟨p2, s.rank⟩) := by
    simp [unite_sets, he1, he2]
  rw [hres]
  refine ⟨rfl, rfl, ?_, ?_, hWF2⟩
  · intro x y
    exact (sameClass_congr (fun x s => (hiff2 x s).trans (hiff1 x s)) x y)
  · intro x
    exact (hfx2 x).trans (hfx1 x)

/-- `_unite_sets` when the two cells are in different classes: returns
`True`, merges exactly the two classes, removes the losing root from the
root set, and applies the union-by-rank attachment policy. -/
theorem unite_sets_diff {s : DSU} {dom : Finset Cell} {a b ra rb : Cell}
    {fuel : Nat} (hWF : DSUWF s.parent dom) (ha : a ∈ dom) (hb : b ∈ dom)
    (hra : IsRootOf s.parent a ra) (hrb : IsRootOf s.parent b rb)
    (hfuel : dom.card ≤ fuel) (hne : ra ≠ rb) :
    (unite_sets fuel s a b).1 = true ∧
    DSUWF (unite_sets fuel s a b).2.parent dom ∧
    (∀ x y, sameClass (unite_sets fuel s a b).2.parent x y ↔
      (sameClass s.parent x y ∨
        (sameClass s.parent x a ∧ sameClass s.parent y b) ∨
        (sameClass s.parent x b ∧ sameClass s.parent y a))) ∧
    (∀ x, (unite_sets fuel s a b).2.parent x = x ↔
      (s.parent x = x ∧ x ≠ (if s.rank ra < s.rank rb then ra else rb))) ∧
    (s.rank ra < s.rank rb →
      (unite_sets fuel s a b).2.parent ra = rb ∧
      (unite_sets fuel s a b).2.rank = s.rank) ∧
    (¬ s.rank ra < s.rank rb →
      (unite_sets fuel s a b).2.parent rb = ra ∧
      (unite_sets fuel s a b).2.rank =
        (if s.rank ra = s.rank rb then Function.update s.rank ra (s.rank ra + 1)
         else s.rank)) := by
  obtain ⟨p1, he1, hiff1, hfx1, hWF1⟩ := find_set_full hWF ha hra hfuel
  have hrb1 : IsRootOf p1 b rb := (hiff1 b rb).mpr hrb
  obtain ⟨p2, he2, hiff2, hfx2, hWF2⟩ := find_set_full hWF1 hb hrb1 hfuel
  have hiff : ∀ x t, IsRootOf p2 x t ↔ IsRootOf s.parent x t :=
    fun x t => (hiff2 x t).trans (hiff1 x t)
  have hfx : ∀ x, p2 x = x ↔ s.parent x = x := fun x => (hfx2 x).trans (hfx1 x)
  have hrafix : p2 ra = ra := (hfx ra).mpr hra.2
  have hrbfix : p2 rb = rb := (hfx rb).mpr hrb.2
  have hradom : ra ∈ dom := root_mem_dom hWF ha hra
  have hrbdom : rb ∈ dom := root_mem_dom hWF hb hrb
  set w : Cell := if s.rank ra < s.rank rb then rb else ra with hw_def
  set l : Cell := if s.rank ra < s.rank rb then ra else rb with hl_def
  have hres : unite_sets fuel s a b =
      (true, ⟨Function.update p2 l w,
        if s.rank w = s.rank l then Function.update s.rank w (s.rank w + 1)
        else s.rank⟩) := by
    simp only [unite_sets, he1, he2, ne_eq, if_pos hne, hw_def, hl_def]
    by_cases hc : s.rank ra < s.rank rb <;> simp [hc]
  have hlw : l ≠ w := by
    by_cases hc : s.rank ra < s.rank rb <;> simp [hl_def, hw_def, hc, hne, Ne.symm hne]
  have hlfix : p2 l = l := by
    by_cases hc : s.rank ra < s.rank rb <;> simp [hl_def, hc, hrafix, hrbfix]
  have hwfix : p2 w = w := by
    by_cases hc : s.rank ra < s.rank rb <;> simp [hw_def, hc, hrafix, hrbfix]
  have hcase : (l = ra ∧ w = rb) ∨ (l = rb ∧ w = ra) := by
    by_cases hc : s.rank ra < s.rank rb <;> simp [hl_def, hw_def, hc]
  have hldom : l ∈ dom := by
    rcases hcase with ⟨hl', _⟩ | ⟨hl', _⟩ <;> rw [hl'] <;> assumption
  have hwdom : w ∈ dom := by
    rcases hcase with ⟨_, hw'⟩ | ⟨_, hw'⟩ <;> rw [hw'] <;> assumption
  have hnewroot : ∀ x rx, IsRootOf s.parent x rx →
      IsRootOf (Function.update p2 l w) x (if rx = l then w else rx) := by
    intro x rx hrx
    exact update_isRootOf hlfix hwfix hlw x rx ((hiff x rx).mpr hrx)
  rw [hres]
  dsimp only
  refine ⟨rfl, ?_, ?_, ?_, ?_, ?_⟩
  · -- well-formedness of the updated parent map
    refine ⟨?_, ?_, ?_⟩
    · intro x hx
      by_cases hxl : x = l
      · subst hxl; rw [Function.update_same]; exact hwdom
      · rw [Function.update_noteq hxl]; exact hWF2.1 x hx
    · intro x hx
      have hxl : x ≠ l := fun h => hx (h ▸ hldom)
      rw [Function.update_noteq hxl]
      exact hWF2.2.1 x hx
    · intro x hx
      obtain ⟨rx, hrx⟩ := hWF.exists_root x
      exact ⟨_, hnewroot x rx hrx⟩
  · -- class merge
    intro x y
    obtain ⟨rx, hrx⟩ := hWF.exists_root x
    obtain ⟨ry, hry⟩ := hWF.exists_root y
    rw [sameClass_iff_root_eq (hnewroot x rx hrx) (hnewroot y ry hry),
      sameClass_iff_root_eq hrx hry, sameClass_iff_root_eq hrx hra,
      sameClass_iff_root_eq hry hrb, sameClass_iff_root_eq hrx hrb,
      sameClass_iff_root_eq hry hra, ite_collapse_eq_iff hlw]
    rcases hcase with ⟨hl', hw'⟩ | ⟨hl', hw'⟩ <;> rw [hl', hw'] <;> tauto
  · -- root set: the losing root stops being a root, nothing else changes
    intro x
    by_cases hxl : x = l
    · subst hxl
      rw [Function.update_same]
      simp only [ne_eq, not_true_eq_false, and_false, iff_false]
      exact Ne.symm hlw
    · rw [Function.update_noteq hxl, hfx x]
      simp [hxl]
  · -- rank policy, winner `rb`
    intro hc
    have hl' : l = ra := by simp [hl_def, hc]
    have hw' : w = rb := by simp [hw_def, hc]
    constructor
    · rw [hl'] at *; rw [Function.update_same]; exact hw'
    · rw [hw', hl', if_neg (by omega)]
  · -- rank policy, winner `ra`
    intro hc
    have hl' : l = rb := by simp [hl_def, hc]
    have hw' : w = ra := by simp [hw_def, hc]
    constructor
    · rw [hl'] at *; rw [Function.update_same]; exact hw'
    · rw [hw', hl']

/-! ### The maze generator pipeline

`random.shuffle` and `random.randrange` are the only sources of
nondeterminism.  They are modelled by a record of choice functions: a
shuffle becomes an arbitrary permutation-producing function, and
`random.randrange(len(pool))` becomes an arbitrary natural reduced modulo
`len(pool)` (every in-range sequence of draws is realised by some record,
and every record realises an in-range sequence). -/

/-- The random choices consumed by one generation run. -/
structure Rnd where
  shuffle_edges : List Edge → List Edge
  pick : Nat → Nat
  shuffle_positions : List Pos → List Pos
  shuffle_collectibles : List Pos → List Pos

/-- A choice record that behaves like `random.shuffle`: each shuffle
returns a permutation of its input. -/
def ValidRnd (r : Rnd) : Prop :=
  (∀ l, (r.shuffle_edges l).Perm l) ∧ (∀ l, (r.shuffle_positions l).Perm l) ∧
    (∀ l, (r.shuffle_collectibles l).Perm l)

/-- The trivial choice record (identity shuffles, always draw index 0). -/
def idRnd : Rnd where
  shuffle_edges := id
  pick := fun _ => 0
  shuffle_positions := id
  shuffle_collectibles := id

theorem validRnd_idRnd : ValidRnd idRnd :=
  ⟨fun _ => List.Perm.refl _, fun _ => List.Perm.refl _, fun _ => List.Perm.refl _⟩

/-- The `MazeGenerator` object: tile dimensions, lattice dimensions and the
DSU maps. -/
structure MazeGenerator where
  width : Nat
  height : Nat
  cell_width : Nat
  cell_height : Nat
  parent : Cell → Cell
  rank : Cell → Nat

/-- `MazeGenerator.__init__`: even dimensions are bumped to the next odd
number; lattice dimensions are `(dim - 1) / 2`.  The parent/rank
dictionaries start empty in the source and are filled by
`_initialize_dsu` before any access; on the totalized maps they start as
the identity / zero map. -/
def MazeGenerator.make (width height : Nat) : MazeGenerator :=
  let w := if width % 2 = 0 then width + 1 else width
  let h := if height % 2 = 0 then height + 1 else height
  { width := w, height := h, cell_width := (w - 1) / 2,
    cell_height := (h - 1) / 2, parent := id, rank := fun _ => 0 }

/-- `_initialize_dsu`: register every lattice cell with itself as parent
and rank 0 (the totalized identity / zero maps). -/
def MazeGenerator.init_dsu (g : MazeGenerator) : DSU :=
  { parent := id, rank := fun _ => 0 }

/-- The registered lattice cells. -/
def MazeGenerator.dom (g : MazeGenerator) : Finset Cell :=
  Finset.range g.cell_height ×ˢ Finset.range g.cell_width

/-- The generator's `_find_set`/`_unite_sets` fuel: the number of lattice
cells, which `min_chain_succ_le_card` shows bounds every chain. -/
def MazeGenerator.fuel (g : MazeGenerator) : Nat :=
  g.cell_height * g.cell_width

/-- The interior wall list of `generate`: one edge per adjacent cell pair,
enumerated in row-major order (`r < cell_height - 1` over `Nat` is phrased
as `r + 1 < cell_height`). -/
def MazeGenerator.walls (g : MazeGenerator) : List Edge :=
  (List.range g.cell_height).flatMap (fun r =>
    (List.range g.cell_width).flatMap (fun c =>
      (if r + 1 < g.cell_height then [((r, c), (r + 1, c))] else []) ++
        (if c + 1 < g.cell_width then [((r, c), (r, c + 1))] else [])))

/-- One iteration of phase 1 of `generate`: attempt the union; on success
carve the two endpoint tiles and the midpoint tile, otherwise append the
edge to `remaining_walls`.  State: `(dsu, layout, remaining_walls)`. -/
def phase1_step (fuel : Nat) (st : DSU × Layout × List Edge) (e : Edge) :
    DSU × Layout × List Edge :=
  let res := unite_sets fuel st.1 e.1 e.2
  if res.1 then
    let l1 := setTile st.2.1 (2 * e.1.2 + 1) (2 * e.1.1 + 1) Tile.path
    let l2 := setTile l1 (2 * e.2.2 + 1) (2 * e.2.1 + 1) Tile.path
    let l3 := setTile l2 (e.1.2 + e.2.2 + 1) (e.1.1 + e.2.1 + 1) Tile.path
    (res.2, l3, st.2.2)
  else
    (res.2, st.2.1, st.2.2 ++ [e])

/-- Phase 1 of `generate`: fold over the shuffled edges. -/
def phase1 (fuel : Nat) (edges : List Edge) (st : DSU × Layout × List Edge) :
    DSU × Layout × List Edge :=
  edges.foldl (phase1_step fuel) st

/-- Phase 2 of `generate`: `num_loops` times, draw a random remaining wall,
remove it from the pool and carve its midpoint (`k` counts the
`random.randrange` draws). -/
def phase2 (pick : Nat → Nat) : Nat → Nat → List Edge → Layout →
    Layout × List Edge
  | _, 0, pool, l => (l, pool)
  | k, n + 1, pool, l =>
    if pool.isEmpty then (l, pool)
    else
      let i := pick k % pool.length
      let e := pool.getD i ((0, 0), (0, 0))
      let l1 := setTile l (e.1.2 + e.2.2 + 1) (e.1.1 + e.2.1 + 1) Tile.path
      phase2 pick (k + 1) n (pool.eraseIdx i) l1

/-- The source's default `loop_probability = 0.25`, written as a raw
rational so that kernel reduction can evaluate it. -/
def default_loop_probability : ℚ := ⟨1, 4, by decide, by decide⟩

theorem default_loop_probability_eq : default_loop_probability = 1 / 4 := by
  rw [Rat.eq_iff_mul_eq_mul]
  norm_num [default_loop_probability]

/-- `int(len(remaining_walls) * loop_probability)` for a nonnegative
rational probability: truncation toward zero equals the floor, computed
here on numerator and denominator so that kernel reduction can evaluate
it; `num_loops_eq_floor` proves it equal to `⌊len * p⌋`. -/
def num_loops_of (len : Nat) (p : ℚ) : Nat :=
  (len * p.num.toNat) / p.den

/-- `MazeGenerator.generate`: initialize the DSU, carve a spanning tree
over the shuffled wall list (phase 1), then reopen a `loop_probability`
fraction of the rejected walls (phase 2). -/
def MazeGenerator.generate (g : MazeGenerator) (rnd : Rnd)
    (loop_probability : ℚ := default_loop_probability) : Layout :=
  let s0 := g.init_dsu
  let layout0 : Layout :=
    List.replicate g.height (List.replicate g.width Tile.wall)
  let shuffled := rnd.shuffle_edges g.walls
  let st := phase1 g.fuel shuffled (s0, layout0, [])
  let num_loops := num_loops_of st.2.2.length loop_probability
  (phase2 rnd.pick 0 num_loops st.2.2 st.2.1).1

/-! ### The level catalog (`levels.py`) -/

/-- `LevelData` of `levels.py` (constructor defaults mirror
`obstacles=None -> []`, `collectibles=None -> []`, `time_limit=None`). -/
structure LevelData where
  number : Nat
  layout : Layout
  obstacles : List Pos := []
  collectibles : List Pos := []
  time_limit : Option Nat := none
deriving DecidableEq

/-- The tile abbreviations used by the catalog (`W`, `_`, `P`, `E` in the
source; `_` is written `o` here). -/
def W : Tile := Tile.wall

def o : Tile := Tile.path

def P : Tile := Tile.player_start

def E : Tile := Tile.exit_mark

/-- `LEVEL_1` of `levels.py`. -/
def LEVEL_1 : LevelData where
  number := 1
  layout := [
    [W, W, W, W, W, W, W, W, W, W],
    [W, P, o, o, W, o, o, o, o, W],
    [W, o, W, o, W, o, W, W, o, W],
    [W, o, W, o, o, o, W, o, o, W],
    [W, o, W, W, W, o, W, o, W, W],
    [W, o, o, o, o, o, W, o, o, W],
    [W, W, W, W, W, o, W, W, o, W],
    [W, o, o, o, o, o, o, o, o, W],
    [W, o, W, W, W, W, W, W, E, W],
    [W, W, W, W, W, W, W, W, W, W]]
  obstacles := []
  collectibles := [(3, 3), (7, 5)]
  time_limit := some 60

/-- `LEVEL_2` of `levels.py`. -/
def LEVEL_2 : LevelData where
  number := 2
  layout := [
    [W, W, W, W, W, W, W, W, W, W, W, W],
    [W, P, o, W, o, o, o, W, o, o, o, W],
    [W, o, o, W, o, W, o, W, o, W, o, W],
    [W, W, o, W, o, W, o, o, o, W, o, W],
    [W, o, o, o, o, W, W, W, W, W, o, W],
    [W, o, W, W, o, o, o, o, o, o, o, W],
    [W, o, W, o, o, W, W, W, W, W, o, W],
    [W, o, o, o, W, W, o, o, o, W, o, W],
    [W, W, W, o, o, o, o, W, o, o, o, W],
    [W, o, o, o, W, W, o, W, W, W, E, W],
    [W, W, W, W, W, W, W, W, W, W, W, W]]
  obstacles := []
  collectibles := [(4, 2), (6, 5), (9, 7)]
  time_limit := some 90

/-- `LEVEL_3` of `levels.py`. -/
def LEVEL_3 : LevelData where
  number := 3
  layout := [
    [W, W, W, W, W, W, W, W, W, W, W, W, W],
    [W, P, o, o, o, W, o, o, o, W, o, o, W],
    [W, W, W, W, o, W, o, W, o, W, o, W, W],
    [W, o, o, o, o, W, o, W, o, o, o, o, W],
    [W, o, W, W, W, W, o, W, W, W, W, o, W],
    [W, o, o, o, o, o, o, o, o, o, W, o, W],
    [W, W, W, W, W, W, o, W, W, o, W, o, W],
    [W, o, o, o, o, o, o, W, o, o, W, o, W],
    [W, o, W, W, W, W, W, W, o, W, W, o, W],
    [W, o, o, o, o, o, o, o, o, o, o, E, W],
    [W, W, W, W, W, W, W, W, W, W, W, W, W]]
  obstacles := [(6, 6)]
  collectibles := [(5, 3), (10, 5), (6, 8)]
  time_limit := some 100

/-- `LEVEL_4` of `levels.py`. -/
def LEVEL_4 : LevelData where
  number := 4
  layout := [
    [W, W, W, W, W, W, W, W, W, W, W, W, W, W],
    [W, P, o, o, W, o, o, o, W, o, o, o, o, W],
    [W, o, W, o, W, o, W, o, W, o, W, W, o, W],
    [W, o, W, o, o, o, W, o, o, o, W, o, o, W],
    [W, o, W, W, W, W, W, o, W, o, W, o, W, W],
    [W, o, o, o, o, o, o, o, W, o, o, o, o, W],
    [W, W, W, o, W, W, W, W, W, W, W, W, o, W],
    [W, o, o, o, o, o, o, o, o, o, o, W, o, W],
    [W, o, W, W, W, W, W, W, o, W, o, W, o, W],
    [W, o, o, o, o, o, o, o, o, W, o, o, E, W],
    [W, W, W, W, W, W, W, W, W, W, W, W, W, W]]
  obstacles := [(6, 5)]
  collectibles := [(3, 2), (7, 4), (11, 6), (5, 8)]
  time_limit := some 110

/-- `LEVEL_5` of `levels.py`. -/
def LEVEL_5 : LevelData where
  number := 5
  layout := [
    [W, W, W, W, W, W, W, W, W, W, W, W, W, W, W],
    [W, P, o, o, o, o, o, o, o, o, o, o, o, o, W],
    [W, o, W, W, W, W, W, W, W, W, W, W, W, o, W],
    [W, o, W, o, o, o, o, o, o, o, o, o, W, o, W],
    [W, o, W, o, W, W, W, W, W, W, W, o, W, o, W],
    [W, o, W, o, o, o, o, o, o, o, W, o, W, o, W],
    [W, o, W, o, W, o, W, W, W, o, W, o, W, o, W],
    [W, o, W, o, W, o, W, E, o, o, W, o, W, o, W],
    [W, o, W, o, W, o, W, W, W, o, W, o, W, o, W],
    [W, o, W, o, W, o, o, o, o, o, W, o, W, o, W],
    [W, o, W, o, W, W, W, W, W, W, W, o, W, o, W],
    [W, o, W, o, o, o, o, o, o, o, o, o, o, o, W],
    [W, o, W, W, W, W, W, W, W, W, W, W, W, o, W],
    [W, o, o, o, o, o, o, o, o, o, o, o, o, o, W],
    [W, W, W, W, W, W, W, W, W, W, W, W, W, W, W]]
  obstacles := [(7, 5), (9, 10)]
  collectibles := [(7, 3), (7, 9), (11, 6), (3, 11)]
  time_limit := some 120

/-- `LEVEL_6` of `levels.py`. -/
def LEVEL_6 : LevelData where
  number := 6
  layout := [
    [W, W, W, W, W, W, W, W, W, W, W, W, W, W, W],
    [W, P, o, W, o, o, o, W, o, o, o, W, o, o, W],
    [W, W, o, W, o, W, o, W, o, W, o, W, o, W, W],
    [W, o, o, W, o, W, o, o, o, W, o, o, o, W, W],
    [W, o, W, W, o, W, W, W, W, W, W, W, o, o, W],
    [W, o, o, o, o, o, o, o, o, o, o, W, o, W, W],
    [W, W, W, o, W, W, W, o, W, W, o, W, o, o, W],
    [W, o, o, o, W, o, o, o, W, o, o, W, W, o, W],
    [W, o, W, W, W, o, W, o, W, o, W, o, o, o, W],
    [W, o, o, o, o, o, W, o, o, o, W, o, W, W, W],
    [W, W, W, W, W, o, W, W, W, o, W, o, o, E, W],
    [W, W, W, W, W, W, W, W, W, W, W, W, W, W, W]]
  obstacles := [(6, 5), (10, 8)]
  collectibles := [(4, 2), (8, 4), (11, 6), (5, 8), (2, 9)]
  time_limit := some 130

/-- `LEVEL_7` of `levels.py`. -/
def LEVEL_7 : LevelData where
  number := 7
  layout := [
    [W, W, W, W, W, W, W, W, W, W, W, W, W, W, W, W],
    [W, P, o, o, o, o, o, o, o, o, o, o, o, o, o, W],
    [W, W, W, W, W, W, W, W, W, W, W, W, W, W, o, W],
    [W, o, o, o, o, o, o, o, o, o, o, o, o, o, o, W],
    [W, o, W, W, W, W, W, W, W, W, W, W, W, W, W, W],
    [W, o, o, o, o, o, o, o, o, o, o, o, o, o, o, W],
    [W, W, W, W, W, W, W, W, W, W, W, W, W, W, o, W],
    [W, o, o, o, o, o, o, o, o, o, o, o, o, o, o, W],
    [W, o, W, W, W, W, W, W, W, W, W, W, W, W, W, W],
    [W, o, o, o, o, o, o, o, o, o, o, o, o, o, E, W],
    [W, W, W, W, W, W, W, W, W, W, W, W, W, W, W, W]]
  obstacles := [(5, 2), (15, 5), (0, 7)]
  collectibles := [(7, 1), (14, 3), (7, 5), (14, 7), (7, 9)]
  time_limit := some 140

/-- `LEVEL_8` of `levels.py`. -/
def LEVEL_8 : LevelData where
  number := 8
  layout := [
    [W, W, W, W, W, W, W, W, W, W, W, W, W, W, W, W],
    [W, P, o, o, o, W, o, o, o, o, o, W, o, o, o, W],
    [W, W, W, W, o, W, o, W, W, W, o, W, o, W, W, W],
    [W, o, o, o, o, W, o, W, o, o, o, W, o, o, o, W],
    [W, o, W, W, W, W, o, W, o, W, W, W, W, W, o, W],
    [W, o, o, o, o, o, o, W, o, o, o, o, o, W, o, W],
    [W, W, W, W, W, W, o, W, W, W, W, W, o, W, o, W],
    [W, o, o, o, o, W, o, o, o, o, o, W, o, W, o, W],
    [W, o, W, W, o, W, W, W, W, W, o, W, o, W, o, W],
    [W, o, W, o, o, o, o, o, o, o, o, o, o, W, o, W],
    [W, o, W, o, W, W, W, W, W, W, W, W, W, W, o, W],
    [W, o, o, o, o, o, o, o, o, o, o, o, o, o, E, W],
    [W, W, W, W, W, W, W, W, W, W, W, W, W, W, W, W]]
  obstacles := [(7, 3), (10, 7), (6, 10)]
  collectibles := [(3, 2), (8, 4), (11, 6), (4, 9), (13, 10)]
  time_limit := some 150

/-- `LEVEL_9` of `levels.py`. -/
def LEVEL_9 : LevelData where
  number := 9
  layout := [
    [W, W, W, W, W, W, W, W, W, W, W, W, W, W, W, W, W],
    [W, P, o, W, o, o, o, W, o, o, o, W, o, o, o, o, W],
    [W, o, o, W, o, W, o, W, o, W, o, W, o, W, W, o, W],
    [W, W, o, W, o, W, o, o, o, W, o, o, o, W, o, o, W],
    [W, o, o, W, o, W, W, W, W, W, W, W, o, W, o, W, W],
    [W, o, W, W, o, o, o, o, o, o, o, W, o, o, o, o, W],
    [W, o, o, o, o, W, W, W, W, W, o, W, W, W, W, o, W],
    [W, W, W, W, o, W, o, o, o, W, o, o, o, o, W, o, W],
    [W, o, o, o, o, W, o, W, o, W, W, W, W, o, W, o, W],
    [W, o, W, W, W, W, o, W, o, o, o, o, W, o, W, o, W],
    [W, o, o, o, o, o, o, W, W, W, W, o, W, o, o, o, W],
    [W, W, W, W, W, W, o, o, o, o, W, o, W, W, W, o, W],
    [W, o, o, o, o, o, o, W, W, o, W, o, o, o, o, E, W],
    [W, W, W, W, W, W, W, W, W, W, W, W, W, W, W, W, W]]
  obstacles := [(8, 4), (12, 7), (6, 10)]
  collectibles := [(4, 2), (9, 3), (13, 5), (6, 8), (11, 10), (4, 11)]
  time_limit := some 160

/-- `LEVEL_10` of `levels.py`. -/
def LEVEL_10 : LevelData where
  number := 10
  layout := [
    [W, W, W, W, W, W, W, W, W, W, W, W, W, W, W, W, W, W],
    [W, P, o, o, o, W, o, o, o, o, o, W, o, o, o, W, o, W],
    [W, W, W, W, o, W, o, W, W, W, o, W, o, W, o, W, o, W],
    [W, o, o, o, o, W, o, W, o, o, o, o, o, W, o, o, o, W],
    [W, o, W, W, W, W, o, W, o, W, W, W, W, W, W, W, o, W],
    [W, o, o, o, o, o, o, W, o, o, o, o, o, o, o, W, o, W],
    [W, W, W, o, W, W, W, W, W, W, W, W, W, W, o, W, o, W],
    [W, o, o, o, W, o, o, o, o, o, o, o, o, W, o, W, o, W],
    [W, o, W, W, W, o, W, W, W, W, W, W, o, W, o, W, o, W],
    [W, o, o, o, o, o, W, o, o, o, o, W, o, o, o, W, o, W],
    [W, W, W, W, W, o, W, o, W, W, o, W, W, W, W, W, o, W],
    [W, o, o, o, W, o, o, o, W, o, o, o, o, o, o, o, o, W],
    [W, o, W, o, W, W, W, W, W, o, W, W, W, W, W, W, W, W],
    [W, o, W, o, o, o, o, o, o, o, o, o, o, o, o, o, E, W],
    [W, W, W, W, W, W, W, W, W, W, W, W, W, W, W, W, W, W]]
  obstacles := [(9, 4), (6, 7), (13, 9), (7, 11)]
  collectibles := [(3, 2), (8, 3), (13, 4), (5, 7), (11, 8), (4, 11), (14, 12)]
  time_limit := some 180


/-- `ALL_LEVELS` of `levels.py`. -/
def ALL_LEVELS : List LevelData :=
  [LEVEL_1, LEVEL_2, LEVEL_3, LEVEL_4, LEVEL_5,
   LEVEL_6, LEVEL_7, LEVEL_8, LEVEL_9, LEVEL_10]

/-- `get_level(level_number)`: the catalog entry for `1 <= n <= 10`, else
`None`. -/
def get_level (level_number : Int) : Option LevelData :=
  if 1 ≤ level_number ∧ level_number ≤ 10 then
    ALL_LEVELS[(level_number - 1).toNat]?
  else none

/-! ### The placement planner (`create_randomized_level`) -/

/-- The observable outcome of `create_randomized_level`: a level, the
Python `None` result, or an uncaught exception (`crash` marks the places
where the source would raise; the theorems show it is never produced). -/
inductive GenResult where
  | ok (level : LevelData)
  | noLevel
  | crash
deriving DecidableEq

/-- The row-major scan collecting every `PATH` tile coordinate `(x, y)` =
`(c_idx, r_idx)`. -/
def path_coords_of (layout : Layout) : List Pos :=
  (List.range layout.length).flatMap (fun r =>
    (List.range (layout.getD r []).length).filterMap (fun c =>
      if (layout.getD r []).getD c Tile.wall = Tile.path then
        some ((c : Int), (r : Int))
      else none))

/-- The inner candidate scan for one obstacle slot: pop the pool front,
commit it and stop if the exit stays reachable with it tentatively added,
otherwise return it to the back of the pool; at most `tries` candidates
are examined (the source runs it with `tries = len(pool)`, so the
empty-pool case is never reached there). -/
def place_obstacle_slot (layout : Layout) (player_pos exit_pos : Pos)
    (obstacles : List Pos) : Nat → List Pos → List Pos × List Pos
  | 0, pool => (obstacles, pool)
  | _ + 1, [] => (obstacles, [])
  | tries + 1, pos :: rest =>
    if exit_pos ∈ find_reachable_nodes layout player_pos (obstacles ++ [pos]) then
      (obstacles ++ [pos], rest)
    else
      place_obstacle_slot layout player_pos exit_pos obstacles tries
        (rest ++ [pos])

/-- The outer obstacle loop: `num_obstacles` slots, each scanning the
current pool once; stops early when the pool is empty. -/
def place_obstacles (layout : Layout) (player_pos exit_pos : Pos) :
    Nat → List Pos → List Pos → List Pos × List Pos
  | 0, obstacles, pool => (obstacles, pool)
  | slots + 1, obstacles, pool =>
    if pool.isEmpty then (obstacles, pool)
    else
      let res := place_obstacle_slot layout player_pos exit_pos obstacles
        pool.length pool
      place_obstacles layout player_pos exit_pos slots res.1 res.2

/-- The body of `create_randomized_level` after the template lookup: it
reads only the template's dimensions and time limit.  `crash` marks the
`path_coords[-1]` IndexError that a single-path-tile grid would trigger. -/
def build_level (width height : Nat) (level_number : Int)
    (time_limit : Option Nat) (rnd : Rnd) : GenResult :=
  let generator := MazeGenerator.make width height
  let layout := generator.generate rnd
  match path_coords_of layout with
  | [] => GenResult.noLevel
  | player_pos :: rest =>
    let layout1 := setTile layout player_pos.1.toNat player_pos.2.toNat
      Tile.player_start
    match rest.getLast? with
    | none => GenResult.crash
    | some exit_pos =>
      let layout2 := setTile layout1 exit_pos.1.toNat exit_pos.2.toNat
        Tile.exit_mark
      let path_coords := rnd.shuffle_positions rest.dropLast
      let num_collectibles := 1 + level_number.toNat / 2
      let num_obstacles := level_number.toNat / 3
      let ob := place_obstacles layout2 player_pos exit_pos num_obstacles []
        path_coords
      let obstacles := ob.1
      let all_reachable_nodes := find_reachable_nodes layout2 player_pos
        obstacles
      let valid_collectible_locs := rnd.shuffle_collectibles
        (all_reachable_nodes.filter (fun pos =>
          !(decide (pos = player_pos)) && !(decide (pos = exit_pos)) &&
            !(decide (pos ∈ obstacles))))
      let collectibles := valid_collectible_locs.take
        (min num_collectibles valid_collectible_locs.length)
      GenResult.ok
        { number := level_number.toNat, layout := layout2,
          obstacles := obstacles, collectibles := collectibles,
          time_limit := time_limit }

/-- `create_randomized_level(level_number)`.  `crash` marks the
`len(layout[0])` IndexError an empty template layout would trigger. -/
def create_randomized_level (level_number : Int) (rnd : Rnd) : GenResult :=
  if ¬ (1 ≤ level_number ∧ level_number ≤ (ALL_LEVELS.length : Int)) then
    GenResult.noLevel
  else
    match get_level level_number with
    | none => GenResult.noLevel
    | some original_level =>
      match original_level.layout with
      | [] => GenResult.crash
      | row0 :: _ =>
        build_level row0.length original_level.layout.length level_number
          original_level.time_limit rnd

/-! ### Claim theorems -/

/-- C10: for every (nonempty) layout, start coordinate and blocked list,
the set returned by `_find_reachable_nodes` contains the start coordinate
itself, even when the start tile is a wall or the start coordinate is
blocked — the start is seeded into `visited` before any wall or obstacle
check and is never removed.  (On an empty layout the source raises at
`len(layout[0])` before the search starts, so nothing is returned there.) -/
theorem C10_start_always_in_reachable (layout : Layout) (start_pos : Pos)
    (obstacles : List Pos) (hne : layout ≠ []) :
    start_pos ∈ find_reachable_nodes layout start_pos obstacles :=
  mem_find_reachable_nodes_self layout start_pos obstacles

theorem C10_start_always_in_reachable_witness :
    ([[Tile.wall]] : Layout) ≠ [] ∧
      ((0, 0) : Pos) ∈ find_reachable_nodes [[Tile.wall]] (0, 0) [(0, 0)] :=
  ⟨by decide,
    C10_start_always_in_reachable [[Tile.wall]] (0, 0) [(0, 0)] (by decide)⟩

/-- C3: on a rectangular grid with the start inside the bounds,
`_find_reachable_nodes` returns exactly the tiles reachable from the start
by 4-directional moves through in-bounds, non-wall, non-blocked tiles
(out-of-bounds neighbours admit no move in `stepOK`, so they are
unreachable and cause no error), and the start itself is always
included. -/
theorem C3_find_reachable_nodes_exact (layout : Layout) (start_pos : Pos)
    (obstacles : List Pos) (hrect : Rectangular layout) (hne : layout ≠ [])
    (hstart : inB layout start_pos = true) :
    (∀ p, p ∈ find_reachable_nodes layout start_pos obstacles ↔
      TileReach layout obstacles start_pos p) ∧
    start_pos ∈ find_reachable_nodes layout start_pos obstacles :=
  ⟨fun _ => mem_find_reachable_nodes_iff,
    mem_find_reachable_nodes_self layout start_pos obstacles⟩

theorem C3_find_reachable_nodes_exact_witness :
    Rectangular [[Tile.wall, Tile.wall], [Tile.path, Tile.path]] ∧
      (∀ p, p ∈ find_reachable_nodes
          [[Tile.wall, Tile.wall], [Tile.path, Tile.path]] (0, 1) [] ↔
        TileReach [[Tile.wall, Tile.wall], [Tile.path, Tile.path]] [] (0, 1) p) ∧
      ((0, 1) : Pos) ∈ find_reachable_nodes
        [[Tile.wall, Tile.wall], [Tile.path, Tile.path]] (0, 1) [] :=
  ⟨by decide,
    C3_find_reachable_nodes_exact
      [[Tile.wall, Tile.wall], [Tile.path, Tile.path]] (0, 1) []
      (by decide) (by decide) (by decide)⟩

/-- A DSU state reached from a freshly initialized 2×2 lattice by three
`_unite_sets` calls; in it the cell `(1,1)` points at `(1,0)`, which points
at the common root `(0,0)`, so the next find from `(1,1)` compresses. -/
def dsu_cex_state : DSU :=
  (unite_sets 4
    (unite_sets 4
      (unite_sets 4 ((MazeGenerator.make 5 5).init_dsu) (0, 0) (0, 1)).2
      (1, 0) (1, 1)).2
    (0, 1) (1, 1)).2

/-- C6 counterexample: `_unite_sets` on two already-connected cells returns
`False` but does NOT leave the parent map unchanged — path compression
inside the embedded `_find_set` calls repoints `(1,1)` from `(1,0)`
directly to the root `(0,0)`. -/
theorem C6_counterexample_parent_changes :
    (unite_sets 4 dsu_cex_state (1, 1) (0, 1)).1 = false ∧
    dsu_cex_state.parent (1, 1) = (1, 0) ∧
    (unite_sets 4 dsu_cex_state (1, 1) (0, 1)).2.parent (1, 1) = (0, 0) := by
  decide

/-- C6 (amended): for cells `a`, `b` registered in a well-formed DSU state,
`_unite_sets` returns `True` and merges the two classes by attaching the
lower-rank root under the higher-rank root (on equal ranks `b`'s root is
attached under `a`'s root, whose rank is incremented) exactly when `a` and
`b` are in different classes, and returns `False` leaving the rank map and
the partition into classes unchanged exactly when they are already
connected (the parent map itself may be compressed, per the
counterexample); `_find_set` returns the representative of the cell's class
and repoints the intermediate parent links of the visited chain to that
root (the map `compress`). -/
theorem C6_unite_and_find_spec (s : DSU) (dom : Finset Cell)
    (a b ra rb : Cell) (fuel : Nat) (hWF : DSUWF s.parent dom)
    (ha : a ∈ dom) (hb : b ∈ dom) (hra : IsRootOf s.parent a ra)
    (hrb : IsRootOf s.parent b rb) (hfuel : dom.card ≤ fuel) :
    ((unite_sets fuel s a b).1 = true ↔ ra ≠ rb) ∧
    (ra = rb →
      (unite_sets fuel s a b).2.rank = s.rank ∧
      ∀ x y, sameClass (unite_sets fuel s a b).2.parent x y ↔
        sameClass s.parent x y) ∧
    (ra ≠ rb →
      (∀ x y, sameClass (unite_sets fuel s a b).2.parent x y ↔
        (sameClass s.parent x y ∨
          (sameClass s.parent x a ∧ sameClass s.parent y b) ∨
          (sameClass s.parent x b ∧ sameClass s.parent y a))) ∧
      (s.rank ra < s.rank rb →
        (unite_sets fuel s a b).2.parent ra = rb ∧
        (unite_sets fuel s a b).2.rank = s.rank) ∧
      (s.rank rb < s.rank ra →
        (unite_sets fuel s a b).2.parent rb = ra ∧
        (unite_sets fuel s a b).2.rank = s.rank) ∧
      (s.rank ra = s.rank rb →
        (unite_sets fuel s a b).2.parent rb = ra ∧
        (unite_sets fuel s a b).2.rank =
          Function.update s.rank ra (s.rank ra + 1))) ∧
    (∀ c r, c ∈ dom → IsRootOf s.parent c r →
      ∃ n, s.parent^[n] c = r ∧
        (∀ i < n, s.parent (s.parent^[i] c) ≠ s.parent^[i] c) ∧
        find_set fuel s.parent c = (r, compress s.parent c n r)) := by
  have hfind : ∀ c r, c ∈ dom → IsRootOf s.parent c r →
      ∃ n, s.parent^[n] c = r ∧
        (∀ i < n, s.parent (s.parent^[i] c) ≠ s.parent^[i] c) ∧
        find_set fuel s.parent c = (r, compress s.parent c n r) := by
    intro c r hc hr
    obtain ⟨n, hroot, hmin⟩ := exists_min_chain hr
    have hn1 := min_chain_succ_le_card hWF hc hroot hr.2 hmin
    exact ⟨n, hroot, hmin, find_set_spec hroot hr.2 hmin fuel (by omega)⟩
  by_cases hcase : ra = rb
  · subst hcase
    obtain ⟨hflag, hrank, hclass, _, _⟩ :=
      unite_sets_same hWF ha hb hra hrb hfuel
    refine ⟨?_, fun _ => ⟨hrank, hclass⟩, fun h => absurd rfl h, hfind⟩
    rw [hflag]
    simp
  · obtain ⟨hflag, _, hclass, _, hlt, hge⟩ :=
      unite_sets_diff hWF ha hb hra hrb hfuel hcase
    refine ⟨by rw [hflag]; simp [hcase], fun h => absurd h hcase,
      fun _ => ⟨hclass, ?_, ?_, ?_⟩, hfind⟩
    · intro hr
      obtain ⟨h1, h2⟩ := hlt hr
      exact ⟨h1, h2⟩
    · intro hr
      obtain ⟨h1, h2⟩ := hge (by omega)
      refine ⟨h1, ?_⟩
      rw [h2, if_neg (by omega)]
    · intro hr
      obtain ⟨h1, h2⟩ := hge (by omega)
      refine ⟨h1, ?_⟩
      rw [h2, if_pos hr]

theorem C6_unite_and_find_spec_witness :
    (((unite_sets 4 ((MazeGenerator.make 5 5).init_dsu) (0, 0) (0, 1)).1 =
        true ↔ ((0, 0) : Cell) ≠ (0, 1)) ∧
      (((0, 0) : Cell) = (0, 1) →
        (unite_sets 4 ((MazeGenerator.make 5 5).init_dsu) (0, 0) (0, 1)).2.rank =
          ((MazeGenerator.make 5 5).init_dsu).rank ∧
        ∀ x y,
          sameClass
            (unite_sets 4 ((MazeGenerator.make 5 5).init_dsu) (0, 0) (0, 1)).2.parent
            x y ↔
          sameClass ((MazeGenerator.make 5 5).init_dsu).parent x y) ∧
      (((0, 0) : Cell) ≠ (0, 1) →
        (∀ x y,
          sameClass
            (unite_sets 4 ((MazeGenerator.make 5 5).init_dsu) (0, 0) (0, 1)).2.parent
            x y ↔
          (sameClass ((MazeGenerator.make 5 5).init_dsu).parent x y ∨
            (sameClass ((MazeGenerator.make 5 5).init_dsu).parent x (0, 0) ∧
              sameClass ((MazeGenerator.make 5 5).init_dsu).parent y (0, 1)) ∨
            (sameClass ((MazeGenerator.make 5 5).init_dsu).parent x (0, 1) ∧
              sameClass ((MazeGenerator.make 5 5).init_dsu).parent y (0, 0)))) ∧
        (((MazeGenerator.make 5 5).init_dsu).rank (0, 0) <
            ((MazeGenerator.make 5 5).init_dsu).rank (0, 1) →
          (unite_sets 4 ((MazeGenerator.make 5 5).init_dsu) (0, 0) (0, 1)).2.parent
              (0, 0) = (0, 1) ∧
          (unite_sets 4 ((MazeGenerator.make 5 5).init_dsu) (0, 0) (0, 1)).2.rank =
            ((MazeGenerator.make 5 5).init_dsu).rank) ∧
        (((MazeGenerator.make 5 5).init_dsu).rank (0, 1) <
            ((MazeGenerator.make 5 5).init_dsu).rank (0, 0) →
          (unite_sets 4 ((MazeGenerator.make 5 5).init_dsu) (0, 0) (0, 1)).2.parent
              (0, 1) = (0, 0) ∧
          (unite_sets 4 ((MazeGenerator.make 5 5).init_dsu) (0, 0) (0, 1)).2.rank =
            ((MazeGenerator.make 5 5).init_dsu).rank) ∧
        (((MazeGenerator.make 5 5).init_dsu).rank (0, 0) =
            ((MazeGenerator.make 5 5).init_dsu).rank (0, 1) →
          (unite_sets 4 ((MazeGenerator.make 5 5).init_dsu) (0, 0) (0, 1)).2.parent
              (0, 1) = (0, 0) ∧
          (unite_sets 4 ((MazeGenerator.make 5 5).init_dsu) (0, 0) (0, 1)).2.rank =
            Function.update ((MazeGenerator.make 5 5).init_dsu).rank (0, 0)
              (((MazeGenerator.make 5 5).init_dsu).rank (0, 0) + 1))) ∧
      (∀ c r, c ∈ (MazeGenerator.make 5 5).dom →
        IsRootOf ((MazeGenerator.make 5 5).init_dsu).parent c r →
        ∃ n, ((MazeGenerator.make 5 5).init_dsu).parent^[n] c = r ∧
          (∀ i < n,
            ((MazeGenerator.make 5 5).init_dsu).parent
                (((MazeGenerator.make 5 5).init_dsu).parent^[i] c) ≠
              ((MazeGenerator.make 5 5).init_dsu).parent^[i] c) ∧
          find_set 4 ((MazeGenerator.make 5 5).init_dsu).parent c =
            (r, compress ((MazeGenerator.make 5 5).init_dsu).parent c n r))) :=
  C6_unite_and_find_spec ((MazeGenerator.make 5 5).init_dsu)
    ((MazeGenerator.make 5 5).dom) (0, 0) (0, 1) (0, 0) (0, 1) 4
    ⟨fun _ hc => hc, fun _ _ => rfl, fun c _ => ⟨c, isRootOf_fixed rfl⟩⟩
    (by decide) (by decide) ⟨⟨0, rfl⟩, rfl⟩ ⟨⟨0, rfl⟩, rfl⟩ (by decide)

/-- Rotation invariant of the inner obstacle-slot scan: scanning `rem`
with the already-failed candidates `failed` queued behind it either fails
on all of `rem` (state unchanged, pool fully rotated back) or commits the
first succeeding candidate and stops. -/
theorem place_obstacle_slot_rotation (layout : Layout)
    (player_pos exit_pos : Pos) (obstacles : List Pos) :
    ∀ rem failed : List Pos,
      (∀ q ∈ failed,
        exit_pos ∉ find_reachable_nodes layout player_pos (obstacles ++ [q])) →
      ((∀ q ∈ rem,
          exit_pos ∉ find_reachable_nodes layout player_pos (obstacles ++ [q])) ∧
        place_obstacle_slot layout player_pos exit_pos obstacles rem.length
          (rem ++ failed) = (obstacles, failed ++ rem)) ∨
      (∃ pre cand post, rem = pre ++ cand :: post ∧
        (∀ q ∈ pre,
          exit_pos ∉ find_reachable_nodes layout player_pos (obstacles ++ [q])) ∧
        exit_pos ∈ find_reachable_nodes layout player_pos (obstacles ++ [cand]) ∧
        place_obstacle_slot layout player_pos exit_pos obstacles rem.length
          (rem ++ failed) = (obstacles ++ [cand], post ++ failed ++ pre)) := by
  intro rem
  induction rem with
  | nil =>
    intro failed _
    left
    refine ⟨fun q hq => absurd hq (List.not_mem_nil q), ?_⟩
    simp [place_obstacle_slot]
  | cons pos rest ih =>
    intro failed hfailed
    by_cases hpos :
        exit_pos ∈ find_reachable_nodes layout player_pos (obstacles ++ [pos])
    · right
      refine ⟨[], pos, rest, by simp, by simp, hpos, ?_⟩
      simp [place_obstacle_slot, hpos]
    · have hfailed2 : ∀ q ∈ failed ++ [pos],
          exit_pos ∉ find_reachable_nodes layout player_pos (obstacles ++ [q]) := by
        intro q hq
        rcases List.mem_append.mp hq with h | h
        · exact hfailed q h
        · rcases List.mem_singleton.mp h with rfl
          exact hpos
      have heval : place_obstacle_slot layout player_pos exit_pos obstacles
          (pos :: rest).length ((pos :: rest) ++ failed) =
          place_obstacle_slot layout player_pos exit_pos obstacles rest.length
            (rest ++ (failed ++ [pos])) := by
        simp only [List.length_cons, List.cons_append, place_obstacle_slot,
          if_neg hpos]
        simp [List.append_assoc]
      rcases ih (failed ++ [pos]) hfailed2 with ⟨hall, hres⟩ | ⟨pre, cand, post, hsplit, hpre, hcand, hres⟩
      · left
        constructor
        · intro q hq
          rcases List.mem_cons.mp hq with rfl | h
          · exact hpos
          · exact hall q h
        · rw [heval, hres]
          simp
      · right
        refine ⟨pos :: pre, cand, post, by rw [hsplit]; simp, ?_, hcand, ?_⟩
        · intro q hq
          rcases List.mem_cons.mp hq with rfl | h
          · exact hpos
          · exact hpre q h
        · rw [heval, hres]
          simp

/-- If every pool candidate disconnects the exit, every further slot of the
outer loop leaves the obstacle list and the pool unchanged. -/
theorem place_obstacles_stuck (layout : Layout) (player_pos exit_pos : Pos) :
    ∀ (k : Nat) (obstacles pool : List Pos),
      (∀ q ∈ pool,
        exit_pos ∉ find_reachable_nodes layout player_pos (obstacles ++ [q])) →
      place_obstacles layout player_pos exit_pos k obstacles pool =
        (obstacles, pool) := by
  intro k
  induction k with
  | zero => intro obstacles pool _; rfl
  | succ k ih =>
    intro obstacles pool hall
    by_cases hempty : pool = []
    · subst hempty
      simp [place_obstacles]
    · rcases place_obstacle_slot_rotation layout player_pos exit_pos obstacles
          pool [] (by intro q hq; exact absurd hq (List.not_mem_nil q)) with
        ⟨_, hres⟩ | ⟨pre, cand, post, _, _, hcand, _⟩
      · rw [List.append_nil] at hres
        simp only [place_obstacles, List.isEmpty_iff, hempty, if_neg,
          ite_false]
        rw [hres]
        exact ih obstacles pool hall
      · exfalso
        refine hall cand ?_ hcand
        rw [‹pool = pre ++ cand :: post›]
        simp

/-- C4: one obstacle slot either (a) finds no admissible candidate — then
every pool element was tried (the scan is bounded by `len(pool)`), the
obstacle set and the pool are unchanged, and the whole remaining obstacle
loop commits nothing further (the code rescans the unchanged pool on each
later slot and fails identically, so the outcome equals abandoning all
remaining slots, with fewer obstacles than requested and no error) — or
(b) commits the first candidate whose tentative addition keeps the exit
reachable; the candidates tried before it are returned to the back of the
pool, and a candidate that disconnects the exit is never committed. -/
theorem C4_obstacle_placement (layout : Layout) (player_pos exit_pos : Pos)
    (obstacles pool : List Pos) (k : Nat) :
    ((∀ q ∈ pool,
        exit_pos ∉ find_reachable_nodes layout player_pos (obstacles ++ [q])) ∧
      place_obstacle_slot layout player_pos exit_pos obstacles pool.length
        pool = (obstacles, pool) ∧
      place_obstacles layout player_pos exit_pos k obstacles pool =
        (obstacles, pool)) ∨
    (∃ pre cand post, pool = pre ++ cand :: post ∧
      (∀ q ∈ pre,
        exit_pos ∉ find_reachable_nodes layout player_pos (obstacles ++ [q])) ∧
      exit_pos ∈ find_reachable_nodes layout player_pos (obstacles ++ [cand]) ∧
      place_obstacle_slot layout player_pos exit_pos obstacles pool.length
        pool = (obstacles ++ [cand], post ++ pre)) := by
  rcases place_obstacle_slot_rotation layout player_pos exit_pos obstacles
      pool [] (by intro q hq; exact absurd hq (List.not_mem_nil q)) with
    ⟨hall, hres⟩ | ⟨pre, cand, post, hsplit, hpre, hcand, hres⟩
  · left
    rw [List.append_nil] at hres
    rw [List.nil_append] at hres
    exact ⟨hall, hres, place_obstacles_stuck layout player_pos exit_pos k
      obstacles pool hall⟩
  · right
    refine ⟨pre, cand, post, hsplit, hpre, hcand, ?_⟩
    rw [List.append_nil] at hres
    simpa using hres

/-! ### Lattice connectivity over an edge list -/

/-- Connectivity of lattice cells through a list of (undirected) edges. -/
def edgeConn (edges : List Edge) : Cell → Cell → Prop :=
  Relation.ReflTransGen (fun x y => (x, y) ∈ edges ∨ (y, x) ∈ edges)

theorem edgeConn_nil {a b : Cell} : edgeConn [] a b ↔ a = b := by
  constructor
  · intro h
    induction h with
    | refl => rfl
    | tail _ hstep _ => simp at hstep
  · rintro rfl
    exact Relation.ReflTransGen.refl

theorem edgeConn_single {edges : List Edge} {e : Edge} (he : e ∈ edges) :
    edgeConn edges e.1 e.2 :=
  Relation.ReflTransGen.single (Or.inl he)

theorem edgeConn_symm {edges : List Edge} {a b : Cell}
    (h : edgeConn edges a b) : edgeConn edges b a := by
  induction h with
  | refl => exact Relation.ReflTransGen.refl
  | tail _ hstep ih =>
    refine Relation.ReflTransGen.trans (Relation.ReflTransGen.single ?_) ih
    tauto

theorem edgeConn_mono {E F : List Edge} (hEF : ∀ e ∈ E, e ∈ F) {a b : Cell}
    (h : edgeConn E a b) : edgeConn F a b := by
  induction h with
  | refl => exact Relation.ReflTransGen.refl
  | tail _ hstep ih =>
    refine Relation.ReflTransGen.tail ih ?_
    rcases hstep with h | h
    · exact Or.inl (hEF _ h)
    · exact Or.inr (hEF _ h)

/-- Connectivity through `E ++ [g]` decomposes: either it never crosses
`g`, or it crosses `g` once in one of the two directions. -/
theorem edgeConn_append_single {E : List Edge} {g : Edge} {a b : Cell}
    (h : edgeConn (E ++ [g]) a b) :
    edgeConn E a b ∨ (edgeConn E a g.1 ∧ edgeConn E g.2 b) ∨
      (edgeConn E a g.2 ∧ edgeConn E g.1 b) := by
  induction h with
  | refl => exact Or.inl Relation.ReflTransGen.refl
  | tail hconn hstep ih =>
    rename_i c d
    have hstep2 : (c, d) ∈ E ∨ (d, c) ∈ E ∨ (c, d) = g ∨ (d, c) = g := by
      rcases hstep with h | h
      · rcases List.mem_append.mp h with h | h
        · exact Or.inl h
        · exact Or.inr (Or.inr (Or.inl (List.mem_singleton.mp h)))
      · rcases List.mem_append.mp h with h | h
        · exact Or.inr (Or.inl h)
        · exact Or.inr (Or.inr (Or.inr (List.mem_singleton.mp h)))
    rcases hstep2 with h | h | h | h
    · rcases ih with h1 | ⟨h1, h2⟩ | ⟨h1, h2⟩
      · exact Or.inl (Relation.ReflTransGen.tail h1 (Or.inl h))
      · exact Or.inr (Or.inl ⟨h1, Relation.ReflTransGen.tail h2 (Or.inl h)⟩)
      · exact Or.inr (Or.inr ⟨h1, Relation.ReflTransGen.tail h2 (Or.inl h)⟩)
    · rcases ih with h1 | ⟨h1, h2⟩ | ⟨h1, h2⟩
      · exact Or.inl (Relation.ReflTransGen.tail h1 (Or.inr h))
      · exact Or.inr (Or.inl ⟨h1, Relation.ReflTransGen.tail h2 (Or.inr h)⟩)
      · exact Or.inr (Or.inr ⟨h1, Relation.ReflTransGen.tail h2 (Or.inr h)⟩)
    · have hc : c = g.1 := by rw [← h]
      have hd : d = g.2 := by rw [← h]
      subst hc; subst hd
      rcases ih with h1 | ⟨h1, h2⟩ | ⟨h1, h2⟩
      · exact Or.inr (Or.inl ⟨h1, Relation.ReflTransGen.refl⟩)
      · exact Or.inr (Or.inl ⟨h1, Relation.ReflTransGen.refl⟩)
      · exact Or.inl h1
    · have hc : c = g.2 := by rw [← h]
      have hd : d = g.1 := by rw [← h]
      subst hc; subst hd
      rcases ih with h1 | ⟨h1, h2⟩ | ⟨h1, h2⟩
      · exact Or.inr (Or.inr ⟨h1, Relation.ReflTransGen.refl⟩)
      · exact Or.inl h1
      · exact Or.inr (Or.inr ⟨h1, Relation.ReflTransGen.refl⟩)

theorem edgeConn_append_single_iff {E : List Edge} {g : Edge} {a b : Cell} :
    edgeConn (E ++ [g]) a b ↔
      (edgeConn E a b ∨ (edgeConn E a g.1 ∧ edgeConn E g.2 b) ∨
        (edgeConn E a g.2 ∧ edgeConn E g.1 b)) := by
  constructor
  · exact edgeConn_append_single
  · have hmono : ∀ x y, edgeConn E x y → edgeConn (E ++ [g]) x y :=
      fun x y => edgeConn_mono (fun e he => List.mem_append.mpr (Or.inl he))
    have hg : edgeConn (E ++ [g]) g.1 g.2 :=
      edgeConn_single (List.mem_append.mpr (Or.inr (List.mem_singleton.mpr rfl)))
    rintro (h | ⟨h1, h2⟩ | ⟨h1, h2⟩)
    · exact hmono _ _ h
    · exact Relation.ReflTransGen.trans (hmono _ _ h1)
        (Relation.ReflTransGen.trans hg (hmono _ _ h2))
    · exact Relation.ReflTransGen.trans (hmono _ _ h1)
        (Relation.ReflTransGen.trans (edgeConn_symm hg) (hmono _ _ h2))

/-! ### Carved tiles -/

/-- The tile of a lattice cell: `(2*col + 1, 2*row + 1)` in `(x, y)`
order. -/
def cell_tile (c : Cell) : Pos := ((2 * c.2 + 1 : Int), (2 * c.1 + 1 : Int))

/-- The midpoint wall tile of an edge:
`(c1 + c2 + 1, r1 + r2 + 1)` in `(x, y)` order. -/
def mid_tile (e : Edge) : Pos :=
  ((e.1.2 + e.2.2 + 1 : Int), (e.1.1 + e.2.1 + 1 : Int))

/-- The three tiles carved for an accepted edge. -/
def edge_tiles (e : Edge) : List Pos := [cell_tile e.1, cell_tile e.2, mid_tile e]

/-- A tile carved by some edge of the list. -/
def carved (acc : List Edge) (p : Pos) : Prop := ∃ e ∈ acc, p ∈ edge_tiles e

theorem carved_nil (p : Pos) : ¬ carved [] p := by
  rintro ⟨e, he, _⟩
  exact absurd he (List.not_mem_nil e)

theorem carved_append_single {acc : List Edge} {e : Edge} {p : Pos} :
    carved (acc ++ [e]) p ↔ carved acc p ∨ p ∈ edge_tiles e := by
  unfold carved
  constructor
  · rintro ⟨f, hf, hp⟩
    rcases List.mem_append.mp hf with h | h
    · exact Or.inl ⟨f, h, hp⟩
    · rcases List.mem_singleton.mp h with rfl
      exact Or.inr hp
  · rintro (⟨f, hf, hp⟩ | hp)
    · exact ⟨f, List.mem_append.mpr (Or.inl hf), hp⟩
    · exact ⟨e, List.mem_append.mpr (Or.inr (List.mem_singleton.mpr rfl)), hp⟩

/-! ### Grid update lemmas -/

theorem length_setTile (l : Layout) (x y : Nat) (t : Tile) :
    (setTile l x y t).length = l.length :=
  List.length_set l y _

theorem getD_setTile_row (l : Layout) (x y : Nat) (t : Tile) (r : Nat) :
    (setTile l x y t).getD r [] =
      if y = r ∧ y < l.length then (l.getD y []).set x t else l.getD r [] := by
  unfold setTile
  rw [List.getD_eq_getElem?_getD, List.getElem?_set]
  by_cases h1 : y = r
  · subst h1
    by_cases h2 : y < l.length
    · rw [if_pos rfl, if_pos h2, if_pos ⟨rfl, h2⟩]
      rfl
    · rw [if_pos rfl, if_neg h2, if_neg (by rintro ⟨_, h⟩; exact h2 h)]
      rw [List.getD_eq_getElem?_getD, List.getElem?_eq_none (by omega)]
  · rw [if_neg h1, if_neg (by rintro ⟨h, _⟩; exact h1 h)]
    rw [List.getD_eq_getElem?_getD]

theorem getD_set_row (row : List Tile) (x c : Nat) (t : Tile) :
    (row.set x t).getD c Tile.wall =
      if x = c ∧ x < row.length then t else row.getD c Tile.wall := by
  rw [List.getD_eq_getElem?_getD, List.getElem?_set]
  by_cases h1 : x = c
  · subst h1
    by_cases h2 : x < row.length
    · rw [if_pos rfl, if_pos h2, if_pos ⟨rfl, h2⟩]
      rfl
    · rw [if_pos rfl, if_neg h2, if_neg (by rintro ⟨_, h⟩; exact h2 h)]
      rw [List.getD_eq_getElem?_getD, List.getElem?_eq_none (by omega)]
  · rw [if_neg h1, if_neg (by rintro ⟨h, _⟩; exact h1 h)]
    rw [List.getD_eq_getElem?_getD]

theorem row_length_setTile (l : Layout) (x y : Nat) (t : Tile) (r : Nat) :
    ((setTile l x y t).getD r []).length = (l.getD r []).length := by
  rw [getD_setTile_row]
  by_cases h : y = r ∧ y < l.length
  · rw [if_pos h, List.length_set, h.1]
  · rw [if_neg h]

theorem tileAt_setTile (l : Layout) (x y : Nat) (t : Tile) (q : Pos) :
    tileAt (setTile l x y t) q =
      if q.1 = (x : Int) ∧ q.2 = (y : Int) ∧ y < l.length ∧
          x < (l.getD y []).length
      then t else tileAt l q := by
  rcases q with ⟨qx, qy⟩
  by_cases hq : 0 ≤ qx ∧ 0 ≤ qy
  · have hL : tileAt (setTile l x y t) (qx, qy) =
        ((setTile l x y t).getD qy.toNat []).getD qx.toNat Tile.wall := by
      unfold tileAt
      rw [if_pos hq]
    have hR : tileAt l (qx, qy) =
        (l.getD qy.toNat []).getD qx.toNat Tile.wall := by
      unfold tileAt
      rw [if_pos hq]
    rw [hL, getD_setTile_row]
    by_cases hrow : y = qy.toNat ∧ y < l.length
    · rw [if_pos hrow, getD_set_row]
      by_cases hcol : x = qx.toNat ∧ x < (l.getD y []).length
      · rw [if_pos hcol, if_pos ⟨by omega, by omega, hrow.2, hcol.2⟩]
      · rw [if_neg hcol,
          if_neg (by rintro ⟨h1, h2, h3, h4⟩; exact hcol ⟨by omega, h4⟩), hR,
          hrow.1]
    · rw [if_neg hrow, hR,
        if_neg (by rintro ⟨h1, h2, h3, h4⟩; exact hrow ⟨by omega, h3⟩)]
  · have hcond : ¬((qx, qy).1 = (x : Int) ∧ (qx, qy).2 = (y : Int) ∧
        y < l.length ∧ x < (l.getD y []).length) := by
      rintro ⟨h1, h2, _, _⟩
      exact hq ⟨by omega, by omega⟩
    rw [if_neg hcond]
    unfold tileAt
    rw [if_neg hq, if_neg hq]

theorem tileAt_replicate_wall (w h : Nat) (p : Pos) :
    tileAt (List.replicate h (List.replicate w Tile.wall)) p = Tile.wall := by
  unfold tileAt
  split
  · rw [List.getD_eq_getElem?_getD (List.replicate h (List.replicate w Tile.wall)),
      List.getElem?_replicate]
    by_cases hh : p.2.toNat < h
    · rw [if_pos hh]
      simp only [Option.getD_some]
      rw [List.getD_eq_getElem?_getD, List.getElem?_replicate]
      by_cases hw : p.1.toNat < w
      · rw [if_pos hw]
        rfl
      · rw [if_neg hw]
        rfl
    · rw [if_neg hh]
      rfl
  · rfl

theorem getD_eq_getElem?_layout (l : Layout) (r : Nat) :
    l.getD r [] = (l[r]?).getD [] :=
  List.getD_eq_getElem?_getD l r []

/-! ### Generator geometry -/

theorem make_width_eq (w h : Nat) :
    (MazeGenerator.make w h).width = 2 * (MazeGenerator.make w h).cell_width + 1 := by
  by_cases hw : w % 2 = 0 <;> simp [MazeGenerator.make, hw] <;> omega

theorem make_height_eq (w h : Nat) :
    (MazeGenerator.make w h).height =
      2 * (MazeGenerator.make w h).cell_height + 1 := by
  by_cases hh : h % 2 = 0 <;> simp [MazeGenerator.make, hh] <;> omega

theorem dom_card (g : MazeGenerator) : g.dom.card = g.fuel := by
  unfold MazeGenerator.dom MazeGenerator.fuel
  rw [Finset.card_product, Finset.card_range, Finset.card_range]

theorem mem_dom_iff {g : MazeGenerator} {c : Cell} :
    c ∈ g.dom ↔ c.1 < g.cell_height ∧ c.2 < g.cell_width := by
  rcases c with ⟨r, cc⟩
  simp [MazeGenerator.dom, Finset.mem_product]

theorem mem_walls_iff {g : MazeGenerator} {e : Edge} :
    e ∈ g.walls ↔
      (∃ r c, r + 1 < g.cell_height ∧ c < g.cell_width ∧
        e = ((r, c), (r + 1, c))) ∨
      (∃ r c, r < g.cell_height ∧ c + 1 < g.cell_width ∧
        e = ((r, c), (r, c + 1))) := by
  unfold MazeGenerator.walls
  simp only [List.mem_flatMap, List.mem_range, List.mem_append]
  constructor
  · rintro ⟨r, hr, c, hc, hmem | hmem⟩
    · by_cases hcond : r + 1 < g.cell_height
      · rw [if_pos hcond] at hmem
        exact Or.inl ⟨r, c, hcond, hc, List.mem_singleton.mp hmem⟩
      · rw [if_neg hcond] at hmem
        exact absurd hmem (List.not_mem_nil e)
    · by_cases hcond : c + 1 < g.cell_width
      · rw [if_pos hcond] at hmem
        exact Or.inr ⟨r, c, hr, hcond, List.mem_singleton.mp hmem⟩
      · rw [if_neg hcond] at hmem
        exact absurd hmem (List.not_mem_nil e)
  · rintro (⟨r, c, h1, h2, rfl⟩ | ⟨r, c, h1, h2, rfl⟩)
    · exact ⟨r, by omega, c, h2,
        Or.inl (by rw [if_pos h1]; exact List.mem_singleton.mpr rfl)⟩
    · exact ⟨r, h1, c, by omega,
        Or.inr (by rw [if_pos h2]; exact List.mem_singleton.mpr rfl)⟩

theorem walls_endpoints_mem_dom {g : MazeGenerator} {e : Edge}
    (he : e ∈ g.walls) : e.1 ∈ g.dom ∧ e.2 ∈ g.dom := by
  rcases mem_walls_iff.mp he with ⟨r, c, h1, h2, rfl⟩ | ⟨r, c, h1, h2, rfl⟩ <;>
    constructor <;> rw [mem_dom_iff] <;> constructor <;> simp <;> omega

theorem walls_endpoints_ne {g : MazeGenerator} {e : Edge}
    (he : e ∈ g.walls) : e.1 ≠ e.2 := by
  rcases mem_walls_iff.mp he with ⟨r, c, _, _, rfl⟩ | ⟨r, c, _, _, rfl⟩ <;>
    simp

/-- The full wall list connects the whole lattice. -/
theorem walls_connect (g : MazeGenerator) :
    ∀ (n : Nat) (c : Cell), c.1 + c.2 = n → c ∈ g.dom →
      edgeConn g.walls (0, 0) c := by
  intro n
  induction n using Nat.strong_induction_on with
  | _ n ih =>
    rintro ⟨r, cc⟩ hn hdom
    rw [mem_dom_iff] at hdom
    rcases Nat.eq_zero_or_pos r with rfl | hr
    · rcases Nat.eq_zero_or_pos cc with rfl | hcc
      · exact Relation.ReflTransGen.refl
      · obtain ⟨c0, rfl⟩ := Nat.exists_eq_add_of_lt hcc
        rw [Nat.zero_add] at *
        have hprev : edgeConn g.walls (0, 0) (0, c0) := by
          refine ih c0 (by omega) (0, c0) (by simp) ?_
          rw [mem_dom_iff]
          exact ⟨hdom.1, by omega⟩
        refine Relation.ReflTransGen.tail hprev (Or.inl ?_)
        rw [mem_walls_iff]
        exact Or.inr ⟨0, c0, hdom.1, by omega, rfl⟩
    · obtain ⟨r0, rfl⟩ := Nat.exists_eq_add_of_lt hr
      rw [Nat.zero_add] at *
      have hprev : edgeConn g.walls (0, 0) (r0, cc) := by
        refine ih (r0 + cc) (by omega) (r0, cc) (by simp) ?_
        rw [mem_dom_iff]
        exact ⟨by omega, hdom.2⟩
      refine Relation.ReflTransGen.tail hprev (Or.inl ?_)
      rw [mem_walls_iff]
      exact Or.inl ⟨r0, cc, by omega, hdom.2, rfl⟩

/-- Appending an edge whose endpoints are already connected changes no
connectivity. -/
theorem edgeConn_append_redundant {E : List Edge} {e : Edge}
    (h : edgeConn E e.1 e.2) (x y : Cell) :
    edgeConn (E ++ [e]) x y ↔ edgeConn E x y := by
  rw [edgeConn_append_single_iff]
  constructor
  · rintro (h1 | ⟨h1, h2⟩ | ⟨h1, h2⟩)
    · exact h1
    · exact Relation.ReflTransGen.trans h1
        (Relation.ReflTransGen.trans h h2)
    · exact Relation.ReflTransGen.trans h1
        (Relation.ReflTransGen.trans (edgeConn_symm h) h2)
  · exact Or.inl

theorem edgeConn_perm {E F : List Edge} (hm : ∀ f, f ∈ E ↔ f ∈ F) (x y : Cell) :
    edgeConn E x y ↔ edgeConn F x y :=
  ⟨edgeConn_mono (fun f hf => (hm f).mp hf),
    edgeConn_mono (fun f hf => (hm f).mpr hf)⟩

instance (acc : List Edge) (p : Pos) : Decidable (carved acc p) := by
  unfold carved
  infer_instance

/-- The phase-1 loop invariant over the state `(dsu, layout, remaining)`,
with `acc` the (ghost) list of accepted edges so far. -/
structure P1 (g : MazeGenerator) (st : DSU × Layout × List Edge)
    (acc : List Edge) : Prop where
  wf : DSUWF st.1.parent g.dom
  classes : ∀ x ∈ g.dom, ∀ y ∈ g.dom,
    (sameClass st.1.parent x y ↔ edgeConn acc x y)
  layout_spec : ∀ p, tileAt st.2.1 p =
    if carved acc p then Tile.path else Tile.wall
  hlen : st.2.1.length = g.height
  hrows : ∀ r, r < g.height → (st.2.1.getD r []).length = g.width
  roots_card :
    (g.dom.filter (fun c => st.1.parent c = c)).card + acc.length = g.dom.card
  acc_walls : ∀ e ∈ acc, e ∈ g.walls
  acc_nodup : acc.Nodup
  forest : ∀ e ∈ acc, ¬ edgeConn (acc.erase e) e.1 e.2

/-- The invariant holds at the start of phase 1. -/
theorem P1_start (g : MazeGenerator) :
    P1 g (g.init_dsu,
      List.replicate g.height (List.replicate g.width Tile.wall), []) [] := by
  refine ⟨⟨fun c hc => hc, fun c _ => rfl, fun c _ => ⟨c, isRootOf_fixed rfl⟩⟩,
    ?_, ?_, ?_, ?_, ?_, ?_, List.nodup_nil, ?_⟩
  · intro x _ y _
    rw [edgeConn_nil]
    have hroot_eq : ∀ z r : Cell, IsRootOf (g.init_dsu).parent z r → r = z := by
      intro z r hz
      obtain ⟨⟨n, hn⟩, _⟩ := hz
      rw [← hn, Function.iterate_fixed (rfl : (g.init_dsu).parent z = z) n]
    constructor
    · rintro ⟨r, hx, hy⟩
      rw [← hroot_eq x r hx, hroot_eq y r hy]
    · rintro rfl
      exact ⟨x, isRootOf_fixed rfl, isRootOf_fixed rfl⟩
  · intro p
    rw [if_neg (carved_nil p)]
    exact tileAt_replicate_wall g.width g.height p
  · exact List.length_replicate g.height _
  · intro r hr
    rw [List.getD_eq_getElem?_getD, List.getElem?_replicate, if_pos hr]
    exact List.length_replicate g.width _
  · simp only [List.length_nil, Nat.add_zero]
    congr 1
    apply Finset.filter_true_of_mem
    intro c _
    rfl
  · intro e he
    exact absurd he (List.not_mem_nil e)
  · intro e he
    exact absurd he (List.not_mem_nil e)

theorem tileAt_setTile_of_bounds (l : Layout) (x y : Nat) (t : Tile)
    (H W : Nat) (hlen : l.length = H)
    (hrows : ∀ r, r < H → (l.getD r []).length = W)
    (hx : x < W) (hy : y < H) (q : Pos) :
    tileAt (setTile l x y t) q =
      if q = ((x : Int), (y : Int)) then t else tileAt l q := by
  rw [tileAt_setTile]
  have h1 : y < l.length := by omega
  have h2 : x < (l.getD y []).length := by rw [hrows y hy]; exact hx
  by_cases hq : q = ((x : Int), (y : Int))
  · rw [if_pos hq, if_pos ⟨by rw [hq], by rw [hq], h1, h2⟩]
  · rw [if_neg hq, if_neg (by rintro ⟨ha, hb, _, _⟩; exact hq (Prod.ext ha hb))]

theorem cell_tile_cast (c : Cell) :
    cell_tile c = (((2 * c.2 + 1 : Nat) : Int), ((2 * c.1 + 1 : Nat) : Int)) := by
  unfold cell_tile
  push_cast
  rfl

theorem mid_tile_cast (e : Edge) :
    mid_tile e =
      (((e.1.2 + e.2.2 + 1 : Nat) : Int), ((e.1.1 + e.2.1 + 1 : Nat) : Int)) := by
  unfold mid_tile
  push_cast
  rfl

/-- The three carve writes of an accepted edge update the layout
description from `carved acc` to `carved (acc ++ [e])`, preserving all row
dimensions. -/
theorem carve_layout_spec (g : MazeGenerator)
    (hw : g.width = 2 * g.cell_width + 1)
    (hh : g.height = 2 * g.cell_height + 1)
    (l : Layout) (acc : List Edge) (e : Edge) (he : e ∈ g.walls)
    (hspec : ∀ p, tileAt l p = if carved acc p then Tile.path else Tile.wall)
    (hlen : l.length = g.height)
    (hrows : ∀ r, r < g.height → (l.getD r []).length = g.width) :
    (∀ p, tileAt (setTile (setTile (setTile l (2 * e.1.2 + 1) (2 * e.1.1 + 1)
        Tile.path) (2 * e.2.2 + 1) (2 * e.2.1 + 1) Tile.path)
        (e.1.2 + e.2.2 + 1) (e.1.1 + e.2.1 + 1) Tile.path) p =
      if carved (acc ++ [e]) p then Tile.path else Tile.wall) ∧
    (setTile (setTile (setTile l (2 * e.1.2 + 1) (2 * e.1.1 + 1)
        Tile.path) (2 * e.2.2 + 1) (2 * e.2.1 + 1) Tile.path)
        (e.1.2 + e.2.2 + 1) (e.1.1 + e.2.1 + 1) Tile.path).length = g.height ∧
    (∀ r, r < g.height →
      ((setTile (setTile (setTile l (2 * e.1.2 + 1) (2 * e.1.1 + 1)
        Tile.path) (2 * e.2.2 + 1) (2 * e.2.1 + 1) Tile.path)
        (e.1.2 + e.2.2 + 1) (e.1.1 + e.2.1 + 1) Tile.path).getD r []).length =
        g.width) := by
  have hb : (2 * e.1.2 + 1 < g.width ∧ 2 * e.1.1 + 1 < g.height) ∧
      (2 * e.2.2 + 1 < g.width ∧ 2 * e.2.1 + 1 < g.height) ∧
      (e.1.2 + e.2.2 + 1 < g.width ∧ e.1.1 + e.2.1 + 1 < g.height) := by
    rcases mem_walls_iff.mp he with ⟨r, c, h1, h2, rfl⟩ | ⟨r, c, h1, h2, rfl⟩ <;>
      simp only [Prod.fst, Prod.snd] <;> omega
  set l1 := setTile l (2 * e.1.2 + 1) (2 * e.1.1 + 1) Tile.path with hl1
  set l2 := setTile l1 (2 * e.2.2 + 1) (2 * e.2.1 + 1) Tile.path with hl2
  have hlen1 : l1.length = g.height := by rw [hl1, length_setTile, hlen]
  have hrows1 : ∀ r, r < g.height → (l1.getD r []).length = g.width := by
    intro r hr
    rw [hl1, row_length_setTile]
    exact hrows r hr
  have hlen2 : l2.length = g.height := by rw [hl2, length_setTile, hlen1]
  have hrows2 : ∀ r, r < g.height → (l2.getD r []).length = g.width := by
    intro r hr
    rw [hl2, row_length_setTile]
    exact hrows1 r hr
  refine ⟨?_, ?_, ?_⟩
  · intro q
    rw [tileAt_setTile_of_bounds l2 _ _ _ g.height g.width hlen2 hrows2
        hb.2.2.1 hb.2.2.2 q,
      tileAt_setTile_of_bounds l1 _ _ _ g.height g.width hlen1 hrows1
        hb.2.1.1 hb.2.1.2 q,
      tileAt_setTile_of_bounds l _ _ _ g.height g.width hlen hrows
        hb.1.1 hb.1.2 q,
      ← mid_tile_cast, ← cell_tile_cast, ← cell_tile_cast]
    by_cases hqm : q = mid_tile e
    · rw [if_pos hqm,
        if_pos (carved_append_single.mpr (Or.inr (by simp [edge_tiles, hqm])))]
    · rw [if_neg hqm]
      by_cases hq2 : q = cell_tile e.2
      · rw [if_pos hq2,
          if_pos (carved_append_single.mpr (Or.inr (by simp [edge_tiles, hq2])))]
      · rw [if_neg hq2]
        by_cases hq1 : q = cell_tile e.1
        · rw [if_pos hq1,
            if_pos (carved_append_single.mpr (Or.inr (by simp [edge_tiles, hq1])))]
        · rw [if_neg hq1, hspec q]
          have : carved (acc ++ [e]) q ↔ carved acc q := by
            rw [carved_append_single]
            constructor
            · rintro (h | h)
              · exact h
              · exfalso
                simp only [edge_tiles, List.mem_cons, List.mem_singleton,
                  List.not_mem_nil, or_false] at h
                tauto
            · exact Or.inl
          by_cases hc : carved acc q
          · rw [if_pos hc, if_pos (this.mpr hc)]
          · rw [if_neg hc, if_neg (fun h => hc (this.mp h))]
  · rw [length_setTile, hlen2]
  · intro r hr
    rw [row_length_setTile]
    exact hrows2 r hr

/-- One phase-1 iteration: an edge between disconnected cells is accepted
(union succeeds, three tiles carved), an edge between connected cells is
rejected (state unchanged except the edge joins `remaining_walls`). -/
theorem phase1_step_spec (g : MazeGenerator)
    (hw : g.width = 2 * g.cell_width + 1)
    (hh : g.height = 2 * g.cell_height + 1)
    (st : DSU × Layout × List Edge) (acc : List Edge) (e : Edge)
    (he : e ∈ g.walls) (hP : P1 g st acc) :
    (¬ edgeConn acc e.1 e.2 →
      P1 g (phase1_step g.fuel st e) (acc ++ [e]) ∧
      (phase1_step g.fuel st e).2.2 = st.2.2) ∧
    (edgeConn acc e.1 e.2 →
      P1 g (phase1_step g.fuel st e) acc ∧
      (phase1_step g.fuel st e).2.2 = st.2.2 ++ [e]) := by
  obtain ⟨ha1, ha2⟩ := walls_endpoints_mem_dom he
  obtain ⟨ra, hra⟩ := hP.wf.exists_root e.1
  obtain ⟨rb, hrb⟩ := hP.wf.exists_root e.2
  have hfuel : g.dom.card ≤ g.fuel := le_of_eq (dom_card g)
  have hconn_iff : edgeConn acc e.1 e.2 ↔ ra = rb := by
    rw [← hP.classes e.1 ha1 e.2 ha2, sameClass_iff_root_eq hra hrb]
  constructor
  · intro hnconn
    have hne : ra ≠ rb := fun h => hnconn (hconn_iff.mpr h)
    obtain ⟨hflag, hwfd, hclass, hfix, hlt, hge⟩ :=
      unite_sets_diff hP.wf ha1 ha2 hra hrb hfuel hne
    have hstep : phase1_step g.fuel st e =
        ((unite_sets g.fuel st.1 e.1 e.2).2,
          setTile (setTile (setTile st.2.1 (2 * e.1.2 + 1) (2 * e.1.1 + 1)
            Tile.path) (2 * e.2.2 + 1) (2 * e.2.1 + 1) Tile.path)
            (e.1.2 + e.2.2 + 1) (e.1.1 + e.2.1 + 1) Tile.path, st.2.2) := by
      simp [phase1_step, hflag]
    obtain ⟨hls, hll, hlr⟩ := carve_layout_spec g hw hh st.2.1 acc e he
      hP.layout_spec hP.hlen hP.hrows
    rw [hstep]
    refine ⟨⟨hwfd, ?_, hls, hll, hlr, ?_, ?_, ?_, ?_⟩, rfl⟩
    · intro x hx y hy
      rw [hclass x y, edgeConn_append_single_iff, hP.classes x hx y hy,
        hP.classes x hx e.1 ha1, hP.classes y hy e.2 ha2,
        hP.classes x hx e.2 ha2, hP.classes y hy e.1 ha1]
      constructor
      · rintro (h | ⟨h1, h2⟩ | ⟨h1, h2⟩)
        · exact Or.inl h
        · exact Or.inr (Or.inl ⟨h1, edgeConn_symm h2⟩)
        · exact Or.inr (Or.inr ⟨h1, edgeConn_symm h2⟩)
      · rintro (h | ⟨h1, h2⟩ | ⟨h1, h2⟩)
        · exact Or.inl h
        · exact Or.inr (Or.inl ⟨h1, edgeConn_symm h2⟩)
        · exact Or.inr (Or.inr ⟨h1, edgeConn_symm h2⟩)
    · have hfi : g.dom.filter
          (fun c => (unite_sets g.fuel st.1 e.1 e.2).2.parent c = c) =
          (g.dom.filter (fun c => st.1.parent c = c)).erase
            (if st.1.rank ra < st.1.rank rb then ra else rb) := by
        ext c
        simp only [Finset.mem_filter, Finset.mem_erase, hfix c]
        tauto
      have hl0mem : (if st.1.rank ra < st.1.rank rb then ra else rb) ∈
          g.dom.filter (fun c => st.1.parent c = c) := by
        rw [Finset.mem_filter]
        by_cases hc : st.1.rank ra < st.1.rank rb
        · rw [if_pos hc]
          exact ⟨root_mem_dom hP.wf ha1 hra, hra.2⟩
        · rw [if_neg hc]
          exact ⟨root_mem_dom hP.wf ha2 hrb, hrb.2⟩
      have hpos : 1 ≤ (g.dom.filter (fun c => st.1.parent c = c)).card :=
        Finset.card_pos.mpr ⟨_, hl0mem⟩
      have hcard := hP.roots_card
      rw [hfi, Finset.card_erase_of_mem hl0mem, List.length_append,
        List.length_singleton]
      omega
    · intro f hf
      rcases List.mem_append.mp hf with h | h
      · exact hP.acc_walls f h
      · rw [List.mem_singleton.mp h]
        exact he
    · have henotin : e ∉ acc := fun hmem => hnconn (edgeConn_single hmem)
      rw [(List.perm_append_singleton e acc).nodup_iff, List.nodup_cons]
      exact ⟨henotin, hP.acc_nodup⟩
    · intro f hf
      rcases List.mem_append.mp hf with hfacc | hfe
      · intro hconn2
        rw [List.erase_append_left _ hfacc] at hconn2
        have hsub : ∀ x y, edgeConn (acc.erase f) x y → edgeConn acc x y :=
          fun x y => edgeConn_mono (fun q hq => List.mem_of_mem_erase hq)
        have hf12 : edgeConn acc f.1 f.2 := edgeConn_single hfacc
        rcases edgeConn_append_single hconn2 with h | ⟨h1, h2⟩ | ⟨h1, h2⟩
        · exact hP.forest f hfacc h
        · exact hnconn (Relation.ReflTransGen.trans
            (edgeConn_symm (hsub _ _ h1)) (Relation.ReflTransGen.trans hf12
              (edgeConn_symm (hsub _ _ h2))))
        · exact hnconn (Relation.ReflTransGen.trans (hsub _ _ h2)
            (Relation.ReflTransGen.trans (edgeConn_symm hf12)
              (hsub _ _ h1)))
      · have hfe2 : f = e := List.mem_singleton.mp hfe
        subst hfe2
        have henotin : f ∉ acc := fun hmem => hnconn (edgeConn_single hmem)
        have herase : (acc ++ [f]).erase f = acc := by
          rw [List.erase_append_right _ henotin, List.erase_cons_head,
            List.append_nil]
        rw [herase]
        exact hnconn
  · intro hconn
    have heq : ra = rb := hconn_iff.mp hconn
    subst heq
    obtain ⟨hflag, hrank, hclass, hfix, hwfs⟩ :=
      unite_sets_same hP.wf ha1 ha2 hra hrb hfuel
    have hstep : phase1_step g.fuel st e =
        ((unite_sets g.fuel st.1 e.1 e.2).2, st.2.1, st.2.2 ++ [e]) := by
      simp [phase1_step, hflag]
    rw [hstep]
    refine ⟨⟨hwfs, ?_, hP.layout_spec, hP.hlen, hP.hrows, ?_, hP.acc_walls,
      hP.acc_nodup, hP.forest⟩, rfl⟩
    · intro x hx y hy
      rw [hclass x y]
      exact hP.classes x hx y hy
    · have hfi : g.dom.filter
          (fun c => (unite_sets g.fuel st.1 e.1 e.2).2.parent c = c) =
          g.dom.filter (fun c => st.1.parent c = c) := by
        ext c
        simp only [Finset.mem_filter, hfix c]
      rw [hfi]
      exact hP.roots_card

/-- The phase-1 fold: processing any wall list splits it into accepted
edges (carved, a forest, counted by the DSU root count) and rejected edges
(appended in order to `remaining_walls`), and the accepted edges connect
exactly what all processed edges connect. -/
theorem phase1_spec (g : MazeGenerator)
    (hw : g.width = 2 * g.cell_width + 1)
    (hh : g.height = 2 * g.cell_height + 1) :
    ∀ (edges : List Edge) (st : DSU × Layout × List Edge) (acc : List Edge),
      (∀ e ∈ edges, e ∈ g.walls) → P1 g st acc →
      ∃ acc2 rej2 : List Edge,
        P1 g (phase1 g.fuel edges st) (acc ++ acc2) ∧
        acc2.Sublist edges ∧ rej2.Sublist edges ∧
        edges.length = acc2.length + rej2.length ∧
        (phase1 g.fuel edges st).2.2 = st.2.2 ++ rej2 ∧
        (∀ x y, edgeConn (acc ++ acc2) x y ↔ edgeConn (acc ++ edges) x y) := by
  intro edges
  induction edges with
  | nil =>
    intro st acc _ hP
    refine ⟨[], [], by simpa [phase1] using hP, List.Sublist.refl [],
      List.Sublist.refl [], rfl, by simp [phase1], fun x y => Iff.rfl⟩
  | cons e es ih =>
    intro st acc hwalls hP
    have he : e ∈ g.walls := hwalls e (List.mem_cons_self e es)
    have hes : ∀ f ∈ es, f ∈ g.walls :=
      fun f hf => hwalls f (List.mem_cons_of_mem e hf)
    have hphase : phase1 g.fuel (e :: es) st =
        phase1 g.fuel es (phase1_step g.fuel st e) := rfl
    by_cases hconn : edgeConn acc e.1 e.2
    · obtain ⟨hP', hrej⟩ := (phase1_step_spec g hw hh st acc e he hP).2 hconn
      obtain ⟨acc2, rej2, hP2, hsub1, hsub2, hlen, hrej2, hiff⟩ :=
        ih (phase1_step g.fuel st e) acc hes hP'
      refine ⟨acc2, e :: rej2, by rwa [hphase], hsub1.cons e,
        hsub2.cons₂ e, by simp [hlen]; omega, ?_, ?_⟩
      · rw [hphase, hrej2, hrej, List.append_assoc]
        rfl
      · intro x y
        rw [hiff x y]
        have hmem : ∀ f, f ∈ (acc ++ es) ++ [e] ↔ f ∈ acc ++ e :: es := by
          intro f
          simp only [List.mem_append, List.mem_cons, List.mem_singleton]
          tauto
        rw [← edgeConn_perm hmem x y, edgeConn_append_redundant]
        exact edgeConn_mono (fun f hf => List.mem_append.mpr (Or.inl hf)) hconn
    · obtain ⟨hP', hrej⟩ := (phase1_step_spec g hw hh st acc e he hP).1 hconn
      obtain ⟨acc2, rej2, hP2, hsub1, hsub2, hlen, hrej2, hiff⟩ :=
        ih (phase1_step g.fuel st e) (acc ++ [e]) hes hP'
      have hacc_eq : (acc ++ [e]) ++ acc2 = acc ++ e :: acc2 := by simp
      have hes_eq : (acc ++ [e]) ++ es = acc ++ e :: es := by simp
      refine ⟨e :: acc2, rej2, ?_, hsub1.cons₂ e, hsub2.cons e,
        by simp [hlen]; omega, ?_, ?_⟩
      · rw [hphase, ← hacc_eq]
        exact hP2
      · rw [hphase, hrej2, hrej]
      · intro x y
        rw [← hacc_eq, ← hes_eq]
        exact hiff x y

/-! ### Tile-level connectivity of the carved maze -/

theorem mid_mem_nbrs_cell1 {g : MazeGenerator} {e : Edge} (he : e ∈ g.walls) :
    mid_tile e ∈ nbrs (cell_tile e.1) := by
  rcases mem_walls_iff.mp he with ⟨r, c, _, _, rfl⟩ | ⟨r, c, _, _, rfl⟩ <;>
    simp only [nbrs, mid_tile, cell_tile, List.mem_cons, List.not_mem_nil,
      Prod.mk.injEq, or_false] <;> omega

theorem mid_mem_nbrs_cell2 {g : MazeGenerator} {e : Edge} (he : e ∈ g.walls) :
    mid_tile e ∈ nbrs (cell_tile e.2) := by
  rcases mem_walls_iff.mp he with ⟨r, c, _, _, rfl⟩ | ⟨r, c, _, _, rfl⟩ <;>
    simp only [nbrs, mid_tile, cell_tile, List.mem_cons, List.not_mem_nil,
      Prod.mk.injEq, or_false] <;> omega

theorem cell1_mem_nbrs_mid {g : MazeGenerator} {e : Edge} (he : e ∈ g.walls) :
    cell_tile e.1 ∈ nbrs (mid_tile e) := by
  rcases mem_walls_iff.mp he with ⟨r, c, _, _, rfl⟩ | ⟨r, c, _, _, rfl⟩ <;>
    simp only [nbrs, mid_tile, cell_tile, List.mem_cons, List.not_mem_nil,
      Prod.mk.injEq, or_false] <;> omega

theorem cell2_mem_nbrs_mid {g : MazeGenerator} {e : Edge} (he : e ∈ g.walls) :
    cell_tile e.2 ∈ nbrs (mid_tile e) := by
  rcases mem_walls_iff.mp he with ⟨r, c, _, _, rfl⟩ | ⟨r, c, _, _, rfl⟩ <;>
    simp only [nbrs, mid_tile, cell_tile, List.mem_cons, List.not_mem_nil,
      Prod.mk.injEq, or_false] <;> omega

/-- Every carved tile lies strictly inside the border ring. -/
theorem edge_tiles_bounds {g : MazeGenerator}
    (hw : g.width = 2 * g.cell_width + 1)
    (hh : g.height = 2 * g.cell_height + 1) {e : Edge} (he : e ∈ g.walls) :
    ∀ q ∈ edge_tiles e, 0 < q.1 ∧ q.1 < (g.width : Int) - 1 ∧
      0 < q.2 ∧ q.2 < (g.height : Int) - 1 := by
  rcases mem_walls_iff.mp he with ⟨r, c, h1, h2, rfl⟩ | ⟨r, c, h1, h2, rfl⟩ <;>
    intro q hq <;>
    simp only [edge_tiles, cell_tile, mid_tile, List.mem_cons,
      List.not_mem_nil, or_false] at hq <;>
    rcases hq with rfl | rfl | rfl <;> simp only [Prod.fst, Prod.snd] <;> omega

theorem layoutWidth_eq_getD (l : Layout) :
    layoutWidth l = (l.getD 0 []).length := by
  cases l <;> rfl

theorem inB_of_dims {g : MazeGenerator} {l : Layout}
    (hlen : l.length = g.height)
    (hrows : ∀ r, r < g.height → (l.getD r []).length = g.width)
    (hpos : 0 < g.height) {q : Pos} (h1 : 0 ≤ q.1) (h2 : q.1 < (g.width : Int))
    (h3 : 0 ≤ q.2) (h4 : q.2 < (g.height : Int)) : inB l q = true := by
  have hwidth : layoutWidth l = g.width := by
    rw [layoutWidth_eq_getD]
    exact hrows 0 hpos
  have hheight : layoutHeight l = g.height := hlen
  simp only [inB, hwidth, hheight, Bool.and_eq_true, decide_eq_true_eq]
  exact ⟨⟨⟨h1, h2⟩, h3⟩, h4⟩

/-- A step into a carved tile is admissible for the empty blocked set. -/
theorem stepOK_into_carved {g : MazeGenerator} {l : Layout} {acc : List Edge}
    (hw : g.width = 2 * g.cell_width + 1)
    (hh : g.height = 2 * g.cell_height + 1)
    (hpath : ∀ p, carved acc p → tileAt l p = Tile.path)
    (hlen : l.length = g.height)
    (hrows : ∀ r, r < g.height → (l.getD r []).length = g.width)
    (hacc : ∀ e ∈ acc, e ∈ g.walls) {a b : Pos} (hadj : b ∈ nbrs a)
    (hcb : carved acc b) : stepOK l [] a b := by
  obtain ⟨e, he, hbe⟩ := hcb
  have hbounds := edge_tiles_bounds hw hh (hacc e he) b hbe
  refine ⟨hadj, ?_, ?_, List.not_mem_nil b⟩
  · exact inB_of_dims hlen hrows (by omega) (by omega) (by omega) (by omega)
      (by omega)
  · rw [hpath b ⟨e, he, hbe⟩]
    exact fun h => Tile.noConfusion h

/-- Lattice connectivity through accepted edges transfers to tile
reachability between the corresponding cell tiles. -/
theorem tileReach_of_edgeConn {g : MazeGenerator} {l : Layout}
    {acc : List Edge} (hw : g.width = 2 * g.cell_width + 1)
    (hh : g.height = 2 * g.cell_height + 1)
    (hpath : ∀ p, carved acc p → tileAt l p = Tile.path)
    (hlen : l.length = g.height)
    (hrows : ∀ r, r < g.height → (l.getD r []).length = g.width)
    (hacc : ∀ e ∈ acc, e ∈ g.walls) {u v : Cell} (hconn : edgeConn acc u v) :
    TileReach l [] (cell_tile u) (cell_tile v) := by
  induction hconn with
  | refl => exact Relation.ReflTransGen.refl
  | tail hcd hstep ih =>
    rename_i c d
    have hstep2 : ∃ f ∈ acc, (f.1 = c ∧ f.2 = d) ∨ (f.1 = d ∧ f.2 = c) := by
      rcases hstep with h | h
      · exact ⟨(c, d), h, Or.inl ⟨rfl, rfl⟩⟩
      · exact ⟨(d, c), h, Or.inr ⟨rfl, rfl⟩⟩
    obtain ⟨f, hf, hcase⟩ := hstep2
    have hmidc : carved acc (mid_tile f) :=
      ⟨f, hf, by simp [edge_tiles]⟩
    have hc1 : carved acc (cell_tile f.1) := ⟨f, hf, by simp [edge_tiles]⟩
    have hc2 : carved acc (cell_tile f.2) := ⟨f, hf, by simp [edge_tiles]⟩
    rcases hcase with ⟨h1, h2⟩ | ⟨h1, h2⟩
    · have s1 : stepOK l [] (cell_tile c) (mid_tile f) :=
        stepOK_into_carved hw hh hpath hlen hrows hacc
          (h1 ▸ mid_mem_nbrs_cell1 (hacc f hf)) hmidc
      have s2 : stepOK l [] (mid_tile f) (cell_tile d) := by
        rw [← h2]
        exact stepOK_into_carved hw hh hpath hlen hrows hacc
          (cell2_mem_nbrs_mid (hacc f hf)) hc2
      exact Relation.ReflTransGen.tail (Relation.ReflTransGen.tail ih s1) s2
    · have s1 : stepOK l [] (cell_tile c) (mid_tile f) :=
        stepOK_into_carved hw hh hpath hlen hrows hacc
          (h2 ▸ mid_mem_nbrs_cell2 (hacc f hf)) hmidc
      have s2 : stepOK l [] (mid_tile f) (cell_tile d) := by
        rw [← h1]
        exact stepOK_into_carved hw hh hpath hlen hrows hacc
          (cell1_mem_nbrs_mid (hacc f hf)) hc1
      exact Relation.ReflTransGen.tail (Relation.ReflTransGen.tail ih s1) s2

/-- On a grid carved from a lattice-spanning accepted set, every path tile
reaches every path tile. -/
theorem allPathReach {g : MazeGenerator} {l : Layout} {acc : List Edge}
    (hw : g.width = 2 * g.cell_width + 1)
    (hh : g.height = 2 * g.cell_height + 1)
    (hspec : ∀ p, tileAt l p = if carved acc p then Tile.path else Tile.wall)
    (hlen : l.length = g.height)
    (hrows : ∀ r, r < g.height → (l.getD r []).length = g.width)
    (hacc : ∀ e ∈ acc, e ∈ g.walls)
    (htotal : ∀ u ∈ g.dom, ∀ v ∈ g.dom, edgeConn acc u v) :
    ∀ p q, tileAt l p = Tile.path → tileAt l q = Tile.path →
      TileReach l [] p q := by
  have hpath : ∀ p, carved acc p → tileAt l p = Tile.path := by
    intro p hp
    rw [hspec p, if_pos hp]
  have hpath_carved : ∀ p, tileAt l p = Tile.path → carved acc p := by
    intro p hp
    by_contra hnc
    rw [hspec p, if_neg hnc] at hp
    exact Tile.noConfusion hp
  have hanchor : ∀ p, carved acc p →
      ∃ e ∈ acc, TileReach l [] p (cell_tile e.1) ∧
        TileReach l [] (cell_tile e.1) p := by
    intro p hp
    obtain ⟨e, he, hpe⟩ := hp
    refine ⟨e, he, ?_⟩
    simp only [edge_tiles, List.mem_cons, List.not_mem_nil, or_false] at hpe
    rcases hpe with rfl | rfl | rfl
    · exact ⟨Relation.ReflTransGen.refl, Relation.ReflTransGen.refl⟩
    · constructor
      · exact tileReach_of_edgeConn hw hh hpath hlen hrows hacc
          (edgeConn_symm (edgeConn_single he))
      · exact tileReach_of_edgeConn hw hh hpath hlen hrows hacc
          (edgeConn_single he)
    · constructor
      · exact Relation.ReflTransGen.single (stepOK_into_carved hw hh hpath
          hlen hrows hacc (cell1_mem_nbrs_mid (hacc e he))
          ⟨e, he, by simp [edge_tiles]⟩)
      · exact Relation.ReflTransGen.single (stepOK_into_carved hw hh hpath
          hlen hrows hacc (mid_mem_nbrs_cell1 (hacc e he))
          ⟨e, he, by simp [edge_tiles]⟩)
  intro p q hp hq
  obtain ⟨e, he, hpe1, _⟩ := hanchor p (hpath_carved p hp)
  obtain ⟨f, hf, _, hfq⟩ := hanchor q (hpath_carved q hq)
  have he1 : e.1 ∈ g.dom := (walls_endpoints_mem_dom (hacc e he)).1
  have hf1 : f.1 ∈ g.dom := (walls_endpoints_mem_dom (hacc f hf)).1
  have hmid : TileReach l [] (cell_tile e.1) (cell_tile f.1) :=
    tileReach_of_edgeConn hw hh hpath hlen hrows hacc (htotal e.1 he1 f.1 hf1)
  exact Relation.ReflTransGen.trans hpe1 (Relation.ReflTransGen.trans hmid hfq)

theorem perm_getD_cons_eraseIdx (l : List Edge) (i : Nat) (h : i < l.length)
    (d : Edge) : l.Perm (l.getD i d :: l.eraseIdx i) := by
  have h1 : l.getD i d = l[i] := by
    rw [List.getD_eq_getElem?_getD, List.getElem?_eq_getElem h]
    rfl
  rw [h1]
  exact (List.perm_cons_erase (List.getElem_mem h)).trans
    ((List.erase_getElem h).cons _)

/-- Phase 2 carves the midpoints of `min n len(pool)` distinct pool edges,
removing each from the pool; the layout description extends by the chosen
midpoints, and dimensions are preserved. -/
theorem phase2_layout (g : MazeGenerator)
    (hw : g.width = 2 * g.cell_width + 1)
    (hh : g.height = 2 * g.cell_height + 1) (pick : Nat → Nat) :
    ∀ (n k : Nat) (pool : List Edge) (l : Layout) (acc ms : List Edge),
      (∀ e ∈ pool, e ∈ g.walls) →
      (∀ p, tileAt l p =
        if carved acc p ∨ (∃ e ∈ ms, p = mid_tile e) then Tile.path
        else Tile.wall) →
      l.length = g.height →
      (∀ r, r < g.height → (l.getD r []).length = g.width) →
      ∃ chosen : List Edge,
        (∀ e ∈ chosen, e ∈ pool) ∧
        chosen.length = min n pool.length ∧
        pool.Perm (chosen ++ (phase2 pick k n pool l).2) ∧
        (∀ p, tileAt (phase2 pick k n pool l).1 p =
          if carved acc p ∨ (∃ e ∈ ms ++ chosen, p = mid_tile e) then Tile.path
          else Tile.wall) ∧
        (phase2 pick k n pool l).1.length = g.height ∧
        (∀ r, r < g.height →
          ((phase2 pick k n pool l).1.getD r []).length = g.width) := by
  intro n
  induction n with
  | zero =>
    intro k pool l acc ms hpool hspec hlen hrows
    refine ⟨[], fun e he => absurd he (List.not_mem_nil e), by simp,
      by simp [phase2], ?_, hlen, hrows⟩
    simp only [phase2, List.append_nil]
    exact hspec
  | succ n ih =>
    intro k pool l acc ms hpool hspec hlen hrows
    by_cases hpe : pool = []
    · subst hpe
      refine ⟨[], fun e he => absurd he (List.not_mem_nil e), by simp,
        by simp [phase2], ?_, ?_, ?_⟩
      · simp only [phase2, List.append_nil, List.isEmpty_nil, if_true, ite_true]
        exact hspec
      · simpa [phase2] using hlen
      · simpa [phase2] using hrows
    · have hlenpos : 0 < pool.length := List.length_pos.mpr hpe
      have hstep : phase2 pick k (n + 1) pool l =
          phase2 pick (k + 1) n
            (pool.eraseIdx (pick k % pool.length))
            (setTile l
              ((pool.getD (pick k % pool.length) ((0, 0), (0, 0))).1.2 +
                (pool.getD (pick k % pool.length) ((0, 0), (0, 0))).2.2 + 1)
              ((pool.getD (pick k % pool.length) ((0, 0), (0, 0))).1.1 +
                (pool.getD (pick k % pool.length) ((0, 0), (0, 0))).2.1 + 1)
              Tile.path) := by
        simp only [phase2, List.isEmpty_iff, hpe, if_neg, ite_false]
      set i := pick k % pool.length with hi
      have hilt : i < pool.length := Nat.mod_lt _ hlenpos
      set e := pool.getD i ((0, 0), (0, 0)) with hedef
      have hemem : e ∈ pool := by
        rw [hedef, List.getD_eq_getElem?_getD, List.getElem?_eq_getElem hilt]
        exact List.getElem_mem hilt
      have hew : e ∈ g.walls := hpool e hemem
      have hbounds0 := edge_tiles_bounds hw hh hew (mid_tile e)
        (by simp [edge_tiles])
      have hbounds : 0 < (e.1.2 : Int) + e.2.2 + 1 ∧
          (e.1.2 : Int) + e.2.2 + 1 < (g.width : Int) - 1 ∧
          0 < (e.1.1 : Int) + e.2.1 + 1 ∧
          (e.1.1 : Int) + e.2.1 + 1 < (g.height : Int) - 1 := by
        simpa [mid_tile] using hbounds0
      have hmcast := mid_tile_cast e
      have hspec1 : ∀ p,
          tileAt (setTile l (e.1.2 + e.2.2 + 1) (e.1.1 + e.2.1 + 1)
            Tile.path) p =
          if carved acc p ∨ (∃ f ∈ ms ++ [e], p = mid_tile f) then Tile.path
          else Tile.wall := by
        intro p
        rw [tileAt_setTile_of_bounds l _ _ _ g.height g.width hlen hrows
            (by omega) (by omega) p, ← hmcast]
        by_cases hpm : p = mid_tile e
        · rw [if_pos hpm, if_pos (Or.inr ⟨e, by simp, hpm⟩)]
        · rw [if_neg hpm, hspec p]
          have hiff : (carved acc p ∨ (∃ f ∈ ms, p = mid_tile f)) ↔
              (carved acc p ∨ (∃ f ∈ ms ++ [e], p = mid_tile f)) := by
            constructor
            · rintro (h | ⟨f, hf, hpf⟩)
              · exact Or.inl h
              · exact Or.inr ⟨f, List.mem_append.mpr (Or.inl hf), hpf⟩
            · rintro (h | ⟨f, hf, hpf⟩)
              · exact Or.inl h
              · rcases List.mem_append.mp hf with hf | hf
                · exact Or.inr ⟨f, hf, hpf⟩
                · rw [List.mem_singleton.mp hf] at hpf
                  exact absurd hpf hpm
          by_cases hc : carved acc p ∨ (∃ f ∈ ms, p = mid_tile f)
          · rw [if_pos hc, if_pos (hiff.mp hc)]
          · rw [if_neg hc, if_neg (fun h => hc (hiff.mpr h))]
      have hpool1 : ∀ f ∈ pool.eraseIdx i, f ∈ g.walls :=
        fun f hf => hpool f (List.eraseIdx_subset _ _ hf)
      have hlen1 : (setTile l (e.1.2 + e.2.2 + 1) (e.1.1 + e.2.1 + 1)
          Tile.path).length = g.height := by
        rw [length_setTile, hlen]
      have hrows1 : ∀ r, r < g.height →
          ((setTile l (e.1.2 + e.2.2 + 1) (e.1.1 + e.2.1 + 1)
            Tile.path).getD r []).length = g.width := by
        intro r hr
        rw [row_length_setTile]
        exact hrows r hr
      obtain ⟨chosen, hcmem, hclen, hcperm, hcspec, hclen2, hcrows⟩ :=
        ih (k + 1) (pool.eraseIdx i) _ acc (ms ++ [e]) hpool1 hspec1
          hlen1 hrows1
      rw [hstep]
      refine ⟨e :: chosen, ?_, ?_, ?_, ?_, hclen2, hcrows⟩
      · intro f hf
        rcases List.mem_cons.mp hf with rfl | hf
        · exact hemem
        · exact List.eraseIdx_subset _ _ (hcmem f hf)
      · rw [List.length_cons, hclen,
          ← List.length_eraseIdx_add_one hilt]
        omega
      · refine (perm_getD_cons_eraseIdx pool i hilt ((0, 0), (0, 0))).trans ?_
        rw [← hedef]
        exact hcperm.cons e
      · intro p
        rw [hcspec p]
        have hiff : (∃ f ∈ (ms ++ [e]) ++ chosen, p = mid_tile f) ↔
            (∃ f ∈ ms ++ e :: chosen, p = mid_tile f) := by
          constructor <;> rintro ⟨f, hf, hpf⟩ <;> refine ⟨f, ?_, hpf⟩ <;>
            simp only [List.mem_append, List.mem_cons,
              List.mem_singleton] at hf ⊢ <;> tauto
        by_cases hc : carved acc p ∨ ∃ f ∈ (ms ++ [e]) ++ chosen, p = mid_tile f
        · rw [if_pos hc]
          rcases hc with hc | hc
          · rw [if_pos (Or.inl hc)]
          · rw [if_pos (Or.inr (hiff.mp hc))]
        · rw [if_neg hc, if_neg ?_]
          rintro (h | h)
          · exact hc (Or.inl h)
          · exact hc (Or.inr (hiff.mpr h))

theorem stepOK_of_path {l : Layout} {a b : Pos} (hadj : b ∈ nbrs a)
    (hin : inB l b = true) (hb : tileAt l b = Tile.path) : stepOK l [] a b :=
  ⟨hadj, hin, by rw [hb]; exact fun h => Tile.noConfusion h,
    List.not_mem_nil b⟩

/-- All-pairs path-tile reachability for a phase-2 layout: carved tiles of
a spanning accepted set plus reopened midpoints. -/
theorem allPathReach2 {g : MazeGenerator} {l : Layout} {acc ms : List Edge}
    (hw : g.width = 2 * g.cell_width + 1)
    (hh : g.height = 2 * g.cell_height + 1)
    (hspec : ∀ p, tileAt l p =
      if carved acc p ∨ (∃ e ∈ ms, p = mid_tile e) then Tile.path
      else Tile.wall)
    (hlen : l.length = g.height)
    (hrows : ∀ r, r < g.height → (l.getD r []).length = g.width)
    (hacc : ∀ e ∈ acc, e ∈ g.walls) (hms : ∀ e ∈ ms, e ∈ g.walls)
    (htotal : ∀ u ∈ g.dom, ∀ v ∈ g.dom, edgeConn acc u v)
    (hcells : ∀ u ∈ g.dom, carved acc (cell_tile u)) :
    ∀ p q, tileAt l p = Tile.path → tileAt l q = Tile.path →
      TileReach l [] p q := by
  have hpath : ∀ p, carved acc p → tileAt l p = Tile.path := by
    intro p hp
    rw [hspec p, if_pos (Or.inl hp)]
  have hanchor : ∀ p, tileAt l p = Tile.path →
      ∃ u ∈ g.dom, TileReach l [] p (cell_tile u) ∧
        TileReach l [] (cell_tile u) p := by
    intro p hp
    have hcases : carved acc p ∨ (∃ e ∈ ms, p = mid_tile e) := by
      by_contra hnc
      rw [hspec p, if_neg hnc] at hp
      exact Tile.noConfusion hp
    rcases hcases with ⟨e, he, hpe⟩ | ⟨e, he, hpe⟩
    · have he1 : e.1 ∈ g.dom := (walls_endpoints_mem_dom (hacc e he)).1
      refine ⟨e.1, he1, ?_⟩
      simp only [edge_tiles, List.mem_cons, List.not_mem_nil, or_false] at hpe
      rcases hpe with rfl | rfl | rfl
      · exact ⟨Relation.ReflTransGen.refl, Relation.ReflTransGen.refl⟩
      · exact ⟨tileReach_of_edgeConn hw hh hpath hlen hrows hacc
            (edgeConn_symm (edgeConn_single he)),
          tileReach_of_edgeConn hw hh hpath hlen hrows hacc
            (edgeConn_single he)⟩
      · exact ⟨Relation.ReflTransGen.single (stepOK_into_carved hw hh hpath
            hlen hrows hacc (cell1_mem_nbrs_mid (hacc e he))
            ⟨e, he, by simp [edge_tiles]⟩),
          Relation.ReflTransGen.single (stepOK_into_carved hw hh hpath
            hlen hrows hacc (mid_mem_nbrs_cell1 (hacc e he))
            ⟨e, he, by simp [edge_tiles]⟩)⟩
    · have hew : e ∈ g.walls := hms e he
      have he1 : e.1 ∈ g.dom := (walls_endpoints_mem_dom hew).1
      have hcarv1 : carved acc (cell_tile e.1) := hcells e.1 he1
      have hbm := edge_tiles_bounds hw hh hew (mid_tile e) (by simp [edge_tiles])
      refine ⟨e.1, he1, ?_, ?_⟩
      · subst hpe
        exact Relation.ReflTransGen.single (stepOK_into_carved hw hh hpath
          hlen hrows hacc (cell1_mem_nbrs_mid hew) hcarv1)
      · subst hpe
        refine Relation.ReflTransGen.single (stepOK_of_path
          (mid_mem_nbrs_cell1 hew) ?_ ?_)
        · exact inB_of_dims hlen hrows (by omega) (by omega) (by omega)
            (by omega) (by omega)
        · rw [hspec (mid_tile e), if_pos (Or.inr ⟨e, he, rfl⟩)]
  intro p q hp hq
  obtain ⟨u, hu, hpu, _⟩ := hanchor p hp
  obtain ⟨v, hv, _, hvq⟩ := hanchor q hq
  exact Relation.ReflTransGen.trans hpu (Relation.ReflTransGen.trans
    (tileReach_of_edgeConn hw hh hpath hlen hrows hacc (htotal u hu v hv)) hvq)

/-- The state of `generate` right after phase 1. -/
def phase1_out (g : MazeGenerator) (shuffled : List Edge) :
    DSU × Layout × List Edge :=
  phase1 g.fuel shuffled (g.init_dsu,
    List.replicate g.height (List.replicate g.width Tile.wall), [])

theorem generate_eq (g : MazeGenerator) (rnd : Rnd) (p : ℚ) :
    g.generate rnd p =
      (phase2 rnd.pick 0
        (num_loops_of (phase1_out g (rnd.shuffle_edges g.walls)).2.2.length p)
        (phase1_out g (rnd.shuffle_edges g.walls)).2.2
        (phase1_out g (rnd.shuffle_edges g.walls)).2.1).1 := rfl

/-- Phase 1 on any permutation of the wall list builds a spanning
structure: the accepted edges connect every pair of lattice cells, exactly
`cellCount - 1` edges are accepted, and every cell resolves to one common
root. -/
theorem phase1_spanning (g : MazeGenerator)
    (hw : g.width = 2 * g.cell_width + 1)
    (hh : g.height = 2 * g.cell_height + 1)
    (hcw : 1 ≤ g.cell_width) (hch : 1 ≤ g.cell_height)
    (shuffled : List Edge) (hperm : shuffled.Perm g.walls) :
    ∃ acc : List Edge,
      P1 g (phase1_out g shuffled) acc ∧
      acc.length + 1 = g.dom.card ∧
      g.walls.length = acc.length + (phase1_out g shuffled).2.2.length ∧
      (phase1_out g shuffled).2.2.Sublist shuffled ∧
      (∀ u ∈ g.dom, ∀ v ∈ g.dom, edgeConn acc u v) ∧
      (∃ r0, r0 ∈ g.dom ∧ ∀ c ∈ g.dom,
        IsRootOf (phase1_out g shuffled).1.parent c r0) := by
  obtain ⟨acc, rej, hP, hsub1, hsub2, hlen, hrej, hiff⟩ :=
    phase1_spec g hw hh shuffled
      (g.init_dsu, List.replicate g.height (List.replicate g.width Tile.wall),
        []) [] (fun e he => hperm.subset he) (P1_start g)
  rw [List.nil_append] at hP
  have hiff2 : ∀ x y, edgeConn acc x y ↔ edgeConn shuffled x y := by
    intro x y
    have := hiff x y
    rwa [List.nil_append, List.nil_append] at this
  have hconn_walls : ∀ x y, edgeConn g.walls x y ↔ edgeConn shuffled x y :=
    fun x y => edgeConn_perm (fun f => (hperm.mem_iff).symm) x y
  have htotal : ∀ u ∈ g.dom, ∀ v ∈ g.dom, edgeConn acc u v := by
    intro u hu v hv
    rw [hiff2, ← hconn_walls]
    have h1 := walls_connect g (u.1 + u.2) u rfl hu
    have h2 := walls_connect g (v.1 + v.2) v rfl hv
    exact Relation.ReflTransGen.trans (edgeConn_symm h1) h2
  have h00 : ((0, 0) : Cell) ∈ g.dom := mem_dom_iff.mpr ⟨hch, hcw⟩
  obtain ⟨r0, hr0⟩ := hP.wf.exists_root (0, 0)
  have hr0dom : r0 ∈ g.dom := root_mem_dom hP.wf h00 hr0
  have hall : ∀ c ∈ g.dom, IsRootOf (phase1_out g shuffled).1.parent c r0 := by
    intro c hc
    have hsc : sameClass (phase1_out g shuffled).1.parent c (0, 0) :=
      (hP.classes c hc (0, 0) h00).mpr (htotal c hc (0, 0) h00)
    obtain ⟨t, h1, h2⟩ := hsc
    rwa [h2.unique hr0] at h1
  have hfilter : g.dom.filter
      (fun c => (phase1_out g shuffled).1.parent c = c) = {r0} := by
    ext c
    simp only [Finset.mem_filter, Finset.mem_singleton]
    constructor
    · rintro ⟨hc, hfixc⟩
      exact (isRootOf_fixed hfixc).unique (hall c hc)
    · rintro rfl
      exact ⟨hr0dom, (hall c hr0dom).2⟩
  have hcount : acc.length + 1 = g.dom.card := by
    have h2 := hP.roots_card
    rw [phase1_out] at hfilter
    rw [hfilter, Finset.card_singleton] at h2
    omega
  refine ⟨acc, hP, hcount, ?_, ?_, htotal, ⟨r0, hr0dom, hall⟩⟩
  · rw [← hperm.length_eq, hlen]
    have : (phase1_out g shuffled).2.2 = rej := by
      rw [phase1_out, hrej, List.nil_append]
    rw [this]
  · rw [phase1_out, hrej, List.nil_append]
    exact hsub2

/-- C5: after phase 1 of `MazeGenerator.generate` processes every lattice
edge (any shuffle of the wall list), the carved Path tiles form a spanning
tree over the cell lattice: the accepted edges are distinct interior
walls, exactly `cellCount - 1` of them succeed, each opening its midpoint
(the layout is exactly the carve of the accepted set), no accepted edge is
redundant, every pair of lattice cells is connected through the accepted
edges, every lattice cell resolves via `_find_set` to a single common
root, the reachability analyzer run from any Path tile with an empty
blocked set returns every Path tile, and the border ring is all Wall. -/
theorem C5_phase1_spanning_tree (width height : Nat) (rnd : Rnd)
    (g : MazeGenerator) (hg : g = MazeGenerator.make width height)
    (hw3 : 3 ≤ width) (hh3 : 3 ≤ height) (hv : ValidRnd rnd) :
    ∃ st acc, st = phase1_out g (rnd.shuffle_edges g.walls) ∧
      acc.Nodup ∧ (∀ e ∈ acc, e ∈ g.walls) ∧
      acc.length + 1 = g.cell_height * g.cell_width ∧
      (∀ p, tileAt st.2.1 p =
        if carved acc p then Tile.path else Tile.wall) ∧
      (∀ e ∈ acc, ¬ edgeConn (acc.erase e) e.1 e.2) ∧
      (∀ u ∈ g.dom, ∀ v ∈ g.dom, edgeConn acc u v) ∧
      (∃ r0 ∈ g.dom, ∀ c ∈ g.dom,
        (find_set g.fuel st.1.parent c).1 = r0) ∧
      (∀ p q, tileAt st.2.1 p = Tile.path → tileAt st.2.1 q = Tile.path →
        q ∈ find_reachable_nodes st.2.1 p []) ∧
      (∀ p : Pos, (p.1 = 0 ∨ p.1 = (g.width : Int) - 1 ∨ p.2 = 0 ∨
          p.2 = (g.height : Int) - 1) → tileAt st.2.1 p = Tile.wall) := by
  have hw : g.width = 2 * g.cell_width + 1 := by
    rw [hg]; exact make_width_eq width height
  have hh : g.height = 2 * g.cell_height + 1 := by
    rw [hg]; exact make_height_eq width height
  have hcw : 1 ≤ g.cell_width := by
    rw [hg]
    by_cases hp : width % 2 = 0 <;> simp [MazeGenerator.make, hp] <;> omega
  have hch : 1 ≤ g.cell_height := by
    rw [hg]
    by_cases hp : height % 2 = 0 <;> simp [MazeGenerator.make, hp] <;> omega
  obtain ⟨acc, hP, hcount, _, _, htotal, r0, hr0dom, hall⟩ :=
    phase1_spanning g hw hh hcw hch (rnd.shuffle_edges g.walls)
      (hv.1 g.walls)
  refine ⟨phase1_out g (rnd.shuffle_edges g.walls), acc, rfl, hP.acc_nodup,
    hP.acc_walls, ?_, hP.layout_spec, hP.forest, htotal, ?_, ?_, ?_⟩
  · rw [hcount, dom_card]
    rfl
  · refine ⟨r0, hr0dom, fun c hc => ?_⟩
    obtain ⟨q, hq, -⟩ := find_set_full hP.wf hc (hall c hc)
      (le_of_eq (dom_card g))
    rw [hq]
  · intro p q hp hq
    exact mem_find_reachable_nodes_iff.mpr
      (allPathReach hw hh hP.layout_spec hP.hlen hP.hrows hP.acc_walls
        htotal p q hp hq)
  · intro p hborder
    rw [hP.layout_spec p, if_neg]
    rintro ⟨e, he, hpe⟩
    have hb := edge_tiles_bounds hw hh (hP.acc_walls e he) p hpe
    omega

theorem C5_phase1_spanning_tree_witness :
    ((MazeGenerator.make 5 5 : MazeGenerator) =
        MazeGenerator.make 5 5 ∧ 3 ≤ 5 ∧ ValidRnd idRnd) ∧
    (∃ st acc, st = phase1_out (MazeGenerator.make 5 5)
        (idRnd.shuffle_edges (MazeGenerator.make 5 5).walls) ∧
      acc.Nodup ∧ (∀ e ∈ acc, e ∈ (MazeGenerator.make 5 5).walls) ∧
      acc.length + 1 = (MazeGenerator.make 5 5).cell_height *
        (MazeGenerator.make 5 5).cell_width ∧
      (∀ p, tileAt st.2.1 p =
        if carved acc p then Tile.path else Tile.wall) ∧
      (∀ e ∈ acc, ¬ edgeConn (acc.erase e) e.1 e.2) ∧
      (∀ u ∈ (MazeGenerator.make 5 5).dom,
        ∀ v ∈ (MazeGenerator.make 5 5).dom, edgeConn acc u v) ∧
      (∃ r0 ∈ (MazeGenerator.make 5 5).dom,
        ∀ c ∈ (MazeGenerator.make 5 5).dom,
          (find_set (MazeGenerator.make 5 5).fuel st.1.parent c).1 = r0) ∧
      (∀ p q, tileAt st.2.1 p = Tile.path → tileAt st.2.1 q = Tile.path →
        q ∈ find_reachable_nodes st.2.1 p []) ∧
      (∀ p : Pos, (p.1 = 0 ∨
          p.1 = ((MazeGenerator.make 5 5).width : Int) - 1 ∨ p.2 = 0 ∨
          p.2 = ((MazeGenerator.make 5 5).height : Int) - 1) →
        tileAt st.2.1 p = Tile.wall)) :=
  ⟨⟨rfl, by decide, validRnd_idRnd⟩,
    C5_phase1_spanning_tree 5 5 idRnd (MazeGenerator.make 5 5) rfl
      (by decide) (by decide) validRnd_idRnd⟩

/-! ### Phase 2 loop count and the perfect maze at probability zero -/

/-- `int(len(remaining_walls) * loop_probability)` for a nonnegative
probability equals the floor of the exact product. -/
theorem num_loops_of_eq_floor (len : Nat) (p : ℚ) (hp : 0 ≤ p) :
    num_loops_of len p = (⌊(len : ℚ) * p⌋).toNat := by
  have hden : ((p.den : ℚ)) ≠ 0 := Nat.cast_ne_zero.mpr p.den_nz
  have hnum : ((p.num.toNat : ℚ)) = ((p.num : ℚ)) := by
    norm_cast
    exact Int.toNat_of_nonneg (Rat.num_nonneg.mpr hp)
  have hmul : (len : ℚ) * p =
      ((len * p.num.toNat : Nat) : ℚ) / ((p.den : ℕ) : ℚ) := by
    rw [eq_div_iff hden]
    push_cast
    rw [hnum, mul_assoc, Rat.mul_den_eq_num]
  rw [num_loops_of, hmul, Int.floor_toNat, Nat.floor_div_nat,
    Nat.floor_natCast]

theorem walls_nodup (g : MazeGenerator) : g.walls.Nodup := by
  have hfst : ∀ r c : Nat, ∀ e : Edge,
      e ∈ ((if r + 1 < g.cell_height then [((r, c), (r + 1, c))] else []) ++
        (if c + 1 < g.cell_width then [((r, c), (r, c + 1))] else [])) →
      e.1 = (r, c) := by
    intro r c e he
    rcases List.mem_append.mp he with h | h
    · split at h
      · rw [List.mem_singleton.mp h]
      · exact absurd h (List.not_mem_nil e)
    · split at h
      · rw [List.mem_singleton.mp h]
      · exact absurd h (List.not_mem_nil e)
  unfold MazeGenerator.walls
  rw [List.nodup_flatMap]
  constructor
  · intro r _
    rw [List.nodup_flatMap]
    constructor
    · intro c _
      split <;> split <;> simp <;> omega
    · refine List.Pairwise.imp ?_ (List.pairwise_lt_range g.cell_width)
      intro c1 c2 hlt e he1 he2
      have h1 := hfst r c1 e he1
      have h2 := hfst r c2 e he2
      rw [h1] at h2
      have : c1 = c2 := (Prod.mk.injEq _ _ _ _).mp h2 |>.2
      omega
  · refine List.Pairwise.imp ?_ (List.pairwise_lt_range g.cell_height)
    intro r1 r2 hlt e he1 he2
    rw [List.mem_flatMap] at he1 he2
    obtain ⟨c1, _, hm1⟩ := he1
    obtain ⟨c2, _, hm2⟩ := he2
    have h1 := hfst r1 c1 e hm1
    have h2 := hfst r2 c2 e hm2
    rw [h1] at h2
    have : r1 = r2 := (Prod.mk.injEq _ _ _ _).mp h2 |>.1
    omega

theorem mem_nbrs_iff {p q : Pos} :
    q ∈ nbrs p ↔ (q.1 = p.1 ∧ q.2 = p.2 + 1) ∨ (q.1 = p.1 ∧ q.2 = p.2 - 1) ∨
      (q.1 = p.1 + 1 ∧ q.2 = p.2) ∨ (q.1 = p.1 - 1 ∧ q.2 = p.2) := by
  rcases p with ⟨a, b⟩
  rcases q with ⟨c, d⟩
  simp [nbrs, Prod.ext_iff]

theorem nbrs_comm {p q : Pos} : q ∈ nbrs p ↔ p ∈ nbrs q := by
  rw [mem_nbrs_iff, mem_nbrs_iff]
  omega

theorem nbrs_irrefl (p : Pos) : p ∉ nbrs p := by
  rw [mem_nbrs_iff]
  omega

/-- Moving to a 4-neighbour flips the parity of the coordinate sum. -/
theorem nbrs_parity {p q : Pos} (h : q ∈ nbrs p) :
    (p.1 + p.2 + (q.1 + q.2)) % 2 = 1 := by
  rw [mem_nbrs_iff] at h
  omega

theorem cell_tile_sum_even (u : Cell) :
    ((cell_tile u).1 + (cell_tile u).2) % 2 = 0 := by
  simp only [cell_tile]
  omega

theorem mid_tile_sum_odd {g : MazeGenerator} {e : Edge} (he : e ∈ g.walls) :
    ((mid_tile e).1 + (mid_tile e).2) % 2 = 1 := by
  rcases mem_walls_iff.mp he with ⟨r, c, _, _, rfl⟩ | ⟨r, c, _, _, rfl⟩ <;>
    simp only [mid_tile, Prod.fst, Prod.snd] <;> omega

theorem cell_tile_inj {u v : Cell} (h : cell_tile u = cell_tile v) : u = v := by
  rcases u with ⟨a, b⟩
  rcases v with ⟨c, d⟩
  simp only [cell_tile, Prod.mk.injEq] at h
  have : b = d ∧ a = c := by omega
  rw [this.1, this.2]

theorem mid_tile_inj {g : MazeGenerator} {e f : Edge} (he : e ∈ g.walls)
    (hf : f ∈ g.walls) (h : mid_tile e = mid_tile f) : e = f := by
  rcases mem_walls_iff.mp he with ⟨r, c, _, _, rfl⟩ | ⟨r, c, _, _, rfl⟩ <;>
    rcases mem_walls_iff.mp hf with ⟨r2, c2, _, _, rfl⟩ | ⟨r2, c2, _, _, rfl⟩ <;>
    simp only [mid_tile, Prod.mk.injEq] at h ⊢ <;> omega

/-- A cell tile 4-adjacent to the midpoint of an interior wall is one of
the wall's two endpoints. -/
theorem cell_adj_mid {g : MazeGenerator} {e : Edge} (he : e ∈ g.walls)
    {u : Cell} (h : cell_tile u ∈ nbrs (mid_tile e)) : u = e.1 ∨ u = e.2 := by
  rcases u with ⟨a, b⟩
  rw [mem_nbrs_iff] at h
  rcases mem_walls_iff.mp he with ⟨r, c, _, _, rfl⟩ | ⟨r, c, _, _, rfl⟩ <;>
    simp only [cell_tile, mid_tile, Prod.fst, Prod.snd] at h <;>
    simp only [Prod.mk.injEq] <;> omega

/-- The 4-adjacency graph on the Path tiles of a layout. -/
def mazeGraph (l : Layout) : SimpleGraph {p : Pos // tileAt l p = Tile.path} where
  Adj a b := b.1 ∈ nbrs a.1
  symm := fun _ _ h => nbrs_comm.mp h
  loopless := fun a h => nbrs_irrefl a.1 h

theorem mazeGraph_adj {l : Layout} {a b : {p : Pos // tileAt l p = Tile.path}} :
    (mazeGraph l).Adj a b ↔ b.1 ∈ nbrs a.1 := Iff.rfl

theorem carved_cases {acc : List Edge} {p : Pos} (h : carved acc p) :
    (∃ e ∈ acc, p = cell_tile e.1 ∨ p = cell_tile e.2) ∨
      (∃ e ∈ acc, p = mid_tile e) := by
  obtain ⟨e, he, hpe⟩ := h
  simp only [edge_tiles, List.mem_cons, List.not_mem_nil, or_false] at hpe
  rcases hpe with rfl | rfl | rfl
  · exact Or.inl ⟨e, he, Or.inl rfl⟩
  · exact Or.inl ⟨e, he, Or.inr rfl⟩
  · exact Or.inr ⟨e, he, rfl⟩

theorem carved_of_path {l : Layout} {acc : List Edge}
    (hspec : ∀ p, tileAt l p = if carved acc p then Tile.path else Tile.wall)
    {p : Pos} (hp : tileAt l p = Tile.path) : carved acc p := by
  by_contra hnc
  rw [hspec p, if_neg hnc] at hp
  exact Tile.noConfusion hp

theorem cell_ne_mid {g : MazeGenerator} {e : Edge} (he : e ∈ g.walls)
    (u : Cell) : cell_tile u ≠ mid_tile e := by
  intro h
  have h1 := cell_tile_sum_even u
  have h2 := mid_tile_sum_odd he
  rw [h] at h1
  omega

/-- In a phase-1 layout every graph adjacency joins a cell tile of an
accepted edge's endpoint with that edge's midpoint: cell-cell and mid-mid
tiles are never 4-adjacent (coordinate-sum parity). -/
theorem mazeGraph_adj_cases {g : MazeGenerator} {l : Layout} {acc : List Edge}
    (hspec : ∀ p, tileAt l p = if carved acc p then Tile.path else Tile.wall)
    (hacc : ∀ e ∈ acc, e ∈ g.walls)
    {a b : {p : Pos // tileAt l p = Tile.path}} (h : (mazeGraph l).Adj a b) :
    ∃ e ∈ acc, ∃ u : Cell, (u = e.1 ∨ u = e.2) ∧
      ((a.1 = cell_tile u ∧ b.1 = mid_tile e) ∨
        (a.1 = mid_tile e ∧ b.1 = cell_tile u)) := by
  have hca := carved_of_path hspec a.2
  have hcb := carved_of_path hspec b.2
  have hadj : b.1 ∈ nbrs a.1 := h
  have hpar := nbrs_parity hadj
  rcases carved_cases hca with ⟨ea, hea, hfa⟩ | ⟨ea, hea, hfa⟩
  · have hu : ∃ u : Cell, a.1 = cell_tile u := by
      rcases hfa with h1 | h1
      · exact ⟨ea.1, h1⟩
      · exact ⟨ea.2, h1⟩
    obtain ⟨u, hu⟩ := hu
    have haeven : (a.1.1 + a.1.2) % 2 = 0 := by
      rw [hu]
      exact cell_tile_sum_even u
    rcases carved_cases hcb with ⟨eb, heb, hfb⟩ | ⟨eb, heb, hfb⟩
    · exfalso
      have hbeven : (b.1.1 + b.1.2) % 2 = 0 := by
        rcases hfb with h1 | h1 <;> rw [h1] <;> exact cell_tile_sum_even _
      omega
    · refine ⟨eb, heb, u, ?_, Or.inl ⟨hu, hfb⟩⟩
      apply cell_adj_mid (hacc eb heb)
      rw [← hu, ← hfb]
      exact nbrs_comm.mp hadj
  · have haodd : (a.1.1 + a.1.2) % 2 = 1 := by
      rw [hfa]
      exact mid_tile_sum_odd (hacc ea hea)
    rcases carved_cases hcb with ⟨eb, heb, hfb⟩ | ⟨eb, heb, hfb⟩
    · have hu : ∃ u : Cell, b.1 = cell_tile u := by
        rcases hfb with h1 | h1
        · exact ⟨eb.1, h1⟩
        · exact ⟨eb.2, h1⟩
      obtain ⟨u, hu⟩ := hu
      refine ⟨ea, hea, u, ?_, Or.inr ⟨hfa, hu⟩⟩
      apply cell_adj_mid (hacc ea hea)
      rw [← hu, ← hfa]
      exact hadj
    · exfalso
      have hbodd : (b.1.1 + b.1.2) % 2 = 1 := by
        rw [hfb]
        exact mid_tile_sum_odd (hacc eb heb)
      omega

/-- The projection invariant used to show each tile edge is a bridge:
which lattice cell a tile of the punctured graph "belongs" to, where the
midpoint of the deleted edge `e0` is attached to the far endpoint `v0`. -/
def cellOf (acc : List Edge) (e0 : Edge) (v0 : Cell) (p : Pos) (u : Cell) :
    Prop :=
  p = cell_tile u ∨
    (∃ e ∈ acc, e ≠ e0 ∧ p = mid_tile e ∧ (u = e.1 ∨ u = e.2)) ∨
    (p = mid_tile e0 ∧ u = v0)

/-- One step of a walk in the graph minus the tile edge
`{cell u0, mid e0}` moves the projected lattice cell only along edges of
`acc.erase e0`. -/
theorem deleted_step {g : MazeGenerator} {l : Layout} {acc : List Edge}
    (hspec : ∀ p, tileAt l p = if carved acc p then Tile.path else Tile.wall)
    (hacc : ∀ e ∈ acc, e ∈ g.walls)
    {e0 : Edge} (he0 : e0 ∈ acc) {u0 v0 : Cell}
    (huv : (u0 = e0.1 ∧ v0 = e0.2) ∨ (u0 = e0.2 ∧ v0 = e0.1))
    {A B : {p : Pos // tileAt l p = Tile.path}}
    (hA : A.1 = cell_tile u0) (hB : B.1 = mid_tile e0)
    {a c : {p : Pos // tileAt l p = Tile.path}}
    (hadj : ((mazeGraph l) \ SimpleGraph.fromEdgeSet {s(A, B)}).Adj a c)
    {u : Cell} (hu : cellOf acc e0 v0 a.1 u) :
    ∃ v, cellOf acc e0 v0 c.1 v ∧ edgeConn (acc.erase e0) u v := by
  have hends : e0.1 ≠ e0.2 := walls_endpoints_ne (hacc e0 he0)
  have huv_ne : u0 ≠ v0 := by
    rcases huv with ⟨h1, h2⟩ | ⟨h1, h2⟩ <;> rw [h1, h2] <;>
      first | exact hends | exact fun h => hends h.symm
  rw [SimpleGraph.sdiff_adj] at hadj
  obtain ⟨hadjG, hndel⟩ := hadj
  have hnotAB : ¬ ((a = A ∧ c = B) ∨ (a = B ∧ c = A)) := by
    intro hcase
    apply hndel
    rw [SimpleGraph.fromEdgeSet_adj]
    exact ⟨Set.mem_singleton_iff.mpr (Sym2.eq_iff.mpr hcase),
      (mazeGraph l).ne_of_adj hadjG⟩
  obtain ⟨e, he, w, hw, hforms⟩ := mazeGraph_adj_cases hspec hacc hadjG
  rcases hforms with ⟨ha, hc⟩ | ⟨ha, hc⟩
  · -- a is the cell tile of w, c is the midpoint of e
    have huw : u = w := by
      rcases hu with h1 | ⟨e1, he1, _, h1, _⟩ | ⟨h1, _⟩
      · exact cell_tile_inj (h1.symm.trans ha)
      · exact absurd (ha.symm.trans h1) (cell_ne_mid (hacc e1 he1) w)
      · exact absurd (ha.symm.trans h1) (cell_ne_mid (hacc e0 he0) w)
    subst huw
    by_cases hee0 : e = e0
    · subst hee0
      have hune : u ≠ u0 := by
        rintro rfl
        exact hnotAB (Or.inl ⟨Subtype.ext (ha.trans hA.symm),
          Subtype.ext (hc.trans hB.symm)⟩)
      have huv0 : u = v0 := by
        rcases huv with ⟨h1, h2⟩ | ⟨h1, h2⟩ <;> rcases hw with h3 | h3 <;>
          first
            | exact absurd (h3.trans h1.symm) hune
            | exact h3.trans h2.symm
      exact ⟨v0, Or.inr (Or.inr ⟨hc, rfl⟩), huv0 ▸ Relation.ReflTransGen.refl⟩
    · exact ⟨u, Or.inr (Or.inl ⟨e, he, hee0, hc, hw⟩),
        Relation.ReflTransGen.refl⟩
  · -- a is the midpoint of e, c is the cell tile of w
    have hee : ∀ e1 ∈ acc, a.1 = mid_tile e1 → e1 = e := fun e1 he1 h1 =>
      mid_tile_inj (hacc e1 he1) (hacc e he) (h1.symm.trans ha)
    rcases hu with h1 | ⟨e1, he1, hne1, h1, hu1⟩ | ⟨h1, hu1⟩
    · exact absurd (h1.symm.trans ha) (cell_ne_mid (hacc e he) u)
    · -- a = mid e with e ≠ e0; cross the lattice edge e
      have he1e : e1 = e := hee e1 he1 h1
      subst he1e
      have hemem : e1 ∈ acc.erase e0 := (List.mem_erase_of_ne hne1).mpr he1
      refine ⟨w, Or.inl hc, ?_⟩
      rcases hu1 with h2 | h2 <;> rcases hw with h3 | h3
      · rw [h2, h3]
        exact Relation.ReflTransGen.refl
      · rw [h2, h3]
        exact edgeConn_single hemem
      · rw [h2, h3]
        exact edgeConn_symm (edgeConn_single hemem)
      · rw [h2, h3]
        exact Relation.ReflTransGen.refl
    · -- a = mid e0; the only remaining tile edge leads to cell v0
      have he0e : e0 = e := hee e0 he0 h1
      subst he0e
      have hwne : w ≠ u0 := by
        rintro rfl
        exact hnotAB (Or.inr ⟨Subtype.ext (ha.trans hB.symm),
          Subtype.ext (hc.trans hA.symm)⟩)
      have hwv0 : w = v0 := by
        rcases huv with ⟨h2, h3⟩ | ⟨h2, h3⟩ <;> rcases hw with h4 | h4 <;>
          first
            | exact absurd (h4.trans h2.symm) hwne
            | exact h4.trans h3.symm
      refine ⟨w, Or.inl hc, ?_⟩
      rw [hu1, hwv0]
      exact Relation.ReflTransGen.refl

/-- A walk in the punctured graph projects to lattice connectivity that
avoids the deleted edge. -/
theorem deleted_walk {g : MazeGenerator} {l : Layout} {acc : List Edge}
    (hspec : ∀ p, tileAt l p = if carved acc p then Tile.path else Tile.wall)
    (hacc : ∀ e ∈ acc, e ∈ g.walls)
    {e0 : Edge} (he0 : e0 ∈ acc) {u0 v0 : Cell}
    (huv : (u0 = e0.1 ∧ v0 = e0.2) ∨ (u0 = e0.2 ∧ v0 = e0.1))
    {A B : {p : Pos // tileAt l p = Tile.path}}
    (hA : A.1 = cell_tile u0) (hB : B.1 = mid_tile e0)
    {a b : {p : Pos // tileAt l p = Tile.path}}
    (w : ((mazeGraph l) \ SimpleGraph.fromEdgeSet {s(A, B)}).Walk a b) :
    ∀ u : Cell, cellOf acc e0 v0 a.1 u →
      ∃ v, cellOf acc e0 v0 b.1 v ∧ edgeConn (acc.erase e0) u v := by
  induction w with
  | nil => exact fun u hu => ⟨u, hu, Relation.ReflTransGen.refl⟩
  | cons hadj _ ih =>
    intro u hu
    obtain ⟨v, hv, h1⟩ := deleted_step hspec hacc he0 huv hA hB hadj hu
    obtain ⟨v2, hv2, h2⟩ := ih v hv
    exact ⟨v2, hv2, Relation.ReflTransGen.trans h1 h2⟩

/-- On a phase-1 layout with an acyclic accepted set every tile adjacency
is a bridge, so the path graph is acyclic. -/
theorem mazeGraph_acyclic {g : MazeGenerator} {l : Layout} {acc : List Edge}
    (hspec : ∀ p, tileAt l p = if carved acc p then Tile.path else Tile.wall)
    (hacc : ∀ e ∈ acc, e ∈ g.walls)
    (hforest : ∀ e ∈ acc, ¬ edgeConn (acc.erase e) e.1 e.2) :
    (mazeGraph l).IsAcyclic := by
  rw [SimpleGraph.isAcyclic_iff_forall_adj_isBridge]
  intro a b hadj
  rw [SimpleGraph.isBridge_iff]
  refine ⟨hadj, ?_⟩
  rintro ⟨w⟩
  obtain ⟨e, he, uu, huu, hforms⟩ := mazeGraph_adj_cases hspec hacc hadj
  have hends : e.1 ≠ e.2 := walls_endpoints_ne (hacc e he)
  have hvmid : ∀ (v0 v : Cell) (pb : Pos), pb = mid_tile e →
      cellOf acc e v0 pb v → v = v0 := by
    intro v0 v pb hpb hcell
    rcases hcell with h1 | ⟨e1, he1, hne1, h1, _⟩ | ⟨_, h1⟩
    · exact absurd (h1.symm.trans hpb) (cell_ne_mid (hacc e he) v)
    · exact absurd (mid_tile_inj (hacc e1 he1) (hacc e he)
        (h1.symm.trans hpb)) hne1
    · exact h1
  rcases hforms with ⟨ha, hb⟩ | ⟨ha, hb⟩
  · -- the deleted tile edge goes cell → mid
    rcases huu with huu1 | huu1
    · obtain ⟨v, hv, hconn⟩ := deleted_walk hspec hacc he
        (Or.inl ⟨huu1, rfl⟩) ha hb w uu (Or.inl ha)
      rw [hvmid e.2 v b.1 hb hv] at hconn
      rw [huu1] at hconn
      exact hforest e he hconn
    · obtain ⟨v, hv, hconn⟩ := deleted_walk hspec hacc he
        (Or.inr ⟨huu1, rfl⟩) ha hb w uu (Or.inl ha)
      rw [hvmid e.1 v b.1 hb hv] at hconn
      rw [huu1] at hconn
      exact hforest e he (edgeConn_symm hconn)
  · -- the deleted tile edge goes mid → cell; flip the pair
    have hswap : (s(a, b) : Sym2 _) = s(b, a) := Sym2.eq_swap
    rw [hswap] at w
    rcases huu with huu1 | huu1
    · obtain ⟨v, hv, hconn⟩ := deleted_walk hspec hacc he
        (Or.inl ⟨huu1, rfl⟩) hb ha w e.2 (Or.inr (Or.inr ⟨ha, rfl⟩))
    -- from mid e (start a) the projection starts at the far endpoint e.2
      have hvc : v = uu := by
        rcases hv with h1 | ⟨e1, he1, _, h1, _⟩ | ⟨h1, _⟩
        · exact cell_tile_inj (h1.symm.trans hb)
        · exact absurd (hb.symm.trans h1) (cell_ne_mid (hacc e1 he1) uu)
        · exact absurd (hb.symm.trans h1) (cell_ne_mid (hacc e he) uu)
      rw [hvc, huu1] at hconn
      exact hforest e he (edgeConn_symm hconn)
    · obtain ⟨v, hv, hconn⟩ := deleted_walk hspec hacc he
        (Or.inr ⟨huu1, rfl⟩) hb ha w e.1 (Or.inr (Or.inr ⟨ha, rfl⟩))
      have hvc : v = uu := by
        rcases hv with h1 | ⟨e1, he1, _, h1, _⟩ | ⟨h1, _⟩
        · exact cell_tile_inj (h1.symm.trans hb)
        · exact absurd (hb.symm.trans h1) (cell_ne_mid (hacc e1 he1) uu)
        · exact absurd (hb.symm.trans h1) (cell_ne_mid (hacc e he) uu)
      rw [hvc, huu1] at hconn
      exact hforest e he hconn

/-- BFS-style tile reachability on a two-valued layout yields a walk in
the path graph. -/
theorem tileReach_toWalk {l : Layout} {acc : List Edge}
    (hspec : ∀ p, tileAt l p = if carved acc p then Tile.path else Tile.wall)
    {p q : Pos} (hp : tileAt l p = Tile.path) (hr : TileReach l [] p q) :
    ∃ hq : tileAt l q = Tile.path, (mazeGraph l).Reachable ⟨p, hp⟩ ⟨q, hq⟩ := by
  induction hr with
  | refl => exact ⟨hp, SimpleGraph.Reachable.refl _⟩
  | tail hab hstep ih =>
    rename_i b c
    obtain ⟨hb, hreach⟩ := ih
    have hc : tileAt l c = Tile.path := by
      have h3 := hstep.2.2.1
      rw [hspec c] at h3 ⊢
      by_cases hcc : carved acc c
      · rw [if_pos hcc]
      · rw [if_neg hcc] at h3
        exact absurd rfl h3
    refine ⟨hc, hreach.trans (SimpleGraph.Adj.reachable ?_)⟩
    exact hstep.1

/-- On a phase-1 layout carved from a lattice-spanning accepted set the
path graph is connected (given some path tile exists). -/
theorem mazeGraph_connected {g : MazeGenerator} {l : Layout} {acc : List Edge}
    (hw : g.width = 2 * g.cell_width + 1)
    (hh : g.height = 2 * g.cell_height + 1)
    (hspec : ∀ p, tileAt l p = if carved acc p then Tile.path else Tile.wall)
    (hlen : l.length = g.height)
    (hrows : ∀ r, r < g.height → (l.getD r []).length = g.width)
    (hacc : ∀ e ∈ acc, e ∈ g.walls)
    (htotal : ∀ u ∈ g.dom, ∀ v ∈ g.dom, edgeConn acc u v)
    {p0 : Pos} (hp0 : tileAt l p0 = Tile.path) :
    (mazeGraph l).Connected := by
  haveI : Nonempty {p : Pos // tileAt l p = Tile.path} := ⟨⟨p0, hp0⟩⟩
  refine SimpleGraph.Connected.mk ?_
  intro a b
  have hr : TileReach l [] a.1 b.1 :=
    allPathReach hw hh hspec hlen hrows hacc htotal a.1 b.1 a.2 b.2
  obtain ⟨hq, hreach⟩ := tileReach_toWalk hspec a.2 hr
  have ha : (⟨a.1, a.2⟩ : {p : Pos // tileAt l p = Tile.path}) = a := rfl
  have hb : (⟨b.1, hq⟩ : {p : Pos // tileAt l p = Tile.path}) = b :=
    Subtype.ext rfl
  rwa [ha, hb] at hreach

/-- If the lattice has at least two cells, every cell's tile is carved by
the spanning accepted set. -/
theorem cells_carved {g : MazeGenerator} {acc : List Edge}
    (htotal : ∀ u ∈ g.dom, ∀ v ∈ g.dom, edgeConn acc u v)
    (hcard : 2 ≤ g.dom.card) : ∀ u ∈ g.dom, carved acc (cell_tile u) := by
  intro u hu
  have hcard1 : 1 < g.dom.card := by omega
  obtain ⟨v, hv, hvu⟩ := Finset.exists_ne_of_one_lt_card hcard1 u
  have hconn := htotal u hu v hv
  rcases Relation.ReflTransGen.cases_head hconn with heq | ⟨c, hstep, _⟩
  · exact absurd heq.symm hvu
  · rcases hstep with h | h
    · exact ⟨(u, c), h, by simp [edge_tiles]⟩
    · exact ⟨(c, u), h, by simp [edge_tiles]⟩

/-- C7: phase 2 of `MazeGenerator.generate` carves the midpoints of
exactly `min(floor(len(rejected) * loop_probability), len(rejected))`
distinct rejected edges to Path, removing each chosen edge from the pool;
with `loop_probability = 0` nothing extra is carved and the maze is
perfect: the path graph is a tree, acyclic with a unique simple path
between any two path tiles. -/
theorem C7_phase2_loops_and_perfect (width height : Nat) (rnd : Rnd) (p : ℚ)
    (g : MazeGenerator) (hg : g = MazeGenerator.make width height)
    (hw5 : 5 ≤ width) (hh3 : 3 ≤ height) (hv : ValidRnd rnd) (hp : 0 ≤ p) :
    ∃ st chosen leftover, st = phase1_out g (rnd.shuffle_edges g.walls) ∧
      chosen.Nodup ∧ (∀ e ∈ chosen, e ∈ st.2.2) ∧
      chosen.length = min (⌊(st.2.2.length : ℚ) * p⌋).toNat st.2.2.length ∧
      st.2.2.Perm (chosen ++ leftover) ∧
      (∀ q, tileAt (g.generate rnd p) q = Tile.path ↔
        (tileAt st.2.1 q = Tile.path ∨ ∃ e ∈ chosen, q = mid_tile e)) ∧
      (p = 0 → g.generate rnd p = st.2.1 ∧
        (mazeGraph (g.generate rnd p)).IsTree ∧
        ∀ a b, ∃! w : (mazeGraph (g.generate rnd p)).Walk a b, w.IsPath) := by
  have hw : g.width = 2 * g.cell_width + 1 := by
    rw [hg]; exact make_width_eq width height
  have hh : g.height = 2 * g.cell_height + 1 := by
    rw [hg]; exact make_height_eq width height
  have hcw : 2 ≤ g.cell_width := by
    rw [hg]
    by_cases hpar : width % 2 = 0 <;> simp [MazeGenerator.make, hpar] <;> omega
  have hch : 1 ≤ g.cell_height := by
    rw [hg]
    by_cases hpar : height % 2 = 0 <;> simp [MazeGenerator.make, hpar] <;> omega
  obtain ⟨acc, hP, hcount, hwlen, hsub, htotal, r0, hr0dom, hall⟩ :=
    phase1_spanning g hw hh (by omega) hch _ (hv.1 g.walls)
  set st := phase1_out g (rnd.shuffle_edges g.walls) with hst
  have hpool_mem : ∀ e ∈ st.2.2, e ∈ g.walls := fun e he =>
    (hv.1 g.walls).subset (hsub.subset he)
  have hpool_nodup : st.2.2.Nodup :=
    hsub.nodup (((hv.1 g.walls).nodup_iff).mpr (walls_nodup g))
  have hspec0 : ∀ q, tileAt st.2.1 q =
      if carved acc q ∨ (∃ e ∈ ([] : List Edge), q = mid_tile e) then Tile.path
      else Tile.wall := by
    intro q
    rw [hP.layout_spec q]
    simp
  obtain ⟨chosen, hcsub, hclen, hcperm, hcspec, hclen2, hcrows2⟩ :=
    phase2_layout g hw hh rnd.pick (num_loops_of st.2.2.length p) 0 st.2.2
      st.2.1 acc [] hpool_mem hspec0 hP.hlen hP.hrows
  have hgen := generate_eq g rnd p
  rw [← hst] at hgen
  refine ⟨st, chosen,
    (phase2 rnd.pick 0 (num_loops_of st.2.2.length p) st.2.2 st.2.1).2, rfl,
    ((hcperm.nodup_iff).mp hpool_nodup).of_append_left, hcsub, ?_, hcperm,
    ?_, ?_⟩
  · rw [hclen, num_loops_of_eq_floor st.2.2.length p hp]
  · intro q
    rw [hgen, hcspec q, hP.layout_spec q]
    by_cases h1 : carved acc q <;> by_cases h2 : ∃ e ∈ chosen, q = mid_tile e <;>
      simp [h1, h2]
  · rintro rfl
    have h0 : num_loops_of st.2.2.length 0 = 0 := by simp [num_loops_of]
    have heq : g.generate rnd 0 = st.2.1 := by
      rw [hgen, h0]
      rfl
    have hcard2 : 2 ≤ g.dom.card := by
      rw [dom_card]
      calc 2 = 1 * 2 := rfl
        _ ≤ g.cell_height * g.cell_width := Nat.mul_le_mul hch hcw
    have hcells := cells_carved htotal hcard2
    have hp00 : ((0, 0) : Cell) ∈ g.dom := mem_dom_iff.mpr ⟨by omega, by omega⟩
    have hpath0 : tileAt st.2.1 (cell_tile (0, 0)) = Tile.path := by
      rw [hP.layout_spec, if_pos (hcells (0, 0) hp00)]
    have htree : (mazeGraph st.2.1).IsTree :=
      ⟨mazeGraph_connected hw hh hP.layout_spec hP.hlen hP.hrows hP.acc_walls
        htotal hpath0,
       mazeGraph_acyclic hP.layout_spec hP.acc_walls hP.forest⟩
    rw [heq]
    exact ⟨rfl, htree, (SimpleGraph.isTree_iff_existsUnique_path.mp htree).2⟩

theorem C7_phase2_loops_and_perfect_witness :
    ((MazeGenerator.make 5 5 : MazeGenerator) = MazeGenerator.make 5 5 ∧
      5 ≤ 5 ∧ 3 ≤ 5 ∧ ValidRnd idRnd ∧ (0 : ℚ) ≤ 0) ∧
    (∃ st chosen leftover,
      st = phase1_out (MazeGenerator.make 5 5)
        (idRnd.shuffle_edges (MazeGenerator.make 5 5).walls) ∧
      chosen.Nodup ∧ (∀ e ∈ chosen, e ∈ st.2.2) ∧
      chosen.length = min (⌊(st.2.2.length : ℚ) * 0⌋).toNat st.2.2.length ∧
      st.2.2.Perm (chosen ++ leftover) ∧
      (∀ q, tileAt ((MazeGenerator.make 5 5).generate idRnd 0) q =
          Tile.path ↔
        (tileAt st.2.1 q = Tile.path ∨ ∃ e ∈ chosen, q = mid_tile e)) ∧
      ((0 : ℚ) = 0 →
        (MazeGenerator.make 5 5).generate idRnd 0 = st.2.1 ∧
        (mazeGraph ((MazeGenerator.make 5 5).generate idRnd 0)).IsTree ∧
        ∀ a b, ∃! w : (mazeGraph
            ((MazeGenerator.make 5 5).generate idRnd 0)).Walk a b,
          w.IsPath)) :=
  ⟨⟨rfl, by decide, by decide, validRnd_idRnd, by norm_num⟩,
    C7_phase2_loops_and_perfect 5 5 idRnd 0 (MazeGenerator.make 5 5) rfl
      (by decide) (by decide) validRnd_idRnd (by norm_num)⟩

/-! ### Path-tile census of generated layouts -/

theorem tileAt_natCast (l : Layout) (c r : Nat) :
    tileAt l ((c : Int), (r : Int)) = (l.getD r []).getD c Tile.wall := by
  rw [tileAt, if_pos ⟨Int.natCast_nonneg c, Int.natCast_nonneg r⟩]
  simp

theorem mem_path_coords_iff {l : Layout} {q : Pos} :
    q ∈ path_coords_of l ↔ ∃ r, r < l.length ∧
      ∃ c, c < (l.getD r []).length ∧ q = ((c : Int), (r : Int)) ∧
      (l.getD r []).getD c Tile.wall = Tile.path := by
  unfold path_coords_of
  simp only [List.mem_flatMap, List.mem_range, List.mem_filterMap]
  constructor
  · rintro ⟨r, hr, c, hc, hq⟩
    by_cases hpath : (l.getD r []).getD c Tile.wall = Tile.path
    · rw [if_pos hpath] at hq
      exact ⟨r, hr, c, hc, (Option.some_injective _ hq).symm, hpath⟩
    · rw [if_neg hpath] at hq
      exact Option.noConfusion hq
  · rintro ⟨r, hr, c, hc, rfl, hpath⟩
    exact ⟨r, hr, c, hc, by rw [if_pos hpath]⟩

theorem path_coords_replicate_wall (w h : Nat) :
    path_coords_of (List.replicate h (List.replicate w Tile.wall)) = [] := by
  unfold path_coords_of
  rw [List.flatMap_eq_nil_iff]
  intro r hr
  rw [List.filterMap_eq_nil_iff]
  intro c hc
  rw [List.mem_range] at hr hc
  have hrow : (List.replicate h (List.replicate w Tile.wall)).getD r [] =
      List.replicate w Tile.wall := by
    rw [List.getD_eq_getElem?_getD, List.getElem?_replicate,
      if_pos (by rw [List.length_replicate] at hr; exact hr)]
    rfl
  rw [hrow] at hc ⊢
  rw [List.length_replicate] at hc
  rw [List.getD_eq_getElem?_getD, List.getElem?_replicate, if_pos hc]
  rfl

/-- When the generator has no interior walls the generated layout is the
all-wall grid. -/
theorem generate_no_walls (g : MazeGenerator) (rnd : Rnd) (p : ℚ)
    (hv : ValidRnd rnd) (hwempty : g.walls = []) :
    g.generate rnd p =
      List.replicate g.height (List.replicate g.width Tile.wall) := by
  have hsh : rnd.shuffle_edges g.walls = [] := by
    rw [hwempty]
    exact List.Perm.eq_nil (hv.1 [])
  have hout : phase1_out g (rnd.shuffle_edges g.walls) =
      (g.init_dsu,
        List.replicate g.height (List.replicate g.width Tile.wall), []) := by
    rw [hsh]
    rfl
  rw [generate_eq, hout]
  have h0 : num_loops_of ([] : List Edge).length p = 0 := by
    simp [num_loops_of]
  show (phase2 rnd.pick 0 (num_loops_of ([] : List Edge).length p) []
    (List.replicate g.height (List.replicate g.width Tile.wall))).1 =
    List.replicate g.height (List.replicate g.width Tile.wall)
  rw [h0]
  rfl

theorem two_le_length_of_mem_ne {α : Type} {l : List α} {a b : α}
    (ha : a ∈ l) (hb : b ∈ l) (hne : a ≠ b) : 2 ≤ l.length := by
  rcases l with _ | ⟨x, _ | ⟨y, t⟩⟩
  · exact absurd ha (List.not_mem_nil a)
  · rw [List.mem_singleton] at ha hb
    exact absurd (ha.trans hb.symm) hne
  · simp only [List.length_cons]
    omega

/-- A generator with at least one interior wall carves at least two path
tiles (the two endpoint tiles of an accepted edge), whatever the loop
probability. -/
theorem generate_two_path_tiles (width height : Nat) (rnd : Rnd) (p : ℚ)
    (hv : ValidRnd rnd)
    (hwne : (MazeGenerator.make width height).walls ≠ []) :
    2 ≤ (path_coords_of
      ((MazeGenerator.make width height).generate rnd p)).length := by
  set g := MazeGenerator.make width height with hg
  have hw : g.width = 2 * g.cell_width + 1 := make_width_eq width height
  have hh : g.height = 2 * g.cell_height + 1 := make_height_eq width height
  obtain ⟨e0, he0⟩ := List.exists_mem_of_ne_nil g.walls hwne
  have hdims : 1 ≤ g.cell_width ∧ 1 ≤ g.cell_height ∧ 2 ≤ g.dom.card := by
    rw [dom_card]
    unfold MazeGenerator.fuel
    rcases mem_walls_iff.mp he0 with ⟨r, c, h1, h2, _⟩ | ⟨r, c, h1, h2, _⟩ <;>
      refine ⟨by omega, by omega, ?_⟩ <;> nlinarith
  obtain ⟨acc, hP, hcount, hwlen, hsub, htotal, r0, hr0dom, hall⟩ :=
    phase1_spanning g hw hh hdims.1 hdims.2.1 _ (hv.1 g.walls)
  set st := phase1_out g (rnd.shuffle_edges g.walls) with hst
  have hpool_mem : ∀ e ∈ st.2.2, e ∈ g.walls := fun e he =>
    (hv.1 g.walls).subset (hsub.subset he)
  have hspec0 : ∀ q, tileAt st.2.1 q =
      if carved acc q ∨ (∃ e ∈ ([] : List Edge), q = mid_tile e) then Tile.path
      else Tile.wall := by
    intro q
    rw [hP.layout_spec q]
    simp
  obtain ⟨chosen, hcsub, hclen, hcperm, hcspec, hclen2, hcrows2⟩ :=
    phase2_layout g hw hh rnd.pick (num_loops_of st.2.2.length p) 0 st.2.2
      st.2.1 acc [] hpool_mem hspec0 hP.hlen hP.hrows
  have hgen := generate_eq g rnd p
  rw [← hst] at hgen
  have hacc_ne : acc ≠ [] := by
    intro hnil
    rw [hnil] at hcount
    simp at hcount
    omega
  obtain ⟨e, he⟩ := List.exists_mem_of_ne_nil acc hacc_ne
  have hew : e ∈ g.walls := hP.acc_walls e he
  have hb := edge_tiles_bounds hw hh hew
  have hmem : ∀ u : Cell, carved acc (cell_tile u) →
      0 < (cell_tile u).1 → (cell_tile u).1 < (g.width : Int) - 1 →
      0 < (cell_tile u).2 → (cell_tile u).2 < (g.height : Int) - 1 →
      cell_tile u ∈ path_coords_of (g.generate rnd p) := by
    intro u hcu h1 h2 h3 h4
    have h4' : 2 * u.1 + 1 < g.height := by
      simp only [cell_tile, Prod.snd] at h4
      omega
    have h2' : 2 * u.2 + 1 < g.width := by
      simp only [cell_tile, Prod.fst] at h2
      omega
    rw [hgen, mem_path_coords_iff]
    refine ⟨2 * u.1 + 1, ?_, 2 * u.2 + 1, ?_, ?_, ?_⟩
    · rw [hclen2]
      exact h4'
    · rw [hcrows2 (2 * u.1 + 1) h4']
      exact h2'
    · exact cell_tile_cast u
    · have hts := hcspec (cell_tile u)
      rw [if_pos (Or.inl hcu), cell_tile_cast, tileAt_natCast] at hts
      exact hts
  have hm1 := hmem e.1 ⟨e, he, by simp [edge_tiles]⟩
    (hb (cell_tile e.1) (by simp [edge_tiles])).1
    (hb (cell_tile e.1) (by simp [edge_tiles])).2.1
    (hb (cell_tile e.1) (by simp [edge_tiles])).2.2.1
    (hb (cell_tile e.1) (by simp [edge_tiles])).2.2.2
  have hm2 := hmem e.2 ⟨e, he, by simp [edge_tiles]⟩
    (hb (cell_tile e.2) (by simp [edge_tiles])).1
    (hb (cell_tile e.2) (by simp [edge_tiles])).2.1
    (hb (cell_tile e.2) (by simp [edge_tiles])).2.2.1
    (hb (cell_tile e.2) (by simp [edge_tiles])).2.2.2
  have hne12 : cell_tile e.1 ≠ cell_tile e.2 := fun hc =>
    walls_endpoints_ne hew (cell_tile_inj hc)
  exact two_le_length_of_mem_ne hm1 hm2 hne12

/-! ### The shape of `create_randomized_level`'s results -/

/-- In range with a nonempty template layout, `create_randomized_level`
reads only the template's dimensions and time limit. -/
theorem create_eq_build (level_number : Int) (rnd : Rnd) (ld : LevelData)
    (hrange : 1 ≤ level_number ∧ level_number ≤ (ALL_LEVELS.length : Int))
    (hld : get_level level_number = some ld) (hne : ld.layout ≠ []) :
    create_randomized_level level_number rnd =
      build_level (ld.layout.headD []).length ld.layout.length level_number
        ld.time_limit rnd := by
  unfold create_randomized_level
  rw [if_neg (not_not_intro hrange), hld]
  dsimp only
  rcases hcase : ld.layout with _ | ⟨row0, restRows⟩
  · exact absurd hcase hne
  · rfl

/-- `build_level` on the empty path census signals "no level". -/
theorem build_level_no_paths (width height : Nat) (ln : Int)
    (tl : Option Nat) (rnd : Rnd)
    (hpc : path_coords_of ((MazeGenerator.make width height).generate rnd)
      = []) :
    build_level width height ln tl rnd = GenResult.noLevel := by
  unfold build_level
  dsimp only
  rw [hpc]

/-- The marked layout of a successful generation (`layout2` in the
source): the generated grid with the `P` and `E` writes applied. -/
def layout2_of (width height : Nat) (rnd : Rnd)
    (player_pos exit_pos : Pos) : Layout :=
  setTile (setTile ((MazeGenerator.make width height).generate rnd)
    player_pos.1.toNat player_pos.2.toNat Tile.player_start)
    exit_pos.1.toNat exit_pos.2.toNat Tile.exit_mark

/-- The committed obstacle list of a successful generation. -/
def obstacles_of (width height : Nat) (ln : Int) (rnd : Rnd)
    (player_pos exit_pos : Pos) (rest : List Pos) : List Pos :=
  (place_obstacles (layout2_of width height rnd player_pos exit_pos)
    player_pos exit_pos (ln.toNat / 3) []
    (rnd.shuffle_positions rest.dropLast)).1

/-- The shuffled filtered candidate list for collectibles. -/
def valid_collectible_locs_of (width height : Nat) (ln : Int) (rnd : Rnd)
    (player_pos exit_pos : Pos) (rest : List Pos) : List Pos :=
  rnd.shuffle_collectibles
    ((find_reachable_nodes (layout2_of width height rnd player_pos exit_pos)
      player_pos
      (obstacles_of width height ln rnd player_pos exit_pos rest)).filter
      (fun pos => !(decide (pos = player_pos)) &&
        !(decide (pos = exit_pos)) &&
        !(decide (pos ∈
          obstacles_of width height ln rnd player_pos exit_pos rest))))

/-- The collectible list of a successful generation. -/
def collectibles_of (width height : Nat) (ln : Int) (rnd : Rnd)
    (player_pos exit_pos : Pos) (rest : List Pos) : List Pos :=
  (valid_collectible_locs_of width height ln rnd player_pos exit_pos
    rest).take
    (min (1 + ln.toNat / 2)
      (valid_collectible_locs_of width height ln rnd player_pos exit_pos
        rest).length)

/-- `build_level` in the success shape. -/
theorem build_level_ok_spec (width height : Nat) (ln : Int)
    (tl : Option Nat) (rnd : Rnd) (player_pos exit_pos : Pos)
    (rest : List Pos)
    (hpc : path_coords_of ((MazeGenerator.make width height).generate rnd)
      = player_pos :: rest)
    (hlast : rest.getLast? = some exit_pos) :
    build_level width height ln tl rnd = GenResult.ok
      { number := ln.toNat,
        layout := layout2_of width height rnd player_pos exit_pos,
        obstacles := obstacles_of width height ln rnd player_pos exit_pos
          rest,
        collectibles := collectibles_of width height ln rnd player_pos
          exit_pos rest,
        time_limit := tl } := by
  unfold build_level
  dsimp only
  rw [hpc]
  dsimp only
  rw [hlast]
  rfl

theorem build_level_no_crash (width height : Nat) (ln : Int)
    (tl : Option Nat) (rnd : Rnd) (hv : ValidRnd rnd) :
    build_level width height ln tl rnd ≠ GenResult.crash := by
  by_cases hwe : (MazeGenerator.make width height).walls = []
  · have hpc : path_coords_of
        ((MazeGenerator.make width height).generate rnd) = [] := by
      rw [generate_no_walls _ rnd _ hv hwe]
      exact path_coords_replicate_wall _ _
    rw [build_level_no_paths width height ln tl rnd hpc]
    exact fun h => GenResult.noConfusion h
  · have h2 := generate_two_path_tiles width height rnd
      default_loop_probability hv hwe
    rcases hpc : path_coords_of
        ((MazeGenerator.make width height).generate rnd) with _ | ⟨p0, rest⟩
    · rw [hpc] at h2
      simp at h2
    · rw [hpc] at h2
      simp only [List.length_cons] at h2
      have hrest : rest ≠ [] := by
        intro h
        rw [h] at h2
        simp at h2
      obtain ⟨ep, hep⟩ :=
        Option.isSome_iff_exists.mp (List.getLast?_isSome.mpr hrest)
      rw [build_level_ok_spec width height ln tl rnd p0 ep rest hpc hep]
      exact fun h => GenResult.noConfusion h

theorem create_no_crash (level_number : Int) (rnd : Rnd) (hv : ValidRnd rnd) :
    create_randomized_level level_number rnd ≠ GenResult.crash := by
  by_cases hrange : 1 ≤ level_number ∧
      level_number ≤ (ALL_LEVELS.length : Int)
  · have h1 := hrange.1
    have h2 : level_number ≤ 10 := hrange.2
    interval_cases level_number
    · rw [create_eq_build 1 rnd LEVEL_1 ⟨by decide, by decide⟩ rfl
        (by decide)]
      exact build_level_no_crash _ _ _ _ rnd hv
    · rw [create_eq_build 2 rnd LEVEL_2 ⟨by decide, by decide⟩ rfl
        (by decide)]
      exact build_level_no_crash _ _ _ _ rnd hv
    · rw [create_eq_build 3 rnd LEVEL_3 ⟨by decide, by decide⟩ rfl
        (by decide)]
      exact build_level_no_crash _ _ _ _ rnd hv
    · rw [create_eq_build 4 rnd LEVEL_4 ⟨by decide, by decide⟩ rfl
        (by decide)]
      exact build_level_no_crash _ _ _ _ rnd hv
    · rw [create_eq_build 5 rnd LEVEL_5 ⟨by decide, by decide⟩ rfl
        (by decide)]
      exact build_level_no_crash _ _ _ _ rnd hv
    · rw [create_eq_build 6 rnd LEVEL_6 ⟨by decide, by decide⟩ rfl
        (by decide)]
      exact build_level_no_crash _ _ _ _ rnd hv
    · rw [create_eq_build 7 rnd LEVEL_7 ⟨by decide, by decide⟩ rfl
        (by decide)]
      exact build_level_no_crash _ _ _ _ rnd hv
    · rw [create_eq_build 8 rnd LEVEL_8 ⟨by decide, by decide⟩ rfl
        (by decide)]
      exact build_level_no_crash _ _ _ _ rnd hv
    · rw [create_eq_build 9 rnd LEVEL_9 ⟨by decide, by decide⟩ rfl
        (by decide)]
      exact build_level_no_crash _ _ _ _ rnd hv
    · rw [create_eq_build 10 rnd LEVEL_10 ⟨by decide, by decide⟩ rfl
        (by decide)]
      exact build_level_no_crash _ _ _ _ rnd hv
  · unfold create_randomized_level
    rw [if_pos hrange]
    exact fun h => GenResult.noConfusion h

/-- C8: `create_randomized_level` returns the "no level" signal `None`
both for a requested level number outside `1..len(ALL_LEVELS)` and for a
generated grid with zero Path tiles, and it never raises. -/
theorem C8_invalid_or_degenerate_no_level (level_number : Int) (rnd : Rnd)
    (hv : ValidRnd rnd) :
    (¬ (1 ≤ level_number ∧ level_number ≤ (ALL_LEVELS.length : Int)) →
      create_randomized_level level_number rnd = GenResult.noLevel) ∧
    (∀ ld, get_level level_number = some ld → ld.layout ≠ [] →
      path_coords_of ((MazeGenerator.make (ld.layout.headD []).length
        ld.layout.length).generate rnd) = [] →
      create_randomized_level level_number rnd = GenResult.noLevel) ∧
    create_randomized_level level_number rnd ≠ GenResult.crash := by
  refine ⟨?_, ?_, create_no_crash level_number rnd hv⟩
  · intro h
    unfold create_randomized_level
    rw [if_pos h]
  · intro ld hld hlne hpc
    by_cases hrange : 1 ≤ level_number ∧
        level_number ≤ (ALL_LEVELS.length : Int)
    · rw [create_eq_build level_number rnd ld hrange hld hlne]
      exact build_level_no_paths _ _ _ _ _ hpc
    · unfold create_randomized_level
      rw [if_pos hrange]

theorem C8_invalid_or_degenerate_no_level_witness :
    ValidRnd idRnd ∧
    ((¬ (1 ≤ (0 : Int) ∧ (0 : Int) ≤ (ALL_LEVELS.length : Int)) →
      create_randomized_level 0 idRnd = GenResult.noLevel) ∧
     (∀ ld, get_level 0 = some ld → ld.layout ≠ [] →
      path_coords_of ((MazeGenerator.make (ld.layout.headD []).length
        ld.layout.length).generate idRnd) = [] →
      create_randomized_level 0 idRnd = GenResult.noLevel) ∧
     create_randomized_level 0 idRnd ≠ GenResult.crash) :=
  ⟨validRnd_idRnd, C8_invalid_or_degenerate_no_level 0 idRnd validRnd_idRnd⟩

/-- `build_level` in the (unreachable) crash shape. -/
theorem build_level_crash_spec (width height : Nat) (ln : Int)
    (tl : Option Nat) (rnd : Rnd) (player_pos : Pos) (rest : List Pos)
    (hpc : path_coords_of ((MazeGenerator.make width height).generate rnd)
      = player_pos :: rest)
    (hlast : rest.getLast? = none) :
    build_level width height ln tl rnd = GenResult.crash := by
  unfold build_level
  dsimp only
  rw [hpc]
  dsimp only
  rw [hlast]

/-- C9: a successful generation carries the template's `time_limit`
through unchanged, stamps `number` with the requested level number, and
depends on the (immutable) template only through its dimensions and time
limit; the returned layout is the freshly generated grid with the two
marker writes, not the template's rows. -/
theorem C9_template_frame (level_number : Int) (rnd : Rnd) (ld : LevelData)
    (hrange : 1 ≤ level_number ∧ level_number ≤ (ALL_LEVELS.length : Int))
    (hld : get_level level_number = some ld) (hne : ld.layout ≠ []) :
    (create_randomized_level level_number rnd =
      build_level (ld.layout.headD []).length ld.layout.length level_number
        ld.time_limit rnd) ∧
    (∀ out, create_randomized_level level_number rnd = GenResult.ok out →
      out.time_limit = ld.time_limit ∧ out.number = level_number.toNat ∧
      ∃ player_pos exit_pos : Pos,
        out.layout = layout2_of (ld.layout.headD []).length ld.layout.length
          rnd player_pos exit_pos) := by
  have heq := create_eq_build level_number rnd ld hrange hld hne
  refine ⟨heq, ?_⟩
  intro out hout
  rw [heq] at hout
  rcases hpc : path_coords_of ((MazeGenerator.make
      (ld.layout.headD []).length ld.layout.length).generate rnd)
    with _ | ⟨pp, rest⟩
  · rw [build_level_no_paths _ _ level_number ld.time_limit rnd hpc] at hout
    exact absurd hout (fun hc => GenResult.noConfusion hc)
  · rcases hlast : rest.getLast? with _ | ep
    · rw [build_level_crash_spec _ _ level_number ld.time_limit rnd pp rest
        hpc hlast] at hout
      exact absurd hout (fun hc => GenResult.noConfusion hc)
    · rw [build_level_ok_spec _ _ level_number ld.time_limit rnd pp ep rest
        hpc hlast] at hout
      have hout2 := GenResult.ok.inj hout
      rw [← hout2]
      exact ⟨rfl, rfl, pp, ep, rfl⟩

theorem C9_template_frame_witness :
    (1 ≤ (1 : Int) ∧ (1 : Int) ≤ (ALL_LEVELS.length : Int)) ∧
    get_level 1 = some LEVEL_1 ∧ LEVEL_1.layout ≠ [] ∧
    ((create_randomized_level 1 idRnd =
      build_level (LEVEL_1.layout.headD []).length LEVEL_1.layout.length 1
        LEVEL_1.time_limit idRnd) ∧
    (∀ out, create_randomized_level 1 idRnd = GenResult.ok out →
      out.time_limit = LEVEL_1.time_limit ∧ out.number = (1 : Int).toNat ∧
      ∃ player_pos exit_pos : Pos,
        out.layout = layout2_of (LEVEL_1.layout.headD []).length
          LEVEL_1.layout.length idRnd player_pos exit_pos)) :=
  ⟨⟨by decide, by decide⟩, rfl, by decide,
    C9_template_frame 1 idRnd LEVEL_1 ⟨by decide, by decide⟩ rfl (by decide)⟩

/-! ### Marker placement and distinctness -/

theorem path_coords_nodup (l : Layout) : (path_coords_of l).Nodup := by
  unfold path_coords_of
  rw [List.nodup_flatMap]
  constructor
  · intro r _
    refine List.Nodup.filterMap ?_ (List.nodup_range _)
    intro c c' b hb hb'
    rw [Option.mem_def] at hb hb'
    split at hb
    · split at hb'
      · have h1 : ((c : Int), (r : Int)) = b := Option.some.inj hb
        have h2 : ((c' : Int), (r : Int)) = b := Option.some.inj hb'
        have h3 := h1.trans h2.symm
        rw [Prod.mk.injEq] at h3
        exact_mod_cast h3.1
      · exact absurd hb' (by simp)
    · exact absurd hb (by simp)
  · refine List.Pairwise.imp ?_ (List.pairwise_lt_range _)
    intro r1 r2 hlt b hb1 hb2
    rw [List.mem_filterMap] at hb1 hb2
    obtain ⟨c1, _, h1⟩ := hb1
    obtain ⟨c2, _, h2⟩ := hb2
    have hr1 : b.2 = (r1 : Int) := by
      split at h1
      · rw [← Option.some.inj h1]
      · exact absurd h1 (by simp)
    have hr2 : b.2 = (r2 : Int) := by
      split at h2
      · rw [← Option.some.inj h2]
      · exact absurd h2 (by simp)
    rw [hr1] at hr2
    have : r1 = r2 := by exact_mod_cast hr2
    omega

theorem mem_path_coords_facts {l : Layout} {q : Pos}
    (h : q ∈ path_coords_of l) :
    0 ≤ q.1 ∧ 0 ≤ q.2 ∧ q.2.toNat < l.length ∧
      q.1.toNat < (l.getD q.2.toNat []).length ∧ tileAt l q = Tile.path := by
  obtain ⟨r, hr, c, hc, rfl, hpath⟩ := mem_path_coords_iff.mp h
  refine ⟨Int.natCast_nonneg c, Int.natCast_nonneg r, ?_, ?_, ?_⟩
  · simp only [Int.toNat_natCast]
    exact hr
  · simp only [Int.toNat_natCast]
    exact hc
  · rw [tileAt_natCast]
    exact hpath

/-- The two marker writes on the generated grid, described pointwise. -/
theorem layout2_tileAt {gen : Layout} {pp ep : Pos}
    (hpp1 : 0 ≤ pp.1) (hpp2 : 0 ≤ pp.2) (hpp3 : pp.2.toNat < gen.length)
    (hpp4 : pp.1.toNat < (gen.getD pp.2.toNat []).length)
    (hep1 : 0 ≤ ep.1) (hep2 : 0 ≤ ep.2) (hep3 : ep.2.toNat < gen.length)
    (hep4 : ep.1.toNat < (gen.getD ep.2.toNat []).length)
    (q : Pos) :
    tileAt (setTile (setTile gen pp.1.toNat pp.2.toNat Tile.player_start)
      ep.1.toNat ep.2.toNat Tile.exit_mark) q =
      if q = ep then Tile.exit_mark
      else if q = pp then Tile.player_start
      else tileAt gen q := by
  rw [tileAt_setTile, tileAt_setTile, length_setTile, row_length_setTile]
  have hepx : ((ep.1.toNat : Nat) : Int) = ep.1 := Int.toNat_of_nonneg hep1
  have hepy : ((ep.2.toNat : Nat) : Int) = ep.2 := Int.toNat_of_nonneg hep2
  have hppx : ((pp.1.toNat : Nat) : Int) = pp.1 := Int.toNat_of_nonneg hpp1
  have hppy : ((pp.2.toNat : Nat) : Int) = pp.2 := Int.toNat_of_nonneg hpp2
  by_cases hqe : q = ep
  · rw [if_pos ⟨by rw [hqe, hepx], by rw [hqe, hepy], hep3, hep4⟩,
      if_pos hqe]
  · rw [if_neg (fun hcond => hqe (Prod.ext (hcond.1.trans hepx)
      (hcond.2.1.trans hepy))), if_neg hqe]
    by_cases hqp : q = pp
    · rw [if_pos ⟨by rw [hqp, hppx], by rw [hqp, hppy], hpp3, hpp4⟩,
        if_pos hqp]
    · rw [if_neg (fun hcond => hqp (Prod.ext (hcond.1.trans hppx)
        (hcond.2.1.trans hppy))), if_neg hqp]

theorem stepOK_congr {l l' : Layout}
    (hlen : layoutHeight l' = layoutHeight l)
    (hwd : layoutWidth l' = layoutWidth l)
    (hwall : ∀ q, tileAt l' q = Tile.wall ↔ tileAt l q = Tile.wall)
    {obst : List Pos} {a b : Pos} (h : stepOK l obst a b) :
    stepOK l' obst a b := by
  obtain ⟨h1, h2, h3, h4⟩ := h
  refine ⟨h1, ?_, fun hw' => h3 ((hwall b).mp hw'), h4⟩
  unfold inB at h2 ⊢
  rw [hlen, hwd]
  exact h2

theorem tileReach_congr {l l' : Layout}
    (hlen : layoutHeight l' = layoutHeight l)
    (hwd : layoutWidth l' = layoutWidth l)
    (hwall : ∀ q, tileAt l' q = Tile.wall ↔ tileAt l q = Tile.wall)
    {obst : List Pos} {a b : Pos} (h : TileReach l obst a b) :
    TileReach l' obst a b := by
  induction h with
  | refl => exact Relation.ReflTransGen.refl
  | tail _ hstep ih =>
    exact Relation.ReflTransGen.tail ih (stepOK_congr hlen hwd hwall hstep)

/-- One obstacle slot only moves candidates between the committed list and
the pool. -/
theorem place_obstacle_slot_perm (l : Layout) (pp ep : Pos)
    (obs : List Pos) :
    ∀ (tries : Nat) (pool : List Pos),
      ((place_obstacle_slot l pp ep obs tries pool).1 ++
        (place_obstacle_slot l pp ep obs tries pool).2).Perm (obs ++ pool) := by
  intro tries
  induction tries with
  | zero => exact fun pool => List.Perm.refl _
  | succ tries ih =>
    intro pool
    cases pool with
    | nil => simp [place_obstacle_slot]
    | cons pos rest =>
      rw [place_obstacle_slot]
      split
      · rw [List.append_assoc]
        exact List.Perm.refl _
      · refine (ih (rest ++ [pos])).trans (List.Perm.append_left obs ?_)
        exact List.perm_append_singleton pos rest

theorem place_obstacles_perm (l : Layout) (pp ep : Pos) :
    ∀ (slots : Nat) (obs pool : List Pos),
      ((place_obstacles l pp ep slots obs pool).1 ++
        (place_obstacles l pp ep slots obs pool).2).Perm (obs ++ pool) := by
  intro slots
  induction slots with
  | zero => exact fun obs pool => List.Perm.refl _
  | succ slots ih =>
    intro obs pool
    rw [place_obstacles]
    split
    · exact List.Perm.refl _
    · exact (ih _ _).trans (place_obstacle_slot_perm l pp ep obs
        pool.length pool)

/-- A slot either commits nothing or leaves the exit reachable past the
committed set. -/
theorem place_obstacle_slot_exit (l : Layout) (pp ep : Pos)
    (obs : List Pos) :
    ∀ (tries : Nat) (pool : List Pos),
      (place_obstacle_slot l pp ep obs tries pool).1 = obs ∨
      ep ∈ find_reachable_nodes l pp
        (place_obstacle_slot l pp ep obs tries pool).1 := by
  intro tries
  induction tries with
  | zero => exact fun pool => Or.inl rfl
  | succ tries ih =>
    intro pool
    cases pool with
    | nil => exact Or.inl rfl
    | cons pos rest =>
      rw [place_obstacle_slot]
      split
      · rename_i hcommit
        exact Or.inr hcommit
      · exact ih (rest ++ [pos])

/-- After the whole obstacle loop the committed set is empty or still
leaves the exit reachable. -/
theorem place_obstacles_exit (l : Layout) (pp ep : Pos) :
    ∀ (slots : Nat) (obs pool : List Pos),
      (obs = [] ∨ ep ∈ find_reachable_nodes l pp obs) →
      ((place_obstacles l pp ep slots obs pool).1 = [] ∨
        ep ∈ find_reachable_nodes l pp
          (place_obstacles l pp ep slots obs pool).1) := by
  intro slots
  induction slots with
  | zero => exact fun obs pool h => h
  | succ slots ih =>
    intro obs pool h
    rw [place_obstacles]
    split
    · exact h
    · apply ih
      rcases place_obstacle_slot_exit l pp ep obs pool.length pool
        with heq | hr
      · rw [heq]
        exact h
      · exact Or.inr hr

/-- Dimensions, two-valuedness and path connectivity of a generated grid,
for every valid shuffle record and loop probability. -/
theorem generate_master (width height : Nat) (rnd : Rnd) (p : ℚ)
    (hv : ValidRnd rnd) :
    ((MazeGenerator.make width height).generate rnd p).length =
      (MazeGenerator.make width height).height ∧
    (∀ r, r < (MazeGenerator.make width height).height →
      (((MazeGenerator.make width height).generate rnd p).getD r []).length
        = (MazeGenerator.make width height).width) ∧
    (∀ q, tileAt ((MazeGenerator.make width height).generate rnd p) q =
        Tile.path ∨
      tileAt ((MazeGenerator.make width height).generate rnd p) q =
        Tile.wall) ∧
    (∀ a b,
      tileAt ((MazeGenerator.make width height).generate rnd p) a =
        Tile.path →
      tileAt ((MazeGenerator.make width height).generate rnd p) b =
        Tile.path →
      TileReach ((MazeGenerator.make width height).generate rnd p) []
        a b) := by
  set g := MazeGenerator.make width height with hg
  have hw : g.width = 2 * g.cell_width + 1 := make_width_eq width height
  have hh : g.height = 2 * g.cell_height + 1 := make_height_eq width height
  by_cases hwe : g.walls = []
  · rw [generate_no_walls g rnd p hv hwe]
    refine ⟨List.length_replicate _ _, ?_, ?_, ?_⟩
    · intro r hr
      rw [List.getD_eq_getElem?_getD, List.getElem?_replicate, if_pos hr]
      exact List.length_replicate _ _
    · intro q
      exact Or.inr (tileAt_replicate_wall g.width g.height q)
    · intro a b ha _
      rw [tileAt_replicate_wall] at ha
      exact absurd ha (fun h => Tile.noConfusion h)
  · obtain ⟨e0, he0⟩ := List.exists_mem_of_ne_nil g.walls hwe
    have hdims : 1 ≤ g.cell_width ∧ 1 ≤ g.cell_height ∧ 2 ≤ g.dom.card := by
      rw [dom_card]
      unfold MazeGenerator.fuel
      rcases mem_walls_iff.mp he0 with ⟨r, c, h1, h2, _⟩ |
          ⟨r, c, h1, h2, _⟩ <;>
        refine ⟨by omega, by omega, ?_⟩ <;> nlinarith
    obtain ⟨acc, hP, hcount, hwlen, hsub, htotal, r0, hr0dom, hall⟩ :=
      phase1_spanning g hw hh hdims.1 hdims.2.1 _ (hv.1 g.walls)
    set st := phase1_out g (rnd.shuffle_edges g.walls) with hst
    have hpool_mem : ∀ e ∈ st.2.2, e ∈ g.walls := fun e he =>
      (hv.1 g.walls).subset (hsub.subset he)
    have hspec0 : ∀ q, tileAt st.2.1 q =
        if carved acc q ∨ (∃ e ∈ ([] : List Edge), q = mid_tile e) then
          Tile.path
        else Tile.wall := by
      intro q
      rw [hP.layout_spec q]
      simp
    obtain ⟨chosen, hcsub, hclen, hcperm, hcspec, hclen2, hcrows2⟩ :=
      phase2_layout g hw hh rnd.pick (num_loops_of st.2.2.length p) 0 st.2.2
        st.2.1 acc [] hpool_mem hspec0 hP.hlen hP.hrows
    have hgen := generate_eq g rnd p
    rw [← hst] at hgen
    rw [hgen]
    refine ⟨hclen2, hcrows2, ?_, ?_⟩
    · intro q
      rw [hcspec q]
      split
      · exact Or.inl rfl
      · exact Or.inr rfl
    · intro a b ha hb
      refine allPathReach2 hw hh hcspec hclen2 hcrows2 hP.acc_walls ?_
        htotal (cells_carved htotal hdims.2.2) a b ha hb
      intro e he
      rw [List.nil_append] at he
      exact hpool_mem e (hcsub e he)

/-- A successful result fixes the template lookup. -/
theorem create_ok_shape (level_number : Int) (rnd : Rnd) (out : LevelData)
    (hout : create_randomized_level level_number rnd = GenResult.ok out) :
    ∃ ld, get_level level_number = some ld ∧ ld.layout ≠ [] ∧
      create_randomized_level level_number rnd =
        build_level (ld.layout.headD []).length ld.layout.length
          level_number ld.time_limit rnd := by
  by_cases hrange : 1 ≤ level_number ∧
      level_number ≤ (ALL_LEVELS.length : Int)
  · have h1 := hrange.1
    have h2 : level_number ≤ 10 := hrange.2
    interval_cases level_number
    · exact ⟨LEVEL_1, rfl, by decide,
        create_eq_build 1 rnd LEVEL_1 ⟨by decide, by decide⟩ rfl
          (by decide)⟩
    · exact ⟨LEVEL_2, rfl, by decide,
        create_eq_build 2 rnd LEVEL_2 ⟨by decide, by decide⟩ rfl
          (by decide)⟩
    · exact ⟨LEVEL_3, rfl, by decide,
        create_eq_build 3 rnd LEVEL_3 ⟨by decide, by decide⟩ rfl
          (by decide)⟩
    · exact ⟨LEVEL_4, rfl, by decide,
        create_eq_build 4 rnd LEVEL_4 ⟨by decide, by decide⟩ rfl
          (by decide)⟩
    · exact ⟨LEVEL_5, rfl, by decide,
        create_eq_build 5 rnd LEVEL_5 ⟨by decide, by decide⟩ rfl
          (by decide)⟩
    · exact ⟨LEVEL_6, rfl, by decide,
        create_eq_build 6 rnd LEVEL_6 ⟨by decide, by decide⟩ rfl
          (by decide)⟩
    · exact ⟨LEVEL_7, rfl, by decide,
        create_eq_build 7 rnd LEVEL_7 ⟨by decide, by decide⟩ rfl
          (by decide)⟩
    · exact ⟨LEVEL_8, rfl, by decide,
        create_eq_build 8 rnd LEVEL_8 ⟨by decide, by decide⟩ rfl
          (by decide)⟩
    · exact ⟨LEVEL_9, rfl, by decide,
        create_eq_build 9 rnd LEVEL_9 ⟨by decide, by decide⟩ rfl
          (by decide)⟩
    · exact ⟨LEVEL_10, rfl, by decide,
        create_eq_build 10 rnd LEVEL_10 ⟨by decide, by decide⟩ rfl
          (by decide)⟩
  · unfold create_randomized_level at hout
    rw [if_pos hrange] at hout
    exact absurd hout (fun h => GenResult.noConfusion h)

/-- A successful `build_level` run pins down every component of the
produced level. -/
theorem build_level_ok_inv (width height : Nat) (ln : Int)
    (tl : Option Nat) (rnd : Rnd) (out : LevelData)
    (hout : build_level width height ln tl rnd = GenResult.ok out) :
    ∃ pp rest ep,
      path_coords_of ((MazeGenerator.make width height).generate rnd) =
        pp :: rest ∧
      rest.getLast? = some ep ∧
      out = { number := ln.toNat,
              layout := layout2_of width height rnd pp ep,
              obstacles := obstacles_of width height ln rnd pp ep rest,
              collectibles := collectibles_of width height ln rnd pp ep
                rest,
              time_limit := tl } := by
  rcases hpc : path_coords_of ((MazeGenerator.make width height).generate
      rnd) with _ | ⟨pp, rest⟩
  · rw [build_level_no_paths width height ln tl rnd hpc] at hout
    exact absurd hout (fun h => GenResult.noConfusion h)
  · rcases hlast : rest.getLast? with _ | ep
    · rw [build_level_crash_spec width height ln tl rnd pp rest hpc
        hlast] at hout
      exact absurd hout (fun h => GenResult.noConfusion h)
    · rw [build_level_ok_spec width height ln tl rnd pp ep rest hpc
        hlast] at hout
      exact ⟨pp, rest, ep, rfl, hlast, (GenResult.ok.inj hout).symm⟩

theorem layout2_height (gen : Layout) (pp ep : Pos) :
    layoutHeight (setTile (setTile gen pp.1.toNat pp.2.toNat
      Tile.player_start) ep.1.toNat ep.2.toNat Tile.exit_mark) =
      layoutHeight gen := by
  show (setTile _ _ _ _).length = _
  rw [length_setTile, length_setTile]
  rfl

theorem layout2_width (gen : Layout) (pp ep : Pos) :
    layoutWidth (setTile (setTile gen pp.1.toNat pp.2.toNat
      Tile.player_start) ep.1.toNat ep.2.toNat Tile.exit_mark) =
      layoutWidth gen := by
  rw [layoutWidth_eq_getD, layoutWidth_eq_getD, row_length_setTile,
    row_length_setTile]

/-- Full dissection of a successfully generated level: unique markers,
pairwise-distinct special coordinates, and reachability of the exit and of
every collectible from the start past the committed obstacle set. -/
theorem ok_level_properties (level_number : Int) (rnd : Rnd)
    (hv : ValidRnd rnd) (out : LevelData)
    (hout : create_randomized_level level_number rnd = GenResult.ok out) :
    ∃ pp ep : Pos, pp ≠ ep ∧
      (∀ q, tileAt out.layout q = Tile.player_start ↔ q = pp) ∧
      (∀ q, tileAt out.layout q = Tile.exit_mark ↔ q = ep) ∧
      (out.obstacles ++ out.collectibles).Nodup ∧
      pp ∉ out.obstacles ∧ pp ∉ out.collectibles ∧
      ep ∉ out.obstacles ∧ ep ∉ out.collectibles ∧
      ep ∈ find_reachable_nodes out.layout pp out.obstacles ∧
      (∀ c ∈ out.collectibles,
        c ∈ find_reachable_nodes out.layout pp out.obstacles) := by
  obtain ⟨ld, hld, hlne, heq⟩ := create_ok_shape level_number rnd out hout
  rw [heq] at hout
  obtain ⟨pp, rest, ep, hpc, hlast, hout2⟩ :=
    build_level_ok_inv _ _ _ _ rnd out hout
  subst hout2
  dsimp only
  obtain ⟨hmlen, hmrows, hmbin, hmreach⟩ :=
    generate_master (ld.layout.headD []).length ld.layout.length rnd
      default_loop_probability hv
  have hcensus_nodup := path_coords_nodup
    ((MazeGenerator.make (ld.layout.headD []).length
      ld.layout.length).generate rnd)
  rw [hpc, List.nodup_cons] at hcensus_nodup
  obtain ⟨hpp_nrest, hrest_nodup⟩ := hcensus_nodup
  have hep_rest : ep ∈ rest := List.mem_of_mem_getLast? hlast
  have hne : pp ≠ ep := fun h => hpp_nrest (h ▸ hep_rest)
  have hppmem : pp ∈ path_coords_of ((MazeGenerator.make
      (ld.layout.headD []).length ld.layout.length).generate rnd) := by
    rw [hpc]
    exact List.mem_cons_self _ _
  have hepmem : ep ∈ path_coords_of ((MazeGenerator.make
      (ld.layout.headD []).length ld.layout.length).generate rnd) := by
    rw [hpc]
    exact List.mem_cons_of_mem _ hep_rest
  obtain ⟨hpp1, hpp2, hpp3, hpp4, hpp_path⟩ := mem_path_coords_facts hppmem
  obtain ⟨hep1, hep2, hep3, hep4, hep_path⟩ := mem_path_coords_facts hepmem
  have hl2 : ∀ q, tileAt (layout2_of (ld.layout.headD []).length
      ld.layout.length rnd pp ep) q =
      if q = ep then Tile.exit_mark
      else if q = pp then Tile.player_start
      else tileAt ((MazeGenerator.make (ld.layout.headD []).length
        ld.layout.length).generate rnd) q := by
    intro q
    exact layout2_tileAt hpp1 hpp2 hpp3 hpp4 hep1 hep2 hep3 hep4 q
  have hPmark : ∀ q, tileAt (layout2_of (ld.layout.headD []).length
      ld.layout.length rnd pp ep) q = Tile.player_start ↔ q = pp := by
    intro q
    rw [hl2 q]
    by_cases hqe : q = ep
    · rw [if_pos hqe]
      exact ⟨fun h => absurd h (fun hh => Tile.noConfusion hh),
        fun h => absurd (h.symm.trans hqe) hne⟩
    · rw [if_neg hqe]
      by_cases hqp : q = pp
      · rw [if_pos hqp]
        exact ⟨fun _ => hqp, fun _ => rfl⟩
      · rw [if_neg hqp]
        refine ⟨fun h => ?_, fun h => absurd h hqp⟩
        rcases hmbin q with hq | hq <;> rw [hq] at h <;>
          exact absurd h (fun hh => Tile.noConfusion hh)
  have hEmark : ∀ q, tileAt (layout2_of (ld.layout.headD []).length
      ld.layout.length rnd pp ep) q = Tile.exit_mark ↔ q = ep := by
    intro q
    rw [hl2 q]
    by_cases hqe : q = ep
    · rw [if_pos hqe]
      exact ⟨fun _ => hqe, fun _ => rfl⟩
    · rw [if_neg hqe]
      by_cases hqp : q = pp
      · rw [if_pos hqp]
        exact ⟨fun h => absurd h (fun hh => Tile.noConfusion hh),
          fun h => absurd h hqe⟩
      · rw [if_neg hqp]
        refine ⟨fun h => ?_, fun h => absurd h hqe⟩
        rcases hmbin q with hq | hq <;> rw [hq] at h <;>
          exact absurd h (fun hh => Tile.noConfusion hh)
  have hOframe : obstacles_of (ld.layout.headD []).length ld.layout.length
      level_number rnd pp ep rest =
      (place_obstacles (layout2_of (ld.layout.headD []).length
        ld.layout.length rnd pp ep) pp ep (level_number.toNat / 3) []
        (rnd.shuffle_positions rest.dropLast)).1 := rfl
  have hpoolperm : (rnd.shuffle_positions rest.dropLast).Perm
      rest.dropLast := hv.2.1 _
  have hdl_nodup : rest.dropLast.Nodup :=
    (List.dropLast_sublist rest).nodup hrest_nodup
  have hpool_nodup : (rnd.shuffle_positions rest.dropLast).Nodup :=
    (hpoolperm.nodup_iff).mpr hdl_nodup
  have hOperm := place_obstacles_perm (layout2_of
      (ld.layout.headD []).length ld.layout.length rnd pp ep) pp ep
    (level_number.toNat / 3) [] (rnd.shuffle_positions rest.dropLast)
  rw [List.nil_append] at hOperm
  have hO_nodup : (obstacles_of (ld.layout.headD []).length
      ld.layout.length level_number rnd pp ep rest).Nodup := by
    rw [hOframe]
    exact ((hOperm.nodup_iff).mpr hpool_nodup).of_append_left
  have hO_sub : ∀ a ∈ obstacles_of (ld.layout.headD []).length
      ld.layout.length level_number rnd pp ep rest, a ∈ rest.dropLast := by
    intro a ha
    rw [hOframe] at ha
    have hmem : a ∈ (place_obstacles (layout2_of
        (ld.layout.headD []).length ld.layout.length rnd pp ep) pp ep
        (level_number.toNat / 3) []
        (rnd.shuffle_positions rest.dropLast)).1 ++
        (place_obstacles (layout2_of (ld.layout.headD []).length
        ld.layout.length rnd pp ep) pp ep (level_number.toNat / 3) []
        (rnd.shuffle_positions rest.dropLast)).2 :=
      List.mem_append.mpr (Or.inl ha)
    rw [hOperm.mem_iff] at hmem
    exact (hpoolperm.mem_iff).mp hmem
  have hrest_ne : rest ≠ [] := by
    intro h
    rw [h] at hlast
    simp at hlast
  have hep_eq : ep = rest.getLast hrest_ne := by
    have h := List.getLast?_eq_getLast rest hrest_ne
    rw [hlast] at h
    exact Option.some.inj h
  have hep_ndl : ep ∉ rest.dropLast := by
    intro hmem
    have hnodup2 : (rest.dropLast ++ [rest.getLast hrest_ne]).Nodup := by
      rw [List.dropLast_concat_getLast hrest_ne]
      exact hrest_nodup
    rw [List.nodup_append] at hnodup2
    exact hnodup2.2.2 hmem
      (List.mem_singleton.mpr hep_eq)
  have hpp_nO : pp ∉ obstacles_of (ld.layout.headD []).length
      ld.layout.length level_number rnd pp ep rest :=
    fun h => hpp_nrest (List.dropLast_subset rest (hO_sub pp h))
  have hep_nO : ep ∉ obstacles_of (ld.layout.headD []).length
      ld.layout.length level_number rnd pp ep rest :=
    fun h => hep_ndl (hO_sub ep h)
  have hCmem : ∀ c ∈ collectibles_of (ld.layout.headD []).length
      ld.layout.length level_number rnd pp ep rest,
      c ∈ find_reachable_nodes (layout2_of (ld.layout.headD []).length
        ld.layout.length rnd pp ep) pp
        (obstacles_of (ld.layout.headD []).length ld.layout.length
          level_number rnd pp ep rest) ∧
      c ≠ pp ∧ c ≠ ep ∧ c ∉ obstacles_of (ld.layout.headD []).length
        ld.layout.length level_number rnd pp ep rest := by
    intro c hc
    have h1 : c ∈ valid_collectible_locs_of (ld.layout.headD []).length
        ld.layout.length level_number rnd pp ep rest :=
      List.take_subset _ _ hc
    have h2 := ((hv.2.2 _).mem_iff).mp h1
    rw [List.mem_filter] at h2
    obtain ⟨h3, h4⟩ := h2
    simp only [Bool.and_eq_true, Bool.not_eq_true',
      decide_eq_false_iff_not] at h4
    exact ⟨h3, h4.1.1, h4.1.2, h4.2⟩
  have hC_nodup : (collectibles_of (ld.layout.headD []).length
      ld.layout.length level_number rnd pp ep rest).Nodup :=
    (List.take_sublist _ _).nodup
      (((hv.2.2 _).nodup_iff).mpr
        (List.Nodup.filter _ (find_reachable_nodes_nodup _ _ _)))
  have hexit : ep ∈ find_reachable_nodes (layout2_of
      (ld.layout.headD []).length ld.layout.length rnd pp ep) pp
      (obstacles_of (ld.layout.headD []).length ld.layout.length
        level_number rnd pp ep rest) := by
    rcases place_obstacles_exit (layout2_of (ld.layout.headD []).length
        ld.layout.length rnd pp ep) pp ep (level_number.toNat / 3) []
        (rnd.shuffle_positions rest.dropLast) (Or.inl rfl) with hOe | hre
    · have hOe2 : obstacles_of (ld.layout.headD []).length
          ld.layout.length level_number rnd pp ep rest = [] :=
        hOframe.trans hOe
      rw [hOe2, mem_find_reachable_nodes_iff]
      refine tileReach_congr ?_ ?_ ?_ (hmreach pp ep hpp_path hep_path)
      · exact layout2_height _ pp ep
      · exact layout2_width _ pp ep
      · intro q
        rw [hl2 q]
        by_cases hqe : q = ep
        · rw [if_pos hqe, hqe, hep_path]
          exact ⟨fun h => absurd h (fun hh => Tile.noConfusion hh),
            fun h => absurd h (fun hh => Tile.noConfusion hh)⟩
        · rw [if_neg hqe]
          by_cases hqp : q = pp
          · rw [if_pos hqp, hqp, hpp_path]
            exact ⟨fun h => absurd h (fun hh => Tile.noConfusion hh),
              fun h => absurd h (fun hh => Tile.noConfusion hh)⟩
          · rw [if_neg hqp]
    · exact hre
  refine ⟨pp, ep, hne, hPmark, hEmark, ?_, hpp_nO, ?_, hep_nO, ?_,
    hexit, fun c hc => (hCmem c hc).1⟩
  · rw [List.nodup_append]
    exact ⟨hO_nodup, hC_nodup, fun a haO haC => (hCmem a haC).2.2.2 haO⟩
  · intro h
    exact (hCmem pp h).2.1 rfl
  · intro h
    exact (hCmem ep h).2.2.1 rfl

/-- The payload of a successful generation, used to name a concretely
generated level inside closed statements. -/
def genResult_level : GenResult → LevelData
  | GenResult.ok ld => ld
  | _ => { number := 0, layout := [] }

/-- C2: every level returned by `create_randomized_level` has exactly one
PlayerStart tile and exactly one Exit tile at distinct coordinates, and
start, exit, obstacles and collectibles are pairwise distinct: the
obstacle and collectible lists are duplicate-free and disjoint, and
neither contains the start or exit coordinate. -/
theorem C2_unique_markers_pairwise_distinct (level_number : Int)
    (rnd : Rnd) (hv : ValidRnd rnd) (out : LevelData)
    (hout : create_randomized_level level_number rnd = GenResult.ok out) :
    ∃ pp ep : Pos, pp ≠ ep ∧
      (∀ q, tileAt out.layout q = Tile.player_start ↔ q = pp) ∧
      (∀ q, tileAt out.layout q = Tile.exit_mark ↔ q = ep) ∧
      (out.obstacles ++ out.collectibles).Nodup ∧
      pp ∉ out.obstacles ∧ pp ∉ out.collectibles ∧
      ep ∉ out.obstacles ∧ ep ∉ out.collectibles := by
  obtain ⟨pp, ep, h1, h2, h3, h4, h5, h6, h7, h8, _, _⟩ :=
    ok_level_properties level_number rnd hv out hout
  exact ⟨pp, ep, h1, h2, h3, h4, h5, h6, h7, h8⟩

theorem C2_unique_markers_pairwise_distinct_witness :
    (ValidRnd idRnd ∧ create_randomized_level 1 idRnd =
      GenResult.ok (genResult_level (create_randomized_level 1 idRnd))) ∧
    (∃ pp ep : Pos, pp ≠ ep ∧
      (∀ q, tileAt (genResult_level
        (create_randomized_level 1 idRnd)).layout q = Tile.player_start ↔
        q = pp) ∧
      (∀ q, tileAt (genResult_level
        (create_randomized_level 1 idRnd)).layout q = Tile.exit_mark ↔
        q = ep) ∧
      ((genResult_level (create_randomized_level 1 idRnd)).obstacles ++
        (genResult_level (create_randomized_level 1 idRnd)).collectibles).Nodup ∧
      pp ∉ (genResult_level (create_randomized_level 1 idRnd)).obstacles ∧
      pp ∉ (genResult_level
        (create_randomized_level 1 idRnd)).collectibles ∧
      ep ∉ (genResult_level (create_randomized_level 1 idRnd)).obstacles ∧
      ep ∉ (genResult_level
        (create_randomized_level 1 idRnd)).collectibles) :=
  ⟨⟨validRnd_idRnd, rfl⟩,
    C2_unique_markers_pairwise_distinct 1 idRnd validRnd_idRnd _ rfl⟩

/-- C1: in every level returned by `create_randomized_level`, the exit
coordinate and every collectible coordinate lie in the reachable set
computed from the start coordinate with the final committed obstacle set
as the blocked set. -/
theorem C1_exit_and_collectibles_reachable (level_number : Int)
    (rnd : Rnd) (hv : ValidRnd rnd) (out : LevelData)
    (hout : create_randomized_level level_number rnd = GenResult.ok out) :
    ∃ pp ep : Pos,
      (∀ q, tileAt out.layout q = Tile.player_start ↔ q = pp) ∧
      (∀ q, tileAt out.layout q = Tile.exit_mark ↔ q = ep) ∧
      ep ∈ find_reachable_nodes out.layout pp out.obstacles ∧
      (∀ c ∈ out.collectibles,
        c ∈ find_reachable_nodes out.layout pp out.obstacles) := by
  obtain ⟨pp, ep, _, h2, h3, _, _, _, _, _, h9, h10⟩ :=
    ok_level_properties level_number rnd hv out hout
  exact ⟨pp, ep, h2, h3, h9, h10⟩

theorem C1_exit_and_collectibles_reachable_witness :
    (ValidRnd idRnd ∧ create_randomized_level 1 idRnd =
      GenResult.ok (genResult_level (create_randomized_level 1 idRnd))) ∧
    (∃ pp ep : Pos,
      (∀ q, tileAt (genResult_level
        (create_randomized_level 1 idRnd)).layout q = Tile.player_start ↔
        q = pp) ∧
      (∀ q, tileAt (genResult_level
        (create_randomized_level 1 idRnd)).layout q = Tile.exit_mark ↔
        q = ep) ∧
      ep ∈ find_reachable_nodes (genResult_level
        (create_randomized_level 1 idRnd)).layout pp
        (genResult_level (create_randomized_level 1 idRnd)).obstacles ∧
      (∀ c ∈ (genResult_level
          (create_randomized_level 1 idRnd)).collectibles,
        c ∈ find_reachable_nodes (genResult_level
          (create_randomized_level 1 idRnd)).layout pp
          (genResult_level (create_randomized_level 1 idRnd)).obstacles)) :=
  ⟨⟨validRnd_idRnd, rfl⟩,
    C1_exit_and_collectibles_reachable 1 idRnd validRnd_idRnd _ rfl⟩

end GyroMaze
